import Mathlib

/-!
DynamicLambda: closures bound to reflected dynamic delegates.

A shallow embedding of `FDynamicLambdaManager` (`DynamicLambda.h`, `DynamicLambda.cpp`).

The manager keeps a registry `Storage : class ↦ (slot name ↦ FLambdaStorage)`, a pool of
recycled `UFunction` objects and a static name counter.  The host engine is represented only
by the parts the manager reads or writes: the class tables (`NativeFunctionLookupTable`,
`FuncMap`, reflected properties), the `UFunction` objects, the global object table, and the
memory cells that hold delegates.  Invoking a stored closure is recorded in a trace.

Conventions
* object, class and function pointers are natural numbers; address `0` is `nullptr`;
* `TMap` is an association list holding at most one value per key;
* code that can hit a fatal check (`checkf`, `operator[]` on a missing key, a null
  dereference) returns `Option`, `none` standing for the abort.
-/

namespace DynamicLambda

/-! ## Engine containers -/

/-- The engine's `TMap`: an association list.  A `TMap` never holds two values for one key;
that is the predicate `TMap.UniqueKeys`. -/
abbrev TMap (K V : Type) := List (K × V)

namespace TMap

variable {K V : Type} [DecidableEq K]

/-- Engine container operation `TMap::Find`: the value stored for a key, if any. -/
def Find (m : TMap K V) (k : K) : Option V :=
  match m with
  | [] => none
  | (k', v) :: rest => if k' = k then some v else Find rest k

/-- Engine container operation `TMap::Add(Key, Value)`: replaces the value of an existing key, else
adds a new pair. -/
def Add (m : TMap K V) (k : K) (v : V) : TMap K V :=
  match m with
  | [] => [(k, v)]
  | (k', v') :: rest => if k' = k then (k, v) :: rest else (k', v') :: Add rest k v

/-- Engine container operation `TMap::Remove(Key)`: removes every pair stored for the key. -/
def Remove (m : TMap K V) (k : K) : TMap K V :=
  m.filter (fun kv => !decide (kv.1 = k))

/-- The keys of the map, in iteration order. -/
def Keys (m : TMap K V) : List K := m.map Prod.fst

/-- A well-formed `TMap` holds at most one value per key. -/
def UniqueKeys (m : TMap K V) : Prop := (m.map Prod.fst).Nodup

end TMap

/-- Engine container operation `TArray::IndexOfByPredicate`: index of the first element satisfying
the predicate (`none` stands for `INDEX_NONE`). -/
def IndexOfByPredicate {α : Type} (Pred : α → Bool) : List α → Option Nat
  | [] => none
  | x :: xs => if Pred x then some 0 else (IndexOfByPredicate Pred xs).map (· + 1)

/-- Engine container operation `TArray::RemoveAtSwap(Index, 1, false)`: removes the element at
`Index`, moving the last element of the array into the hole. -/
def RemoveAtSwap {α : Type} (xs : List α) (Index : Nat) : List α :=
  match xs.getLast? with
  | none => xs
  | some last =>
    if Index + 1 < xs.length then (xs.set Index last).dropLast
    else if Index + 1 = xs.length then xs.dropLast
    else xs

/-! ## Data model -/

/-- Slot names (`FName`), compared as text. -/
abbrev FName := String

/-- Identity of a reflected class (`UClass*`). -/
abbrev UClass := Nat

/-- Identity (address) of a synthesized `UFunction` object. -/
abbrev UFunction := Nat

/-- A stored closure `TFunction<void()>`, identified by a number; running it is recorded in
`World.Invocations`. -/
abbrev TFunction := Nat

/-- A reflected object: start address, identity used by weak pointers, class and the two
properties `ShouldSkipObject` asks for. -/
structure UObject where
  Address : Nat
  Serial : Nat
  Class : UClass
  ClassDefaultObject : Bool
  Asset : Bool
  deriving DecidableEq, Repr

/-- One slot of the global object table `GUObjectArray`. -/
structure FUObjectItem where
  Object : Option UObject
  PendingKill : Bool
  Unreachable : Bool
  deriving DecidableEq, Repr

/-- Modelled from the spec: the host's weak reference type `TWeakObjectPtr<UObject>`, made
from an object and later asked for validity without preventing reclamation: `none` is the
explicitly-null pointer, `some s` refers to the object with identity `s`, which may have been
reclaimed since. -/
abbrev TWeakObjectPtr := Option Nat

/-- Modelled from the spec: the host's `TWeakObjectPtr::IsExplicitlyNull`, true of the
never-assigned pointer only. -/
def TWeakObjectPtr.IsExplicitlyNull (p : TWeakObjectPtr) : Bool := p.isNone

/-- Modelled from the spec: the host's `TWeakObjectPtr::IsValid`: the referent is still in the
object table and is neither pending kill nor unreachable. -/
def TWeakObjectPtr.IsValid (Objects : List FUObjectItem) (p : TWeakObjectPtr) : Bool :=
  match p with
  | none => false
  | some s =>
    Objects.any (fun Item =>
      match Item.Object with
      | none => false
      | some o => decide (o.Serial = s) && !Item.PendingKill && !Item.Unreachable)

/-- Modelled from the spec: the host's `TWeakObjectPtr::Get`: the referent when valid, else
`nullptr` (`none`). -/
def TWeakObjectPtr.Get (Objects : List FUObjectItem) (p : TWeakObjectPtr) : Option Nat :=
  if TWeakObjectPtr.IsValid Objects p then p else none

/-- All delegate data needed for its owner resolving. -/
structure FDelegateData where
  Pointer : Nat
  IsMulticast : Bool
  deriving DecidableEq, Repr

/-- One registry entry. -/
structure FLambdaStorage where
  DelegateData : FDelegateData
  DelegateOwner : TWeakObjectPtr
  LambdaOwner : TWeakObjectPtr
  Lambda : TFunction
  deriving DecidableEq, Repr

/-- Embedding of `FLambdaStorage::IsValid`: `DelegateOwner.IsValid() && LambdaOwner.IsValid()`. -/
def FLambdaStorage.IsValid (Objects : List FUObjectItem) (e : FLambdaStorage) : Bool :=
  TWeakObjectPtr.IsValid Objects e.DelegateOwner && TWeakObjectPtr.IsValid Objects e.LambdaOwner

/-- Native code a lookup-table item or a function can point to. -/
inductive FNativeFuncPtr where
  | RouteToLambda
  | Other (Id : Nat)
  deriving DecidableEq, Repr

/-- An item of `UClass::NativeFunctionLookupTable`. -/
structure FNativeFunctionLookup where
  Name : FName
  Pointer : FNativeFuncPtr
  deriving DecidableEq, Repr

/-- Kind of a reflected property, as far as `IsTheSameDelegate` distinguishes them. -/
inductive EPropertyKind where
  | Delegate
  | MulticastDelegate
  | Other
  deriving DecidableEq, Repr

/-- A reflected field of a class: byte offset from the object start and kind. -/
structure FProperty where
  Offset : Nat
  Kind : EPropertyKind
  deriving DecidableEq, Repr

/-- The parts of a `UClass` the manager touches.  `Properties` is what
`TFieldIterator<FProperty>` enumerates, `Supers` the chain of super classes searched by
`FindFunctionByName`. -/
structure UClassData where
  NativeFunctionLookupTable : List FNativeFunctionLookup
  FuncMap : TMap FName UFunction
  Properties : List FProperty
  Supers : List UClass
  deriving DecidableEq, Repr

/-- State of a `UFunction` object: its name, its outer class and the native code bound
to it by `UFunction::Bind`. -/
structure UFunctionData where
  Name : FName
  Outer : UClass
  Func : Option FNativeFuncPtr
  deriving DecidableEq, Repr

/-- A single dynamic delegate (`TScriptDelegate`): weak target and function name. -/
structure FScriptDelegate where
  Object : TWeakObjectPtr
  FunctionName : FName
  deriving DecidableEq, Repr

/-- The manager together with the part of the host it works on. -/
structure World where
  /-- Embedding of `FDynamicLambdaManager::Storage`. -/
  Storage : TMap UClass (TMap FName FLambdaStorage)
  /-- Embedding of `FDynamicLambdaManager::FunctionPool`. -/
  FunctionPool : List UFunction
  /-- The function-local `static int32 ID` of `GenerateLambdaName`. -/
  ID : Int
  /-- Class tables of the host. -/
  Classes : UClass → UClassData
  /-- Every `UFunction` object allocated so far; a function's identity is its index. -/
  UFunctions : List UFunctionData
  /-- The global object table. -/
  GUObjectArray : List FUObjectItem
  /-- `GUObjectArray.GetFirstGCIndex()`. -/
  FirstGCIndex : Int
  /-- `FTaskGraphInterface::Get().GetNumWorkerThreads()`. -/
  NumWorkerThreads : Int
  /-- Memory read as a single delegate. -/
  ScriptDelegates : Nat → FScriptDelegate
  /-- Memory read as a multicast delegate: its invocation list. -/
  MulticastDelegates : Nat → List FScriptDelegate
  /-- Trace of closure invocations, oldest first. -/
  Invocations : List TFunction

/-- Overwrites the table of one class, leaving every other class as it is. -/
def SetClass (Classes : UClass → UClassData) (Class : UClass) (Data : UClassData) :
    UClass → UClassData :=
  fun C => if C = Class then Data else Classes C

/-- The registry entry stored for `(Class, LambdaName)`, if any. -/
def World.Entry (w : World) (Class : UClass) (LambdaName : FName) : Option FLambdaStorage :=
  match TMap.Find w.Storage Class with
  | none => none
  | some ClassStorage => TMap.Find ClassStorage LambdaName

/-! ## Post-collection sweep -/

/-- Modelled from the spec: the host's `UClass::FindFunctionByName` with the default `IncludeSuper`:
the class's own function map first, then the super classes in order. -/
def FindFunctionByName (w : World) (Class : UClass) (Name : FName) : Option UFunction :=
  match TMap.Find (w.Classes Class).FuncMap Name with
  | some f => some f
  | none => (w.Classes Class).Supers.findSome? (fun S => TMap.Find (w.Classes S).FuncMap Name)

/-- Embedding of `FDynamicLambdaManager::CleanUpLambda`. -/
def CleanUpLambda (w : World) (Class : UClass) (LambdaName : FName) : Option World :=
  -- Storage[Class].Remove(LambdaName)
  match TMap.Find w.Storage Class with
  | none => none
  | some ClassStorage =>
    let Storage := TMap.Add w.Storage Class (TMap.Remove ClassStorage LambdaName)
    -- remove native function from class
    let LookupTable := (w.Classes Class).NativeFunctionLookupTable
    match IndexOfByPredicate (fun Item => decide (Item.Name = LambdaName)) LookupTable with
    | none => none -- checkf(Index != -1, "Can't find lambda")
    | some Index =>
      let LookupTable := RemoveAtSwap LookupTable Index
      -- remove lambda's UFunction and put it to pool
      match FindFunctionByName w Class LambdaName with
      | none => none -- RemoveFunctionFromFunctionMap dereferences the null Function
      | some Function =>
        match w.UFunctions[Function]? with
        | none => none
        | some FunctionData =>
          let ClassData := w.Classes Class
          let ClassData := { ClassData with
            NativeFunctionLookupTable := LookupTable
            FuncMap := TMap.Remove ClassData.FuncMap FunctionData.Name }
          some { w with
            Storage := Storage
            Classes := SetClass w.Classes Class ClassData
            FunctionPool := w.FunctionPool ++ [Function] }

/-- The clean-up loop of `OnPostGarbageCollect`:
`for (FName LambdaToRemove : LambdasToRemove) CleanUpLambda(ClassKV.Key, LambdaToRemove)`. -/
def CleanUpLambdas (w : World) (Class : UClass) : List FName → Option World
  | [] => some w
  | LambdaToRemove :: rest =>
    match CleanUpLambda w Class LambdaToRemove with
    | none => none
    | some w' => CleanUpLambdas w' Class rest

/-- The gathering loop of `OnPostGarbageCollect`: the keys of the entries that are not
valid, in iteration order. -/
def LambdasToRemove (Objects : List FUObjectItem) (ClassStorage : TMap FName FLambdaStorage) :
    List FName :=
  (ClassStorage.filter (fun KV => !KV.2.IsValid Objects)).map Prod.fst

/-- The outer loop of `OnPostGarbageCollect` over the classes of the registry.  The loop
variable `ClassKV` refers to the live element of `Storage`, so its value is read from the
current state; the classes are the registry's own keys and no clean-up removes a class, so
the element is always there. -/
def SweepClasses (w : World) : List UClass → Option World
  | [] => some w
  | Class :: rest =>
    match TMap.Find w.Storage Class with
    | none => none
    | some ClassStorage =>
      match CleanUpLambdas w Class (LambdasToRemove w.GUObjectArray ClassStorage) with
      | none => none
      | some w' => SweepClasses w' rest

/-- Embedding of `FDynamicLambdaManager::OnPostGarbageCollect`. -/
def OnPostGarbageCollect (w : World) : Option World :=
  SweepClasses w (TMap.Keys w.Storage)

/-! ## Binding -/

/-- Two's complement wrap-around of a 32-bit signed integer. -/
def WrapInt32 (x : Int) : Int := (x + 2147483648) % 4294967296 - 2147483648

/-- The text `GenerateLambdaName` builds for counter value `ID`:
`"lambda_" << ID << '_' << FileName << ':' << LineNumber`. -/
def LambdaNameText (ID : Int) (FileName : String) (LineNumber : Int) : FName :=
  "lambda_" ++ toString ID ++ "_" ++ FileName ++ ":" ++ toString LineNumber

/-- Embedding of `FDynamicLambdaManager::GenerateLambdaName`: pre-increments the static
counter and formats the name.  An increment past the greatest `int32` is taken to wrap
around. -/
def GenerateLambdaName (w : World) (FileName : String) (LineNumber : Int) : FName × World :=
  let ID := WrapInt32 (w.ID + 1)
  (LambdaNameText ID FileName LineNumber, { w with ID := ID })

/-- Modelled from the spec: the host's `UObject::Rename(Name, NewOuter)` on a function object: the
object keeps its identity and gets the new name and outer. -/
def Rename (Functions : List UFunctionData) (Function : UFunction) (Name : FName)
    (NewOuter : UClass) : List UFunctionData :=
  match Functions[Function]? with
  | none => Functions
  | some Data => Functions.set Function { Data with Name := Name, Outer := NewOuter }

/-- Embedding of `FDynamicLambdaManager::CreateFunction`: takes the last function of the pool and
renames it, or allocates a new function object when the pool is empty. -/
def CreateFunction (w : World) (ObjectClass : UClass) (Name : FName) :
    Option (UFunction × World) :=
  match w.FunctionPool.getLast? with
  | some Function =>
    -- FunctionPool.Pop(false), then Rename
    let Functions := Rename w.UFunctions Function Name ObjectClass
    -- checkf(Function->GetFName() == Name, "Name is different")
    match Functions[Function]? with
    | none => none
    | some Data =>
      if Data.Name = Name then
        some (Function, { w with FunctionPool := w.FunctionPool.dropLast, UFunctions := Functions })
      else none
  | none =>
    -- new (..., ObjectClass, Name, ObjectFlags) UFunction(...)
    some (w.UFunctions.length,
      { w with UFunctions := w.UFunctions ++ [{ Name := Name, Outer := ObjectClass, Func := none }] })

/-- Modelled from the spec: the host's `UFunction::Bind` for a native function: takes the code
pointer of the first item of the owner class's lookup table that carries the function's name. -/
def UFunctionBind (w : World) (Function : UFunction) : World :=
  match w.UFunctions[Function]? with
  | none => w
  | some Data =>
    match (w.Classes Data.Outer).NativeFunctionLookupTable.find?
        (fun Item => decide (Item.Name = Data.Name)) with
    | none => w
    | some Found =>
      { w with UFunctions := w.UFunctions.set Function { Data with Func := some Found.Pointer } }

/-- Embedding of `FDynamicLambdaManager::CreateLambdaRouter`. -/
def CreateLambdaRouter (w : World) (ObjectClass : UClass) (LambdaName : FName) :
    Option World :=
  -- ObjectClass->AddNativeFunction(LambdaName, RouteToLambda)
  let ClassData := w.Classes ObjectClass
  let ClassData := { ClassData with
    NativeFunctionLookupTable :=
      ClassData.NativeFunctionLookupTable ++ [{ Name := LambdaName, Pointer := .RouteToLambda }] }
  let w := { w with Classes := SetClass w.Classes ObjectClass ClassData }
  match CreateFunction w ObjectClass LambdaName with
  | none => none
  | some (Function, w) =>
    let w := UFunctionBind w Function
    -- ObjectClass->AddFunctionToFunctionMap(Function, LambdaName)
    let ClassData := w.Classes ObjectClass
    let ClassData := { ClassData with FuncMap := TMap.Add ClassData.FuncMap LambdaName Function }
    some { w with Classes := SetClass w.Classes ObjectClass ClassData }

/-- Embedding of `FDynamicLambdaManager::BindDelegate`: a single delegate is rebound with
`BindUFunction(Object, LambdaName)`; a multicast delegate gets one more registration. -/
def BindDelegate (w : World) (Delegate : Nat) (IsMulticast : Bool) (Object : UObject)
    (LambdaName : FName) : World :=
  let SingleDelegate : FScriptDelegate :=
    { Object := some Object.Serial, FunctionName := LambdaName }
  if IsMulticast then
    { w with MulticastDelegates := fun p =>
        if p = Delegate then w.MulticastDelegates p ++ [SingleDelegate]
        else w.MulticastDelegates p }
  else
    { w with ScriptDelegates := fun p =>
        if p = Delegate then SingleDelegate else w.ScriptDelegates p }

/-- Embedding of `FDynamicLambdaManager::MakeDelegateData`: the delegate's address and whether it is
the multicast overload. -/
def MakeDelegateData (Delegate : Nat) (IsMulticast : Bool) : FDelegateData :=
  { Pointer := Delegate, IsMulticast := IsMulticast }

/-- Embedding of `FDynamicLambdaManager::StoreLambda`. -/
def StoreLambda (w : World) (LambdaName : FName) (Object : UObject)
    (DelegateData : FDelegateData) (Lambda : TFunction) : World :=
  let ObjectClass := Object.Class
  let ClassStorage : TMap FName FLambdaStorage :=
    match TMap.Find w.Storage ObjectClass with
    | none => []
    | some ClassStorage => ClassStorage
  let LambdaStorage : FLambdaStorage :=
    { DelegateData := DelegateData
      DelegateOwner := none
      LambdaOwner := some Object.Serial
      Lambda := Lambda }
  { w with Storage := TMap.Add w.Storage ObjectClass (TMap.Add ClassStorage LambdaName LambdaStorage) }

/-- Embedding of `FDynamicLambdaManager::BindWeakLambdaToDynamicDelegate`.  The delegate is given by
its address and by which overload (single or multicast) its static type selects. -/
def BindWeakLambdaToDynamicDelegate (w : World) (Object : UObject) (Delegate : Nat)
    (IsMulticast : Bool) (Callable : TFunction) (File : String) (Line : Int) : Option World :=
  let (LambdaName, w) := GenerateLambdaName w File Line
  match CreateLambdaRouter w Object.Class LambdaName with
  | none => none
  | some w =>
    let w := BindDelegate w Delegate IsMulticast Object LambdaName
    some (StoreLambda w LambdaName Object (MakeDelegateData Delegate IsMulticast) Callable)

/-! ## Trampoline -/

/-- Embedding of `FDynamicLambdaManager::RouteToLambda`: `Context` is the calling object,
`CurrentNativeFunction` the function the call came through.  Both `operator[]` lookups abort
when the key is missing. -/
def RouteToLambda (w : World) (Context : UObject) (CurrentNativeFunction : UFunction) :
    Option World :=
  match w.UFunctions[CurrentNativeFunction]? with
  | none => none
  | some FunctionData =>
    let LambdaName := FunctionData.Name
    match TMap.Find w.Storage Context.Class with
    | none => none
    | some ClassStorage =>
      match TMap.Find ClassStorage LambdaName with
      | none => none
      | some LambdaStorage => some { w with Invocations := w.Invocations ++ [LambdaStorage.Lambda] }

/-! ## Owner resolution before a collection -/

/-- A resolution record.  `DelegateOwnerPtr` is the address of the `DelegateOwner` member of
the registry entry the record was made from, that is, the entry's place `(class, name)`. -/
structure FDelegateResolvingData where
  DelegateData : FDelegateData
  DelegateOwnerPtr : UClass × FName
  LambdaOwner : TWeakObjectPtr
  LambdaName : FName
  deriving DecidableEq, Repr

/-- The inner loop of `GatherDelegatesToResolve` over one class. -/
def GatherClass (Objects : List FUObjectItem) (Class : UClass)
    (ClassStorage : TMap FName FLambdaStorage) : List FDelegateResolvingData :=
  (ClassStorage.filter (fun KV =>
      KV.2.DelegateOwner.IsExplicitlyNull && TWeakObjectPtr.IsValid Objects KV.2.LambdaOwner)).map
    (fun KV =>
      { DelegateData := KV.2.DelegateData
        DelegateOwnerPtr := (Class, KV.1)
        LambdaOwner := KV.2.LambdaOwner
        LambdaName := KV.1 })

/-- Embedding of `FDynamicLambdaManager::GatherDelegatesToResolve`: one record per entry whose owner
is explicitly null and whose lambda owner is valid, sorted by delegate address. -/
def GatherDelegatesToResolve (w : World) : List FDelegateResolvingData :=
  List.insertionSort (fun Lhs Rhs => Lhs.DelegateData.Pointer ≤ Rhs.DelegateData.Pointer)
    (w.Storage.flatMap (fun ClassKV => GatherClass w.GUObjectArray ClassKV.1 ClassKV.2))

/-- Embedding of `FDynamicLambdaManager::ShouldSkipObject`. -/
def ShouldSkipObject (Item : FUObjectItem) (MaxDelegatePtr : Nat) : Bool :=
  match Item.Object with
  | none => true
  | some Object =>
    -- skip objects that located after the delegates
    if MaxDelegatePtr < Object.Address then true
    -- skip objects that are about to be GCed or purged
    else if Item.PendingKill || Item.Unreachable then true
    -- Skip CDOs and assets
    else if Object.ClassDefaultObject || Object.Asset then true
    else false

/-- Modelled from the spec: the host's `TMulticastScriptDelegate::Contains(Object,
FunctionName)`, the query for a named-target registration: some registration has that
target and that function name. -/
def MulticastContains (Objects : List FUObjectItem) (InvocationList : List FScriptDelegate)
    (InObject : Option Nat) (InFunctionName : FName) : Bool :=
  InvocationList.any (fun Delegate =>
    decide (TWeakObjectPtr.Get Objects Delegate.Object = InObject) &&
      decide (Delegate.FunctionName = InFunctionName))

/-- Embedding of `FDynamicLambdaManager::IsTheSameDelegate`. -/
def IsTheSameDelegate (w : World) (Pointer : Nat) (Property : FProperty)
    (ObjectToResolve : FDelegateResolvingData) : Bool :=
  if ObjectToResolve.DelegateData.IsMulticast && decide (Property.Kind = .MulticastDelegate) then
    MulticastContains w.GUObjectArray (w.MulticastDelegates Pointer)
      (TWeakObjectPtr.Get w.GUObjectArray ObjectToResolve.LambdaOwner) ObjectToResolve.LambdaName
  else if !ObjectToResolve.DelegateData.IsMulticast && decide (Property.Kind = .Delegate) then
    decide (TWeakObjectPtr.Get w.GUObjectArray (w.ScriptDelegates Pointer).Object =
        TWeakObjectPtr.Get w.GUObjectArray ObjectToResolve.LambdaOwner) &&
      decide ((w.ScriptDelegates Pointer).FunctionName = ObjectToResolve.LambdaName)
  else false

/-- What the scan works on: the resolution records, the registry the records point into,
and the shared counter of resolved records. -/
structure FResolveState where
  ObjectsToResolve : List FDelegateResolvingData
  Storage : TMap UClass (TMap FName FLambdaStorage)
  Counter : Int

/-- The assignment `*ObjectToResolve.DelegateOwnerPtr = Object`: the `DelegateOwner` of the
registry entry at the pointed-to place becomes a weak pointer to `Object`. -/
def WriteDelegateOwner (Storage : TMap UClass (TMap FName FLambdaStorage))
    (DelegateOwnerPtr : UClass × FName) (Object : UObject) :
    TMap UClass (TMap FName FLambdaStorage) :=
  Storage.map (fun ClassKV =>
    if ClassKV.1 = DelegateOwnerPtr.1 then
      (ClassKV.1, ClassKV.2.map (fun KV =>
        if KV.1 = DelegateOwnerPtr.2 then
          (KV.1, { KV.2 with DelegateOwner := some Object.Serial })
        else KV))
    else ClassKV)

/-- The body of the inner loop of `TryResolveDelegate` for one property and one record:
returns the record as left by the body, the registry and the counter. -/
def TryResolveRecord (w : World) (Object : UObject) (Property : FProperty)
    (ObjectToResolve : FDelegateResolvingData)
    (Storage : TMap UClass (TMap FName FLambdaStorage)) (Counter : Int) :
    FDelegateResolvingData × TMap UClass (TMap FName FLambdaStorage) × Int :=
  let Pointer := ObjectToResolve.DelegateData.Pointer
  if decide (Pointer ≠ 0) && decide (Object.Address + Property.Offset = Pointer) then
    -- check that found property literally is the same delegate
    if IsTheSameDelegate w Pointer Property ObjectToResolve then
      -- delegate owner found, mark it as resolved
      ({ ObjectToResolve with
          DelegateData := { ObjectToResolve.DelegateData with Pointer := 0 } },
        WriteDelegateOwner Storage ObjectToResolve.DelegateOwnerPtr Object,
        WrapInt32 (Counter + 1))
    else (ObjectToResolve, Storage, Counter)
  else (ObjectToResolve, Storage, Counter)

/-- The inner loop of `TryResolveDelegate`, over the records, for one property. -/
def TryResolveProperty (w : World) (Object : UObject) (Property : FProperty) :
    List FDelegateResolvingData → TMap UClass (TMap FName FLambdaStorage) → Int →
    List FDelegateResolvingData × TMap UClass (TMap FName FLambdaStorage) × Int
  | [], Storage, Counter => ([], Storage, Counter)
  | ObjectToResolve :: rest, Storage, Counter =>
    let (Record, Storage, Counter) :=
      TryResolveRecord w Object Property ObjectToResolve Storage Counter
    let (Records, Storage, Counter) := TryResolveProperty w Object Property rest Storage Counter
    (Record :: Records, Storage, Counter)

/-- The outer loop of `TryResolveDelegate`, over the reflected properties of the object's
class. -/
def TryResolveProperties (w : World) (Object : UObject) :
    List FProperty → FResolveState → FResolveState
  | [], State => State
  | Property :: rest, State =>
    let (Records, Storage, Counter) :=
      TryResolveProperty w Object Property State.ObjectsToResolve State.Storage State.Counter
    TryResolveProperties w Object rest
      { ObjectsToResolve := Records, Storage := Storage, Counter := Counter }

/-- Embedding of `FDynamicLambdaManager::TryResolveDelegate`.  `ObjectsToResolve.Last()` aborts on
an empty array. -/
def TryResolveDelegate (w : World) (Item : FUObjectItem) (State : FResolveState) :
    Option FResolveState :=
  match State.ObjectsToResolve.getLast? with
  | none => none
  | some Last =>
    if ShouldSkipObject Item Last.DelegateData.Pointer then some State
    else
      match Item.Object with
      | none => some State
      | some Object =>
        some (TryResolveProperties w Object (w.Classes Object.Class).Properties State)

/-- Modelled from the spec: the host's `GUObjectArray.IndexToObjectUnsafeForGC(Idx)`: the item at an
index of the table. -/
def IndexToObjectUnsafeForGC (w : World) (Idx : Int) : Option FUObjectItem :=
  if 0 ≤ Idx then w.GUObjectArray[Idx.toNat]? else none

/-- The loop `for (Idx = FirstObjectIndex; Idx <= LastObjectIndex; ++Idx)` of one worker,
with `Count` iterations left; it is left early once the counter equals the number of
records. -/
def ScanRange (w : World) (Idx : Int) : Nat → FResolveState → Option FResolveState
  | 0, State => some State
  | Count + 1, State =>
    match IndexToObjectUnsafeForGC w Idx with
    | none => none
    | some Item =>
      match TryResolveDelegate w Item State with
      | none => none
      | some State =>
        -- at the end of iteration check if all delegates were resolved
        if State.Counter = State.ObjectsToResolve.length then some State
        else ScanRange w (Idx + 1) Count State

/-- The `ObjectsPerThread` of `ResolveDelegates`:
`(GUObjectArray.GetObjectArrayNum() / Threads) + 1`, computed in `int32`. -/
def ObjectsPerThread (ObjectArrayNum Threads : Int) : Int :=
  WrapInt32 (Int.tdiv ObjectArrayNum Threads + 1)

/-- The `FirstObjectIndex` of worker `Id`: `Id * ObjectsPerThread + GetFirstGCIndex()`,
computed in `int32`. -/
def FirstObjectIndex (ObjectArrayNum FirstGCIndex Threads Id : Int) : Int :=
  WrapInt32 (WrapInt32 (Id * ObjectsPerThread ObjectArrayNum Threads) + FirstGCIndex)

/-- The `NumObjects` of worker `Id`:
`Id < Threads - 1 ? ObjectsPerThread : MaxObjects - (Threads - 1) * ObjectsPerThread`,
computed in `int32`. -/
def NumObjects (ObjectArrayNum FirstGCIndex Threads Id : Int) : Int :=
  let MaxObjects := WrapInt32 (ObjectArrayNum - FirstGCIndex)
  if Id < WrapInt32 (Threads - 1) then ObjectsPerThread ObjectArrayNum Threads
  else
    WrapInt32 (MaxObjects -
      WrapInt32 (WrapInt32 (Threads - 1) * ObjectsPerThread ObjectArrayNum Threads))

/-- The `LastObjectIndex` of worker `Id`:
`FMath::Min(GetObjectArrayNum() - 1, FirstObjectIndex + NumObjects - 1)`, computed in
`int32`. -/
def LastObjectIndex (ObjectArrayNum FirstGCIndex Threads Id : Int) : Int :=
  min (WrapInt32 (ObjectArrayNum - 1))
    (WrapInt32 (WrapInt32 (FirstObjectIndex ObjectArrayNum FirstGCIndex Threads Id +
      NumObjects ObjectArrayNum FirstGCIndex Threads Id) - 1))

/-- The body of the `ParallelFor` of `ResolveDelegates` for worker `Id`. -/
def ResolveWorker (w : World) (Threads Id : Int) (State : FResolveState) :
    Option FResolveState :=
  let ObjectArrayNum : Int := w.GUObjectArray.length
  let First := FirstObjectIndex ObjectArrayNum w.FirstGCIndex Threads Id
  let Last := LastObjectIndex ObjectArrayNum w.FirstGCIndex Threads Id
  ScanRange w First (Last - First + 1).toNat State

/-- The workers of the `ParallelFor`, run one after the other in the order of their ids. -/
def RunWorkers (w : World) (Threads : Int) : List Nat → FResolveState → Option FResolveState
  | [], State => some State
  | Id :: rest, State =>
    match ResolveWorker w Threads Id State with
    | none => none
    | some State => RunWorkers w Threads rest State

/-- Embedding of `FDynamicLambdaManager::ResolveDelegates`.  `Counter` is the content of the
`std::atomic<int32>` the function declares without initialising it. -/
def ResolveDelegates (w : World) (ObjectsToResolve : List FDelegateResolvingData)
    (Counter : Int) : Option FResolveState :=
  let Threads := max 1 w.NumWorkerThreads
  RunWorkers w Threads (List.range Threads.toNat)
    { ObjectsToResolve := ObjectsToResolve, Storage := w.Storage, Counter := Counter }

/-- Embedding of `FDynamicLambdaManager::OnPreGarbageCollect`.  `Counter` is the initial content of
the counter of `ResolveDelegates`. -/
def OnPreGarbageCollect (w : World) (Counter : Int) : Option World :=
  let DelegatesToResolve := GatherDelegatesToResolve w
  if DelegatesToResolve.length = 0 then
    -- nothing to do
    some w
  else
    match ResolveDelegates w DelegatesToResolve Counter with
    | none => none
    | some State => some { w with Storage := State.Storage }


/-! ## Consistency of the registry with the dispatch tables -/

/-- The dispatch tables of `Class` route the slot name: the native function lookup table
has an item of that name, and the function map holds under that name a function object
that carries the name. -/
def HasRouter (w : World) (Class : UClass) (LambdaName : FName) : Bool :=
  (w.Classes Class).NativeFunctionLookupTable.any (fun Item => decide (Item.Name = LambdaName)) &&
    match TMap.Find (w.Classes Class).FuncMap LambdaName with
    | none => false
    | some Function =>
      match w.UFunctions[Function]? with
      | none => false
      | some Data => decide (Data.Name = LambdaName)

/-- The registry is a well-formed map of well-formed maps, and every entry has its router
in the tables of its class. -/
def Consistent (w : World) : Prop :=
  TMap.UniqueKeys w.Storage ∧
    ∀ ClassKV ∈ w.Storage, TMap.UniqueKeys ClassKV.2 ∧
      ∀ KV ∈ ClassKV.2, HasRouter w ClassKV.1 KV.1 = true

instance (w : World) : Decidable (Consistent w) := by
  unfold Consistent TMap.UniqueKeys
  infer_instance

/-- The names the sweep gathers for a class: those of its entries that are not valid. -/
def RemovedNames (w : World) (Class : UClass) : List FName :=
  match TMap.Find w.Storage Class with
  | none => []
  | some ClassStorage => LambdasToRemove w.GUObjectArray ClassStorage

/-- Effect of cleaning up the slots `Names` on the tables of one class: the lookup table
loses one item per name (and is otherwise only reordered), the function map loses the
names, nothing else changes. -/
structure ClassSwept (d : UClassData) (Names : List FName) (d' : UClassData) : Prop where
  table : ∃ Items : List FNativeFunctionLookup, Items.map (fun Item => Item.Name) = Names ∧
    List.Perm d.NativeFunctionLookupTable (Items ++ d'.NativeFunctionLookupTable)
  funcMap : d'.FuncMap = d.FuncMap.filter (fun KV => decide (KV.1 ∉ Names))
  properties : d'.Properties = d.Properties
  supers : d'.Supers = d.Supers

/-- The parts of the world the sweep leaves alone. -/
structure SweepFrame (w w' : World) : Prop where
  objects : w'.GUObjectArray = w.GUObjectArray
  functions : w'.UFunctions = w.UFunctions
  id : w'.ID = w.ID
  firstGCIndex : w'.FirstGCIndex = w.FirstGCIndex
  threads : w'.NumWorkerThreads = w.NumWorkerThreads
  scriptDelegates : w'.ScriptDelegates = w.ScriptDelegates
  multicastDelegates : w'.MulticastDelegates = w.MulticastDelegates
  invocations : w'.Invocations = w.Invocations

/-- Effect of cleaning up the slots `Names` of `Class`. -/
structure SweptClass (w : World) (Class : UClass) (Names : List FName) (w' : World) : Prop where
  storage : w'.Storage = w.Storage.map (fun ClassKV =>
    if ClassKV.1 = Class then
      (ClassKV.1, ClassKV.2.filter (fun KV => decide (KV.1 ∉ Names)))
    else ClassKV)
  tables : ClassSwept (w.Classes Class) Names (w'.Classes Class)
  others : ∀ C, C ≠ Class → w'.Classes C = w.Classes C
  pool : w'.FunctionPool =
    w.FunctionPool ++ Names.filterMap (TMap.Find (w.Classes Class).FuncMap)
  frame : SweepFrame w w'

/-- Effect of the sweep over the classes `Classes`. -/
structure Swept (w : World) (Classes : List UClass) (w' : World) : Prop where
  storage : w'.Storage = w.Storage.map (fun ClassKV =>
    if ClassKV.1 ∈ Classes then
      (ClassKV.1, ClassKV.2.filter (fun KV => KV.2.IsValid w.GUObjectArray))
    else ClassKV)
  tables : ∀ C, C ∈ Classes → ClassSwept (w.Classes C) (RemovedNames w C) (w'.Classes C)
  others : ∀ C, C ∉ Classes → w'.Classes C = w.Classes C
  pool : w'.FunctionPool = w.FunctionPool ++
    Classes.flatMap (fun C => (RemovedNames w C).filterMap (TMap.Find (w.Classes C).FuncMap))
  frame : SweepFrame w w'

/-! ## Example worlds

Class `1` is a test class with a single delegate at offset `40` and a multicast delegate at
offset `56`; class `2` is the class of the object the closures are bound for.  The object
table lists the test object at address `200` before the one at address `100`. -/

/-- Class tables before any bind. -/
def ExampleClasses : UClass → UClassData := fun C =>
  if C = 1 then
    { NativeFunctionLookupTable := [], FuncMap := [],
      Properties := [{ Offset := 40, Kind := .Delegate },
        { Offset := 56, Kind := .MulticastDelegate }],
      Supers := [] }
  else { NativeFunctionLookupTable := [], FuncMap := [], Properties := [], Supers := [] }

/-- The object the closures are bound for. -/
def ExampleTarget : UObject :=
  { Address := 1000, Serial := 1, Class := 2, ClassDefaultObject := false, Asset := false }

/-- The test object at address `100`; its single delegate is at `140`. -/
def ExampleOwner1 : UObject :=
  { Address := 100, Serial := 2, Class := 1, ClassDefaultObject := false, Asset := false }

/-- The test object at address `200`; its single delegate is at `240`. -/
def ExampleOwner2 : UObject :=
  { Address := 200, Serial := 3, Class := 1, ClassDefaultObject := false, Asset := false }

/-- A live slot of the object table. -/
def LiveItem (Object : UObject) : FUObjectItem :=
  { Object := some Object, PendingKill := false, Unreachable := false }

/-- The manager before any bind, with the three objects alive. -/
def ExampleInitial : World :=
  { Storage := [], FunctionPool := [], ID := 0, Classes := ExampleClasses, UFunctions := [],
    GUObjectArray := [LiveItem ExampleOwner2, LiveItem ExampleOwner1, LiveItem ExampleTarget],
    FirstGCIndex := 0, NumWorkerThreads := 1,
    ScriptDelegates := fun _ => { Object := none, FunctionName := "None" },
    MulticastDelegates := fun _ => [], Invocations := [] }

/-- Class tables after two binds for `ExampleTarget`. -/
def ExampleBoundClasses : UClass → UClassData := fun C =>
  if C = 2 then
    { NativeFunctionLookupTable :=
        [{ Name := "lambda_1_f.cpp:10", Pointer := .RouteToLambda },
          { Name := "lambda_2_f.cpp:11", Pointer := .RouteToLambda }],
      FuncMap := [("lambda_1_f.cpp:10", 0), ("lambda_2_f.cpp:11", 1)],
      Properties := [], Supers := [] }
  else ExampleClasses C

/-- The world after closure `7` was bound to the delegate at `140` and closure `8` to the
delegate at `240`, both for `ExampleTarget`; the owner of the second binding has been
resolved, the owner of the first has not. -/
def ExampleBound : World :=
  { Storage := [(2,
      [("lambda_1_f.cpp:10",
          { DelegateData := { Pointer := 140, IsMulticast := false }, DelegateOwner := none,
            LambdaOwner := some 1, Lambda := 7 }),
        ("lambda_2_f.cpp:11",
          { DelegateData := { Pointer := 240, IsMulticast := false }, DelegateOwner := some 3,
            LambdaOwner := some 1, Lambda := 8 })])],
    FunctionPool := [], ID := 2, Classes := ExampleBoundClasses,
    UFunctions :=
      [{ Name := "lambda_1_f.cpp:10", Outer := 2, Func := some .RouteToLambda },
        { Name := "lambda_2_f.cpp:11", Outer := 2, Func := some .RouteToLambda }],
    GUObjectArray := [LiveItem ExampleOwner2, LiveItem ExampleOwner1, LiveItem ExampleTarget],
    FirstGCIndex := 0, NumWorkerThreads := 1,
    ScriptDelegates := fun p =>
      if p = 240 then { Object := some 1, FunctionName := "lambda_2_f.cpp:11" }
      else if p = 140 then { Object := some 1, FunctionName := "lambda_1_f.cpp:10" }
      else { Object := none, FunctionName := "None" },
    MulticastDelegates := fun _ => [], Invocations := [] }

/-- Number of registry entries that are not valid: what one sweep removes. -/
def InvalidCount (w : World) : Nat :=
  (w.Storage.map (fun ClassKV =>
    (LambdasToRemove w.GUObjectArray ClassKV.2).length)).sum

/-- Every function in the pool is an allocated function object. -/
def PoolAllocated (w : World) : Prop :=
  ∀ Function ∈ w.FunctionPool, Function < w.UFunctions.length

instance (w : World) : Decidable (PoolAllocated w) := by
  unfold PoolAllocated
  infer_instance

/-- Number of entries in the registry. -/
def EntryCount (w : World) : Nat :=
  (w.Storage.map (fun ClassKV => ClassKV.2.length)).sum

/-- The world `ExampleBound` after its sweep: the first binding is gone and its function
object `0` is in the pool. -/
def ExamplePooled : World :=
  { ExampleBound with
    Storage := [(2,
      [("lambda_2_f.cpp:11",
          { DelegateData := { Pointer := 240, IsMulticast := false }, DelegateOwner := some 3,
            LambdaOwner := some 1, Lambda := 8 })])],
    FunctionPool := [0],
    Classes := fun C =>
      if C = 2 then
        { NativeFunctionLookupTable :=
            [{ Name := "lambda_2_f.cpp:11", Pointer := .RouteToLambda }],
          FuncMap := [("lambda_2_f.cpp:11", 1)],
          Properties := [], Supers := [] }
      else ExampleClasses C }

/-- The name the next bind generates. -/
def NextLambdaName (w : World) (File : String) (Line : Int) : FName :=
  LambdaNameText (WrapInt32 (w.ID + 1)) File Line

/-- The registry entry a bind stores. -/
def NewEntry (Object : UObject) (Delegate : Nat) (IsMulticast : Bool) (Callable : TFunction) :
    FLambdaStorage :=
  { DelegateData := { Pointer := Delegate, IsMulticast := IsMulticast }
    DelegateOwner := none
    LambdaOwner := some Object.Serial
    Lambda := Callable }

/-- Effect of `CreateFunction`: the returned function object carries the name and the outer
class, every other function object is as before, and the function either was the last of the
pool or is newly allocated while the pool is empty. -/
structure CreatedFunction (w : World) (ObjectClass : UClass) (Name : FName)
    (Function : UFunction) (w' : World) : Prop where
  named : ∃ Data, w'.UFunctions[Function]? = some Data ∧ Data.Name = Name ∧
    Data.Outer = ObjectClass
  otherFunctions : ∀ Other, Other ≠ Function → w'.UFunctions[Other]? = w.UFunctions[Other]?
  source :
    (w.FunctionPool = w'.FunctionPool ++ [Function] ∧ Function < w.UFunctions.length ∧
        w'.UFunctions.length = w.UFunctions.length) ∨
      (w.FunctionPool = [] ∧ w'.FunctionPool = [] ∧ Function = w.UFunctions.length ∧
        w'.UFunctions =
          w.UFunctions ++ [{ Name := Name, Outer := ObjectClass, Func := none }])
  storage : w'.Storage = w.Storage
  classes : w'.Classes = w.Classes
  id : w'.ID = w.ID
  objects : w'.GUObjectArray = w.GUObjectArray
  firstGCIndex : w'.FirstGCIndex = w.FirstGCIndex
  threads : w'.NumWorkerThreads = w.NumWorkerThreads
  scriptDelegates : w'.ScriptDelegates = w.ScriptDelegates
  multicastDelegates : w'.MulticastDelegates = w.MulticastDelegates
  invocations : w'.Invocations = w.Invocations

/-- Effect of a bind for `Object` on the delegate at `Delegate`, through the function object
`Function`, under the generated name. -/
structure Bound (w : World) (Object : UObject) (Delegate : Nat) (IsMulticast : Bool)
    (Callable : TFunction) (File : String) (Line : Int) (Function : UFunction) (w' : World) :
    Prop where
  storage : w'.Storage = TMap.Add w.Storage Object.Class
    (TMap.Add
      (match TMap.Find w.Storage Object.Class with
        | none => []
        | some ClassStorage => ClassStorage)
      (NextLambdaName w File Line) (NewEntry Object Delegate IsMulticast Callable))
  id : w'.ID = WrapInt32 (w.ID + 1)
  table : (w'.Classes Object.Class).NativeFunctionLookupTable =
    (w.Classes Object.Class).NativeFunctionLookupTable ++
      [{ Name := NextLambdaName w File Line, Pointer := .RouteToLambda }]
  funcMap : (w'.Classes Object.Class).FuncMap =
    TMap.Add (w.Classes Object.Class).FuncMap (NextLambdaName w File Line) Function
  properties : (w'.Classes Object.Class).Properties = (w.Classes Object.Class).Properties
  supers : (w'.Classes Object.Class).Supers = (w.Classes Object.Class).Supers
  otherClasses : ∀ C, C ≠ Object.Class → w'.Classes C = w.Classes C
  named : ∃ Data, w'.UFunctions[Function]? = some Data ∧
    Data.Name = NextLambdaName w File Line ∧ Data.Outer = Object.Class ∧
    Data.Func = ((w'.Classes Object.Class).NativeFunctionLookupTable.find?
      (fun Item => decide (Item.Name = NextLambdaName w File Line))).map
        (fun Item => Item.Pointer)
  otherFunctions : ∀ Other, Other ≠ Function → w'.UFunctions[Other]? = w.UFunctions[Other]?
  source :
    (w.FunctionPool = w'.FunctionPool ++ [Function] ∧ Function < w.UFunctions.length ∧
        w'.UFunctions.length = w.UFunctions.length) ∨
      (w.FunctionPool = [] ∧ w'.FunctionPool = [] ∧ Function = w.UFunctions.length ∧
        w'.UFunctions.length = w.UFunctions.length + 1)
  objects : w'.GUObjectArray = w.GUObjectArray
  firstGCIndex : w'.FirstGCIndex = w.FirstGCIndex
  threads : w'.NumWorkerThreads = w.NumWorkerThreads
  scriptDelegates : w'.ScriptDelegates = fun p =>
    if p = Delegate ∧ IsMulticast = false then
      { Object := some Object.Serial, FunctionName := NextLambdaName w File Line }
    else w.ScriptDelegates p
  multicastDelegates : w'.MulticastDelegates = fun p =>
    if p = Delegate ∧ IsMulticast = true then
      w.MulticastDelegates p ++
        [{ Object := some Object.Serial, FunctionName := NextLambdaName w File Line }]
    else w.MulticastDelegates p
  invocations : w'.Invocations = w.Invocations

/-- Consecutive calls of `GenerateLambdaName`, one per `(FileName, LineNumber)` pair: the
names in call order and the world after the last call. -/
def GenerateLambdaNames (w : World) : List (String × Int) → List FName × World
  | [] => ([], w)
  | Call :: rest =>
    let (Name, w) := GenerateLambdaName w Call.1 Call.2
    let (Names, w) := GenerateLambdaNames w rest
    (Name :: Names, w)

/-- The scenario of two bindings on two owner objects: closure `7` is bound to the single
delegate of the object at address `100`, closure `8` to the single delegate of the object at
address `200`, both for `ExampleTarget`, on the manager `w`. -/
def BindTwo (w : World) : Option World :=
  match BindWeakLambdaToDynamicDelegate w ExampleTarget 140 false 7 "f.cpp" 10 with
  | none => none
  | some w => BindWeakLambdaToDynamicDelegate w ExampleTarget 240 false 8 "f.cpp" 11

/-- A collection cycle in which no object dies: the pre-pass, with the counter of
`ResolveDelegates` starting at `Counter`, followed by the post-pass on the same object
table. -/
def CollectNothing (w : World) (Counter : Int) : Option World :=
  match OnPreGarbageCollect w Counter with
  | none => none
  | some w => OnPostGarbageCollect w

/-- The `DelegateOwner` of the registry entry at `(Class, LambdaName)`; the outer `none`
says that there is no such entry. -/
def OwnerOf (w : World) (Class : UClass) (LambdaName : FName) : Option TWeakObjectPtr :=
  (w.Entry Class LambdaName).map (fun e => e.DelegateOwner)

/-- The registry entry at a place `(class, name)` of a registry. -/
def EntryAt (Storage : TMap UClass (TMap FName FLambdaStorage)) (Place : UClass × FName) :
    Option FLambdaStorage :=
  match TMap.Find Storage Place.1 with
  | none => none
  | some ClassStorage => TMap.Find ClassStorage Place.2

/-- An entry with its `DelegateOwner` set to a weak pointer to `Object`. -/
def SetOwner (Object : UObject) (e : FLambdaStorage) : FLambdaStorage :=
  { e with DelegateOwner := some Object.Serial }

/-- The delegate stored at the record's address, read with the kind of `Property`, is bound
to the record's target and name: the kind agrees with the record's multicast tag, and the
single delegate has that target and function name, or the invocation list of the multicast
delegate has a registration with them.  Targets are compared as `IsTheSameDelegate` does,
through `Get`. -/
def SameDelegate (w : World) (Property : FProperty) (Record : FDelegateResolvingData) : Prop :=
  (Record.DelegateData.IsMulticast = true ∧ Property.Kind = .MulticastDelegate ∧
    ∃ Delegate ∈ w.MulticastDelegates Record.DelegateData.Pointer,
      TWeakObjectPtr.Get w.GUObjectArray Delegate.Object =
          TWeakObjectPtr.Get w.GUObjectArray Record.LambdaOwner ∧
        Delegate.FunctionName = Record.LambdaName) ∨
  (Record.DelegateData.IsMulticast = false ∧ Property.Kind = .Delegate ∧
    TWeakObjectPtr.Get w.GUObjectArray (w.ScriptDelegates Record.DelegateData.Pointer).Object =
        TWeakObjectPtr.Get w.GUObjectArray Record.LambdaOwner ∧
      (w.ScriptDelegates Record.DelegateData.Pointer).FunctionName = Record.LambdaName)

/-- Some record of `Records` that points to the entry at `Place` matches a reflected field
of `Object`: the field's absolute address is the record's non-null delegate address and
the delegate there is the record's. -/
def MatchedAt (w : World) (Object : UObject) (Records : List FDelegateResolvingData)
    (Place : UClass × FName) : Prop :=
  ∃ Record ∈ Records, ∃ Property ∈ (w.Classes Object.Class).Properties,
    Record.DelegateOwnerPtr = Place ∧ Record.DelegateData.Pointer ≠ 0 ∧
    Object.Address + Property.Offset = Record.DelegateData.Pointer ∧
    SameDelegate w Property Record

/-- How a registry `Storage'` can differ from `Storage` after `Object` was examined against
`Records`: every entry is as before, or has `Object` written into its owner slot on the
strength of a match. -/
def OwnersRecorded (w : World) (Object : UObject) (Records : List FDelegateResolvingData)
    (Storage Storage' : TMap UClass (TMap FName FLambdaStorage)) : Prop :=
  ∀ Place, EntryAt Storage' Place = EntryAt Storage Place ∨
    (EntryAt Storage' Place = (EntryAt Storage Place).map (SetOwner Object) ∧
      MatchedAt w Object Records Place)

/-- An entry the pre-pass has to resolve: its `DelegateOwner` is explicitly null and its
`LambdaOwner` is valid. -/
def IsPending (Objects : List FUObjectItem) (e : FLambdaStorage) : Bool :=
  e.DelegateOwner.IsExplicitlyNull && TWeakObjectPtr.IsValid Objects e.LambdaOwner

/-- The resolution record made from the entry `KV` of class `Class`:
`FDelegateResolvingData(Storage, InLambdaName)`. -/
def MakeRecord (Class : UClass) (KV : FName × FLambdaStorage) : FDelegateResolvingData :=
  { DelegateData := KV.2.DelegateData
    DelegateOwnerPtr := (Class, KV.1)
    LambdaOwner := KV.2.LambdaOwner
    LambdaName := KV.1 }

/-- The records of all pending entries, in the iteration order of the registry. -/
def PendingRecords (w : World) : List FDelegateResolvingData :=
  w.Storage.flatMap (fun ClassKV =>
    (ClassKV.2.filter (fun KV => IsPending w.GUObjectArray KV.2)).map (MakeRecord ClassKV.1))

/-- The bound `TryResolveDelegate` hands to `ShouldSkipObject` in a given state of the scan:
`ObjectsToResolve.Last().DelegateData.Pointer`. -/
def SkipBound (State : FResolveState) : Option Nat :=
  State.ObjectsToResolve.getLast?.map (fun Last => Last.DelegateData.Pointer)

/-- The state in which `ResolveDelegates` starts the scan of the world `w`. -/
def ScanStart (w : World) (Counter : Int) : FResolveState :=
  { ObjectsToResolve := GatherDelegatesToResolve w, Storage := w.Storage, Counter := Counter }

/-- The greatest delegate address among the gathered records (`0` for an empty list). -/
def MaxGatheredPointer (w : World) : Nat :=
  ((GatherDelegatesToResolve w).map (fun r => r.DelegateData.Pointer)).foldl max 0

/-- One increment of the `std::atomic<int32>` counter of resolved records. -/
def CounterIncrement (Counter : Int) : Int := WrapInt32 (Counter + 1)

/-- A record after `ObjectToResolve.DelegateData.Pointer = nullptr`. -/
def ClearPointer (r : FDelegateResolvingData) : FDelegateResolvingData :=
  { r with DelegateData := { r.DelegateData with Pointer := 0 } }

/-- Number of records whose pointer is not null, that is, that have not been matched. -/
def Unmatched (Records : List FDelegateResolvingData) : Nat :=
  (Records.filter (fun r => decide (r.DelegateData.Pointer ≠ 0))).length

/-- The keys of a registry: for each class, in order, the slot names of its entries. -/
def RegistryShape (Storage : TMap UClass (TMap FName FLambdaStorage)) :
    List (UClass × List FName) :=
  Storage.map (fun ClassKV => (ClassKV.1, ClassKV.2.map Prod.fst))

/-- The registry is a well-formed map of well-formed maps. -/
def RegistryUnique (Storage : TMap UClass (TMap FName FLambdaStorage)) : Prop :=
  TMap.UniqueKeys Storage ∧ ∀ ClassKV ∈ Storage, TMap.UniqueKeys ClassKV.2

instance (Storage : TMap UClass (TMap FName FLambdaStorage)) :
    Decidable (RegistryUnique Storage) := by
  unfold RegistryUnique TMap.UniqueKeys
  infer_instance

/-- How a record can change during a pass: not at all, or from a non-null pointer to the
null pointer. -/
def RecordStep (r r' : FDelegateResolvingData) : Prop :=
  r' = r ∨ (r.DelegateData.Pointer ≠ 0 ∧ r' = ClearPointer r)

/-- How the state of the scan can change during (a part of) a pass.  Every record is as
before or has been matched and cleared; the counter has been incremented once per record
matched; the registry keeps its keys, and each of its entries is as before or has had an
object written into its owner slot, which happens only for an entry that an unmatched
record points to. -/
structure PassStep (Records : List FDelegateResolvingData)
    (Storage : TMap UClass (TMap FName FLambdaStorage)) (Counter : Int)
    (Records' : List FDelegateResolvingData)
    (Storage' : TMap UClass (TMap FName FLambdaStorage)) (Counter' : Int) : Prop where
  records : List.Forall₂ RecordStep Records Records'
  counter : ∃ k, Unmatched Records = Unmatched Records' + k ∧
    Counter' = CounterIncrement^[k] Counter
  shape : RegistryShape Storage' = RegistryShape Storage
  owners : ∀ Place, EntryAt Storage' Place = EntryAt Storage Place ∨
    ∃ Object, EntryAt Storage' Place = (EntryAt Storage Place).map (SetOwner Object) ∧
      ∃ r ∈ Records, r.DelegateOwnerPtr = Place ∧ r.DelegateData.Pointer ≠ 0

/-! ## Reachable states -/

/-- The name was not generated with a counter value above `ID`: if it is the text
`lambda_<k>_<file>:<line>`, then `k ≤ ID`. -/
def NameOld (ID : Int) (Name : FName) : Prop :=
  ∀ (k : Nat) (File : String) (Line : Int),
    Name = LambdaNameText (k : Int) File Line → (k : Int) ≤ ID

/-- The function object is bound to the trampoline: it is a synthesized slot. -/
def IsRouter (w : World) (Function : UFunction) : Prop :=
  ∃ Data, w.UFunctions[Function]? = some Data ∧ Data.Func = some .RouteToLambda

/-- What holds of the manager and the class tables in every reachable state. -/
structure Invariant (w : World) : Prop where
  consistent : Consistent w
  counter : 0 ≤ w.ID
  tableNames : ∀ C, ∀ Item ∈ (w.Classes C).NativeFunctionLookupTable, NameOld w.ID Item.Name
  tableNodup : ∀ C,
    ((w.Classes C).NativeFunctionLookupTable.map (fun Item => Item.Name)).Nodup
  funcNames : ∀ C, ∀ KV ∈ (w.Classes C).FuncMap, NameOld w.ID KV.1
  funcUnique : ∀ C, TMap.UniqueKeys (w.Classes C).FuncMap
  funcAllocated : ∀ C, ∀ KV ∈ (w.Classes C).FuncMap, KV.2 < w.UFunctions.length
  funcOnce : ∀ C C' KV KV', KV ∈ (w.Classes C).FuncMap → KV' ∈ (w.Classes C').FuncMap →
    KV.2 = KV'.2 → C = C' ∧ KV = KV'
  poolAllocated : PoolAllocated w
  poolNodup : w.FunctionPool.Nodup
  poolDetached : ∀ C, ∀ KV ∈ (w.Classes C).FuncMap, KV.2 ∉ w.FunctionPool
  routerItems : ∀ C, ∀ Item ∈ (w.Classes C).NativeFunctionLookupTable,
    Item.Pointer = .RouteToLambda → ∃ e, w.Entry C Item.Name = some e
  entryItems : ∀ C n e, w.Entry C n = some e →
    ∀ Item ∈ (w.Classes C).NativeFunctionLookupTable, Item.Name = n →
      Item.Pointer = .RouteToLambda
  routerFuncs : ∀ C, ∀ KV ∈ (w.Classes C).FuncMap, IsRouter w KV.2 →
    ∃ e, w.Entry C KV.1 = some e
  entryFuncs : ∀ C n e, w.Entry C n = some e →
    ∀ f, TMap.Find (w.Classes C).FuncMap n = some f → IsRouter w f

/-- The manager right after its construction, in a host whose class tables are well formed
and hold no synthesized slot: the registry and the pool are empty and the name counter is
`0`; in every class the lookup table holds each name once and no item routes to the
trampoline, the function map is a well-formed map of allocated function objects none of
which is bound to the trampoline, and no name has the form of a generated name; no function
object is in two function maps or twice in one. -/
structure InitialManager (w : World) : Prop where
  storage : w.Storage = []
  pool : w.FunctionPool = []
  id : w.ID = 0
  tableNodup : ∀ C,
    ((w.Classes C).NativeFunctionLookupTable.map (fun Item => Item.Name)).Nodup
  tableHost : ∀ C, ∀ Item ∈ (w.Classes C).NativeFunctionLookupTable,
    Item.Pointer ≠ .RouteToLambda ∧ NameOld 0 Item.Name
  funcUnique : ∀ C, TMap.UniqueKeys (w.Classes C).FuncMap
  funcHost : ∀ C, ∀ KV ∈ (w.Classes C).FuncMap,
    KV.2 < w.UFunctions.length ∧ NameOld 0 KV.1 ∧ ¬ IsRouter w KV.2
  funcOnce : ∀ C C' KV KV', KV ∈ (w.Classes C).FuncMap → KV' ∈ (w.Classes C').FuncMap →
    KV.2 = KV'.2 → C = C' ∧ KV = KV'

/-- A step of the host that leaves the manager, the class tables and the function objects
alone: objects are created or reclaimed, delegates are rebound or invoked. -/
def HostStep (w w' : World) : Prop :=
  w'.Storage = w.Storage ∧ w'.FunctionPool = w.FunctionPool ∧ w'.ID = w.ID ∧
    w'.Classes = w.Classes ∧ w'.UFunctions = w.UFunctions

/-- The states reachable from an initial manager by binds (as long as the `int32` name
counter does not overflow), post-collection sweeps, pre-collection passes and steps of the
host. -/
inductive Reachable : World → Prop
  | initial {w : World} : InitialManager w → Reachable w
  | bind {w w' : World} (Object : UObject) (Delegate : Nat) (IsMulticast : Bool)
      (Callable : TFunction) (File : String) (Line : Int) :
      Reachable w → w.ID + 1 < 2147483648 →
      BindWeakLambdaToDynamicDelegate w Object Delegate IsMulticast Callable File Line =
        some w' →
      Reachable w'
  | sweep {w w' : World} : Reachable w → OnPostGarbageCollect w = some w' → Reachable w'
  | resolve {w w' : World} (Counter : Int) : Reachable w →
      OnPreGarbageCollect w Counter = some w' → Reachable w'
  | host {w w' : World} : Reachable w → HostStep w w' → Reachable w'

/-- The scenario of `BindTwo` on the initial manager followed by a collection in which no
object dies, the counter of `ResolveDelegates` starting at `0`. -/
def ExampleCycle : Option World :=
  match BindTwo ExampleInitial with
  | none => none
  | some w => CollectNothing w 0

/-- The world `ExampleCycle` ends in. -/
def ExampleCollected : World := ExampleCycle.getD ExampleInitial

/-! ## Broadcast of a multicast delegate -/

/-- Modelled from the spec: the object a weak pointer gives when it is valid: the first slot
of the object table that holds an object of that identity which is neither pending kill nor
unreachable. -/
def TWeakObjectPtr.Resolve (Objects : List FUObjectItem) (p : TWeakObjectPtr) :
    Option UObject :=
  match p with
  | none => none
  | some s =>
    Objects.findSome? (fun Item =>
      match Item.Object with
      | none => none
      | some o =>
        if o.Serial = s ∧ Item.PendingKill = false ∧ Item.Unreachable = false then some o
        else none)

/-- Modelled from the spec: the host's `UObject::ProcessEvent` on a native function: a
function bound to the trampoline runs `RouteToLambda` with the object as context and the
function as current native function; a function bound to other native code, or to none, is
code of the host, which leaves the manager alone. -/
def ProcessEvent (w : World) (Object : UObject) (Function : UFunction) : Option World :=
  match w.UFunctions[Function]? with
  | none => none
  | some Data =>
    match Data.Func with
    | some .RouteToLambda => RouteToLambda w Object Function
    | _ => some w

/-- Modelled from the spec: the host's `TScriptDelegate::ProcessDelegate`: the target must be
alive and its class must have a function of the registered name; that function is run on
the target. -/
def ProcessDelegate (w : World) (Delegate : FScriptDelegate) : Option World :=
  match TWeakObjectPtr.Resolve w.GUObjectArray Delegate.Object with
  | none => none
  | some Object =>
    match FindFunctionByName w Object.Class Delegate.FunctionName with
    | none => none
    | some Function => ProcessEvent w Object Function

/-- Modelled from the spec: the loop of the host's broadcast over an invocation list: every
registration whose target is still valid is executed once, in list order; a registration
whose target is gone is passed over. -/
def ProcessInvocationList (w : World) : List FScriptDelegate → Option World
  | [] => some w
  | Delegate :: rest =>
    if (TWeakObjectPtr.Resolve w.GUObjectArray Delegate.Object).isSome then
      match ProcessDelegate w Delegate with
      | none => none
      | some w => ProcessInvocationList w rest
    else ProcessInvocationList w rest

/-- Modelled from the spec: one broadcast of the multicast delegate at `Delegate`. -/
def Broadcast (w : World) (Delegate : Nat) : Option World :=
  ProcessInvocationList w (w.MulticastDelegates Delegate)

/-- One bind call: target, closure and call site. -/
structure FBindCall where
  Object : UObject
  Callable : TFunction
  File : String
  Line : Int
  deriving DecidableEq, Repr

/-- Consecutive binds to the multicast delegate at `Delegate`, one per call, in order. -/
def BindAll (w : World) (Delegate : Nat) : List FBindCall → Option World
  | [] => some w
  | Call :: rest =>
    match BindWeakLambdaToDynamicDelegate w Call.Object Delegate true Call.Callable Call.File
        Call.Line with
    | none => none
    | some w => BindAll w Delegate rest

/-- The registrations the calls are to add when the name counter starts at `ID`: per call,
the target and the name generated for the call. -/
def Registrations (ID : Int) : List FBindCall → List FScriptDelegate
  | [] => []
  | Call :: rest =>
    { Object := some Call.Object.Serial,
      FunctionName := LambdaNameText (WrapInt32 (ID + 1)) Call.File Call.Line } ::
      Registrations (WrapInt32 (ID + 1)) rest

/-- The registration `(Object, Name)` leads to the closure: the function map of the object's
class holds under the name a function that carries the name and is bound to the trampoline,
and the registry holds the closure under the class and the name. -/
def Dispatches (w : World) (Object : UObject) (Name : FName) (Callable : TFunction) : Prop :=
  ∃ Function Data e, TMap.Find (w.Classes Object.Class).FuncMap Name = some Function ∧
    w.UFunctions[Function]? = some Data ∧ Data.Name = Name ∧
    Data.Func = some .RouteToLambda ∧
    w.Entry Object.Class Name = some e ∧ e.Lambda = Callable

/-- Two calls on the multicast delegate at address `156` of the object at address `100`:
closure `7` and closure `8`, both for `ExampleTarget`. -/
def ExampleCalls : List FBindCall :=
  [{ Object := ExampleTarget, Callable := 7, File := "f.cpp", Line := 10 },
    { Object := ExampleTarget, Callable := 8, File := "f.cpp", Line := 11 }]

/-! ## The indices the workers examine -/

namespace TMap

variable {K V : Type} [DecidableEq K]

theorem Find_Add (m : TMap K V) (k k' : K) (v : V) :
    Find (Add m k v) k' = if k = k' then some v else Find m k' := by
  induction m with
  | nil => simp [Add, Find]
  | cons kv rest ih =>
    obtain ⟨k0, v0⟩ := kv
    by_cases h : k0 = k
    · subst h
      by_cases h' : k0 = k' <;> simp [Add, Find, h']
    · by_cases h' : k0 = k'
      · subst h'
        simp [Add, Find, h, Ne.symm h]
      · simp [Add, Find, h, h', ih]

theorem Find_Remove (m : TMap K V) (k k' : K) :
    Find (Remove m k) k' = if k = k' then none else Find m k' := by
  induction m with
  | nil => simp [Remove, Find]
  | cons kv rest ih =>
    obtain ⟨k0, v0⟩ := kv
    have hcons : Remove ((k0, v0) :: rest) k =
        if k0 = k then Remove rest k else (k0, v0) :: Remove rest k := by
      by_cases h : k0 = k <;> simp [Remove, h]
    rw [hcons]
    by_cases h : k0 = k
    · rw [if_pos h, ih]
      subst h
      by_cases h' : k0 = k' <;> simp [Find, h']
    · rw [if_neg h]
      by_cases h' : k0 = k'
      · subst h'
        simp [Find, Ne.symm h]
      · simp [Find, h', ih]

theorem Find_eq_some_of_mem {m : TMap K V} (hm : UniqueKeys m) {k : K} {v : V}
    (h : (k, v) ∈ m) : Find m k = some v := by
  induction m with
  | nil => cases h
  | cons kv rest ih =>
    obtain ⟨k0, v0⟩ := kv
    simp only [UniqueKeys, List.map_cons, List.nodup_cons] at hm
    rcases List.mem_cons.1 h with h | h
    · cases h
      simp [Find]
    · have hne : k0 ≠ k := by
        intro e
        subst e
        exact hm.1 (List.mem_map.2 ⟨_, h, rfl⟩)
      simp [Find, hne, ih hm.2 h]

theorem mem_of_Find_eq_some {m : TMap K V} {k : K} {v : V} (h : Find m k = some v) :
    (k, v) ∈ m := by
  induction m with
  | nil => simp [Find] at h
  | cons kv rest ih =>
    obtain ⟨k0, v0⟩ := kv
    by_cases hk : k0 = k
    · subst hk
      simp [Find] at h
      simp [h]
    · simp [Find, hk] at h
      exact List.mem_cons_of_mem _ (ih h)

theorem Find_eq_none_iff {m : TMap K V} {k : K} : Find m k = none ↔ k ∉ Keys m := by
  induction m with
  | nil => simp [Find, Keys]
  | cons kv rest ih =>
    obtain ⟨k0, v0⟩ := kv
    by_cases hk : k0 = k
    · subst hk
      simp [Find, Keys]
    · simp only [Keys] at ih
      simp [Find, Keys, hk, ih, Ne.symm hk]

/-- On a map with unique keys, `Add` on a present key rewrites that one pair in place. -/
theorem Add_eq_map {m : TMap K V} (hm : UniqueKeys m) {k : K} (hk : k ∈ Keys m) (v : V) :
    Add m k v = m.map (fun kv => if kv.1 = k then (k, v) else kv) := by
  induction m with
  | nil => simp [Keys] at hk
  | cons kv rest ih =>
    obtain ⟨k0, v0⟩ := kv
    simp only [UniqueKeys, List.map_cons, List.nodup_cons] at hm
    by_cases h : k0 = k
    · subst h
      have : ∀ kv ∈ rest, ¬ kv.1 = k0 := by
        intro kv hkv e
        exact hm.1 (List.mem_map.2 ⟨kv, hkv, e⟩)
      have hrest : rest.map (fun kv => if kv.1 = k0 then (k0, v) else kv) = rest := by
        conv_rhs => rw [← List.map_id rest]
        apply List.map_congr_left
        intro kv hkv
        simp [this kv hkv]
      simp [Add, hrest]
    · have hk' : k ∈ Keys rest := by
        simp only [Keys, List.map_cons, List.mem_cons] at hk
        rcases hk with hk | hk
        · exact absurd hk.symm h
        · exact hk
      simp [Add, h, ih hm.2 hk']

end TMap

theorem IndexOfByPredicate_of_mem {α : Type} (Pred : α → Bool) :
    ∀ (xs : List α), (∃ x ∈ xs, Pred x = true) →
      ∃ i x, IndexOfByPredicate Pred xs = some i ∧ xs[i]? = some x ∧ Pred x = true
  | [], h => by simp at h
  | y :: ys, h => by
    by_cases hy : Pred y = true
    · exact ⟨0, y, by simp [IndexOfByPredicate, hy], by simp, hy⟩
    · have : ∃ x ∈ ys, Pred x = true := by
        obtain ⟨x, hx, hp⟩ := h
        rcases List.mem_cons.1 hx with e | e
        · subst e; exact absurd hp hy
        · exact ⟨x, e, hp⟩
      obtain ⟨i, x, hi, hx, hp⟩ := IndexOfByPredicate_of_mem Pred ys this
      exact ⟨i + 1, x, by simp [IndexOfByPredicate, hy, hi], by simpa using hx, hp⟩

theorem IndexOfByPredicate_eq_some {α : Type} (Pred : α → Bool) :
    ∀ (xs : List α) (i : Nat), IndexOfByPredicate Pred xs = some i →
      ∃ x, xs[i]? = some x ∧ Pred x = true
  | [], i, h => by simp [IndexOfByPredicate] at h
  | y :: ys, i, h => by
    by_cases hy : Pred y = true
    · simp [IndexOfByPredicate, hy] at h
      subst h
      exact ⟨y, by simp, hy⟩
    · simp [IndexOfByPredicate, hy] at h
      obtain ⟨j, hj, rfl⟩ := h
      obtain ⟨x, hx, hp⟩ := IndexOfByPredicate_eq_some Pred ys j hj
      exact ⟨x, by simpa using hx, hp⟩

/-- The operation `RemoveAtSwap` removes exactly the element at the index; the others are kept, possibly
in another order. -/
theorem RemoveAtSwap_perm {α : Type} (xs : List α) (i : Nat) (x : α) (h : xs[i]? = some x) :
    List.Perm xs (x :: RemoveAtSwap xs i) := by
  obtain ⟨hi, hx⟩ := List.getElem?_eq_some_iff.1 h
  have hne : xs ≠ [] := by
    intro e; subst e; simp at hi
  obtain ⟨ini, last, rfl⟩ : ∃ ini last, xs = ini ++ [last] :=
    ⟨xs.dropLast, xs.getLast hne, (List.dropLast_concat_getLast hne).symm⟩
  simp only [RemoveAtSwap, List.getLast?_concat, List.length_append, List.length_singleton,
    List.dropLast_concat]
  by_cases h1 : i + 1 < ini.length + 1
  · have hi' : i < ini.length := by omega
    rw [if_pos h1]
    have hx' : ini[i] = x := by
      rw [← hx, List.getElem_append_left hi']
    have hset : (ini ++ [last]).set i last = ini.set i last ++ [last] := by
      rw [List.set_append_left _ _ hi']
    rw [hset, List.dropLast_concat]
    rw [List.set_eq_take_append_cons_drop, if_pos hi']
    have hsplit : ini = ini.take i ++ x :: ini.drop (i + 1) := by
      rw [← hx', ← List.drop_eq_getElem_cons hi', List.take_append_drop]
    have hperm : List.Perm (ini ++ [last])
        ((ini.take i ++ x :: ini.drop (i + 1)) ++ [last]) := by
      rw [← hsplit]
    refine hperm.trans ?_
    simp only [List.append_assoc, List.cons_append]
    refine List.perm_middle.trans (List.Perm.cons _ ?_)
    rw [← List.append_assoc]
    refine (List.perm_append_singleton _ _).trans ?_
    exact List.perm_middle.symm
  · have : i = ini.length := by simp at hi; omega
    subst this
    simp at hx
    subst hx
    simp

/-! ## The sweep, step by step -/

theorem HasRouter_iff (w : World) (Class : UClass) (LambdaName : FName) :
    HasRouter w Class LambdaName = true ↔
      (∃ Item ∈ (w.Classes Class).NativeFunctionLookupTable, Item.Name = LambdaName) ∧
      ∃ Function Data, TMap.Find (w.Classes Class).FuncMap LambdaName = some Function ∧
        w.UFunctions[Function]? = some Data ∧ Data.Name = LambdaName := by
  unfold HasRouter
  constructor
  · intro h
    simp only [Bool.and_eq_true, List.any_eq_true, decide_eq_true_eq] at h
    refine ⟨h.1, ?_⟩
    have h2 := h.2
    split at h2
    · cases h2
    · rename_i f hf
      split at h2
      · cases h2
      · rename_i d hd
        exact ⟨f, d, hf, hd, by simpa using h2⟩
  · rintro ⟨h1, f, d, hf, hd, hn⟩
    simp only [Bool.and_eq_true, List.any_eq_true, decide_eq_true_eq]
    refine ⟨h1, ?_⟩
    simp [hf, hd, hn]

theorem SweepFrame_refl (w : World) : SweepFrame w w :=
  ⟨rfl, rfl, rfl, rfl, rfl, rfl, rfl, rfl⟩

theorem SweepFrame_trans {w w1 w2 : World} (h1 : SweepFrame w w1) (h2 : SweepFrame w1 w2) :
    SweepFrame w w2 :=
  ⟨h2.objects.trans h1.objects, h2.functions.trans h1.functions, h2.id.trans h1.id,
    h2.firstGCIndex.trans h1.firstGCIndex, h2.threads.trans h1.threads,
    h2.scriptDelegates.trans h1.scriptDelegates,
    h2.multicastDelegates.trans h1.multicastDelegates, h2.invocations.trans h1.invocations⟩

/-- One clean-up on a consistent world: it does not abort, and its effect is that of
`SweptClass` for the one name. -/
theorem CleanUpLambda_spec (w : World) (hw : Consistent w) (Class : UClass)
    (ClassStorage : TMap FName FLambdaStorage) (hC : (Class, ClassStorage) ∈ w.Storage)
    (LambdaName : FName) (hN : LambdaName ∈ TMap.Keys ClassStorage) :
    ∃ w', CleanUpLambda w Class LambdaName = some w' ∧ SweptClass w Class [LambdaName] w' := by
  have hFind : TMap.Find w.Storage Class = some ClassStorage :=
    TMap.Find_eq_some_of_mem hw.1 hC
  obtain ⟨kv, hkv, hkn⟩ := List.mem_map.1 hN
  have hR := (hw.2 _ hC).2 kv hkv
  rw [hkn] at hR
  obtain ⟨⟨Item, hItem, hItemName⟩, f, d, hf, hd, hdn⟩ := (HasRouter_iff _ _ _).1 hR
  obtain ⟨i, x, hi, hx, hpx⟩ := IndexOfByPredicate_of_mem
    (fun It : FNativeFunctionLookup => decide (It.Name = LambdaName))
    (w.Classes Class).NativeFunctionLookupTable ⟨Item, hItem, by simpa using hItemName⟩
  refine ⟨_, by simp [CleanUpLambda, hFind, hi, FindFunctionByName, hf, hd]; rfl, ?_⟩
  have hKey : Class ∈ TMap.Keys w.Storage := List.mem_map.2 ⟨_, hC, rfl⟩
  constructor
  · show TMap.Add w.Storage Class _ = _
    rw [TMap.Add_eq_map hw.1 hKey]
    apply List.map_congr_left
    intro ckv hckv
    by_cases hc : ckv.1 = Class
    · have : ckv = (Class, ClassStorage) := by
        have := TMap.Find_eq_some_of_mem hw.1 (k := ckv.1) (v := ckv.2) hckv
        rw [hc, hFind] at this
        cases ckv
        simp only [Option.some.injEq] at this
        simp_all
      subst this
      simp [TMap.Remove]
    · simp [hc]
  · refine ⟨⟨[x], ?_, ?_⟩, ?_, ?_, ?_⟩
    · simpa using hpx
    · simpa [SetClass] using RemoveAtSwap_perm _ i x hx
    · simp [SetClass, TMap.Remove, hdn]
    · simp [SetClass]
    · simp [SetClass]
  · intro C hne
    simp [SetClass, hne]
  · simp [hf]
  · exact ⟨rfl, rfl, rfl, rfl, rfl, rfl, rfl, rfl⟩

namespace TMap

variable {K V : Type} [DecidableEq K]

theorem Find_filter_key (m : TMap K V) (p : K → Bool) (k : K) :
    Find (m.filter (fun kv => p kv.1)) k = if p k = true then Find m k else none := by
  induction m with
  | nil => simp [Find]
  | cons kv rest ih =>
    obtain ⟨k0, v0⟩ := kv
    by_cases hp : p k0 = true
    · rw [List.filter_cons_of_pos (by simpa using hp)]
      by_cases hk : k0 = k
      · subst hk
        simp [Find, hp]
      · simp [Find, hk, ih]
    · rw [List.filter_cons_of_neg (by simpa using hp)]
      by_cases hk : k0 = k
      · subst hk
        simp [Find, hp, ih]
      · simp [Find, hk, ih]

theorem Find_map_value {V' : Type} (m : TMap K V) (f : K → V → V') (k : K) :
    Find (m.map (fun kv => (kv.1, f kv.1 kv.2))) k = (Find m k).map (f k) := by
  induction m with
  | nil => simp [Find]
  | cons kv rest ih =>
    obtain ⟨k0, v0⟩ := kv
    by_cases hk : k0 = k
    · subst hk
      simp [Find]
    · simp [Find, hk, ih]

omit [DecidableEq K] in
theorem UniqueKeys_filter {m : TMap K V} (hm : UniqueKeys m) (p : K × V → Bool) :
    UniqueKeys (m.filter p) :=
  List.Nodup.sublist ((List.filter_sublist m).map Prod.fst) hm

end TMap

theorem ClassSwept_trans {d d1 d2 : UClassData} {ns1 ns2 : List FName}
    (h1 : ClassSwept d ns1 d1) (h2 : ClassSwept d1 ns2 d2) : ClassSwept d (ns1 ++ ns2) d2 := by
  obtain ⟨Items1, hn1, hp1⟩ := h1.table
  obtain ⟨Items2, hn2, hp2⟩ := h2.table
  refine ⟨⟨Items1 ++ Items2, by simp [hn1, hn2], ?_⟩, ?_, h2.properties.trans h1.properties,
    h2.supers.trans h1.supers⟩
  · refine hp1.trans ?_
    rw [List.append_assoc]
    exact List.Perm.append_left _ hp2
  · rw [h2.funcMap, h1.funcMap, List.filter_filter]
    apply List.filter_congr
    intro kv _
    simp only [List.mem_append, not_or, Bool.decide_and, Bool.and_comm]

theorem SweptClass_trans {w w1 w2 : World} {Class : UClass} {ns1 ns2 : List FName}
    (h1 : SweptClass w Class ns1 w1) (h2 : SweptClass w1 Class ns2 w2)
    (hd : ∀ n ∈ ns2, n ∉ ns1) : SweptClass w Class (ns1 ++ ns2) w2 := by
  refine ⟨?_, ClassSwept_trans h1.tables h2.tables, ?_, ?_, SweepFrame_trans h1.frame h2.frame⟩
  · rw [h2.storage, h1.storage, List.map_map]
    apply List.map_congr_left
    intro ckv _
    by_cases hc : ckv.1 = Class
    · simp only [Function.comp, hc, if_true, List.filter_filter]
      congr 1
      apply List.filter_congr
      intro kv _
      simp only [List.mem_append, not_or, Bool.decide_and, Bool.and_comm]
    · simp [Function.comp, hc]
  · intro C hC
    rw [h2.others C hC, h1.others C hC]
  · rw [h2.pool, h1.pool, List.filterMap_append, List.append_assoc]
    congr 2
    apply List.filterMap_congr
    intro n hn
    rw [h1.tables.funcMap]
    rw [TMap.Find_filter_key (w.Classes Class).FuncMap (fun k => decide (k ∉ ns1)) n]
    simp [hd n hn]

/-- Cleaning up slots keeps the registry consistent with the dispatch tables. -/
theorem SweptClass.consistent {w w' : World} {Class : UClass} {Names : List FName}
    (hw : Consistent w) (h : SweptClass w Class Names w') : Consistent w' := by
  have hkeys : w'.Storage.map Prod.fst = w.Storage.map Prod.fst := by
    rw [h.storage, List.map_map]
    apply List.map_congr_left
    intro ckv _
    by_cases hc : ckv.1 = Class <;> simp [Function.comp, hc]
  refine ⟨by unfold TMap.UniqueKeys; rw [hkeys]; exact hw.1, ?_⟩
  intro ckv' hckv'
  rw [h.storage] at hckv'
  obtain ⟨ckv, hckv, rfl⟩ := List.mem_map.1 hckv'
  obtain ⟨hU, hR⟩ := hw.2 ckv hckv
  by_cases hc : ckv.1 = Class
  · simp only [hc, if_true]
    refine ⟨TMap.UniqueKeys_filter hU _, ?_⟩
    intro kv hkv
    obtain ⟨hkv1, hkv2⟩ := List.mem_filter.1 hkv
    have hnot : kv.1 ∉ Names := by simpa using hkv2
    have hr := hR kv hkv1
    rw [hc] at hr
    obtain ⟨⟨Item, hItem, hItemName⟩, f, d, hf, hd, hdn⟩ := (HasRouter_iff _ _ _).1 hr
    refine (HasRouter_iff _ _ _).2 ⟨⟨Item, ?_, hItemName⟩, f, d, ?_, ?_, hdn⟩
    · obtain ⟨Items, hn, hp⟩ := h.tables.table
      rcases List.mem_append.1 (hp.subset hItem) with hi | hi
      · exfalso
        apply hnot
        rw [← hn, ← hItemName]
        exact List.mem_map.2 ⟨Item, hi, rfl⟩
      · exact hi
    · rw [h.tables.funcMap,
        TMap.Find_filter_key (w.Classes Class).FuncMap (fun k => decide (k ∉ Names)) kv.1]
      simp [hnot, hf]
    · rw [h.frame.functions]
      exact hd
  · simp only [hc, if_false]
    refine ⟨hU, ?_⟩
    intro kv hkv
    have hr := hR kv hkv
    obtain ⟨h1, f, d, hf, hd, hdn⟩ := (HasRouter_iff _ _ _).1 hr
    refine (HasRouter_iff _ _ _).2 ?_
    rw [h.others _ hc, h.frame.functions]
    exact ⟨h1, f, d, hf, hd, hdn⟩

theorem SweptClass_nil (w : World) (Class : UClass) : SweptClass w Class [] w := by
  refine ⟨?_, ⟨⟨[], rfl, by simp⟩, by simp, rfl, rfl⟩, fun _ _ => rfl, by simp,
    SweepFrame_refl w⟩
  conv_lhs => rw [← List.map_id w.Storage]
  apply List.map_congr_left
  intro ckv _
  by_cases hc : ckv.1 = Class
  · subst hc
    simp
  · simp [hc]

/-- The clean-up loop on a consistent world, for distinct names that are keys of the
class's registry: it does not abort, and its effect is `SweptClass`. -/
theorem CleanUpLambdas_spec (Class : UClass) :
    ∀ (Names : List FName) (w : World), Consistent w →
      ∀ ClassStorage, (Class, ClassStorage) ∈ w.Storage → Names.Nodup →
        (∀ n ∈ Names, n ∈ TMap.Keys ClassStorage) →
        ∃ w', CleanUpLambdas w Class Names = some w' ∧ SweptClass w Class Names w'
  | [], w, _, _, _, _, _ => ⟨w, rfl, SweptClass_nil w Class⟩
  | n :: rest, w, hw, ClassStorage, hC, hnd, hsub => by
    obtain ⟨w1, he1, hs1⟩ :=
      CleanUpLambda_spec w hw Class ClassStorage hC n (hsub n (List.mem_cons_self _ _))
    have hw1 := hs1.consistent hw
    have hC1 : (Class, ClassStorage.filter (fun KV => decide (KV.1 ∉ [n]))) ∈ w1.Storage := by
      rw [hs1.storage]
      exact List.mem_map.2 ⟨_, hC, by simp⟩
    have hnd' := List.nodup_cons.1 hnd
    have hsub1 : ∀ n' ∈ rest,
        n' ∈ TMap.Keys (ClassStorage.filter (fun KV => decide (KV.1 ∉ [n]))) := by
      intro n' hn'
      obtain ⟨kv, hkv, hk⟩ := List.mem_map.1 (hsub n' (List.mem_cons_of_mem _ hn'))
      refine List.mem_map.2 ⟨kv, List.mem_filter.2 ⟨hkv, ?_⟩, hk⟩
      have : n' ≠ n := fun e => hnd'.1 (e ▸ hn')
      simp [hk, this]
    obtain ⟨w2, he2, hs2⟩ := CleanUpLambdas_spec Class rest w1 hw1 _ hC1 hnd'.2 hsub1
    refine ⟨w2, by simp [CleanUpLambdas, he1, he2], ?_⟩
    have := SweptClass_trans hs1 hs2 (fun n' hn' => by
      have : n' ≠ n := fun e => hnd'.1 (e ▸ hn')
      simpa using this)
    simpa using this

theorem LambdasToRemove_nodup (Objects : List FUObjectItem)
    {ClassStorage : TMap FName FLambdaStorage} (h : TMap.UniqueKeys ClassStorage) :
    (LambdasToRemove Objects ClassStorage).Nodup :=
  List.Nodup.sublist ((List.filter_sublist ClassStorage).map Prod.fst) h

theorem LambdasToRemove_subset (Objects : List FUObjectItem)
    (ClassStorage : TMap FName FLambdaStorage) :
    ∀ n ∈ LambdasToRemove Objects ClassStorage, n ∈ TMap.Keys ClassStorage := by
  intro n hn
  obtain ⟨kv, hkv, hk⟩ := List.mem_map.1 hn
  exact List.mem_map.2 ⟨kv, (List.mem_filter.1 hkv).1, hk⟩

/-- With unique keys, dropping the gathered names leaves exactly the valid entries. -/
theorem filter_not_removed (Objects : List FUObjectItem)
    {ClassStorage : TMap FName FLambdaStorage} (h : TMap.UniqueKeys ClassStorage) :
    ClassStorage.filter (fun KV => decide (KV.1 ∉ LambdasToRemove Objects ClassStorage)) =
      ClassStorage.filter (fun KV => KV.2.IsValid Objects) := by
  apply List.filter_congr
  intro kv hkv
  by_cases hv : kv.2.IsValid Objects = true
  · rw [hv, decide_eq_true_eq]
    intro hmem
    obtain ⟨kv', hkv', hk'⟩ := List.mem_map.1 hmem
    obtain ⟨hin, hbad⟩ := List.mem_filter.1 hkv'
    have e1 := TMap.Find_eq_some_of_mem h (k := kv'.1) (v := kv'.2) hin
    have e2 := TMap.Find_eq_some_of_mem h (k := kv.1) (v := kv.2) hkv
    rw [hk', e2] at e1
    simp only [Option.some.injEq] at e1
    rw [← e1, hv] at hbad
    simp at hbad
  · have hv' : kv.2.IsValid Objects = false := by simpa using hv
    rw [hv', decide_eq_false_iff_not, not_not]
    exact List.mem_map.2 ⟨kv, List.mem_filter.2 ⟨hkv, by simp [hv']⟩, rfl⟩

theorem SweptClass.find_other {w w' : World} {Class : UClass} {Names : List FName}
    (h : SweptClass w Class Names w') {C : UClass} (hC : C ≠ Class) :
    TMap.Find w'.Storage C = TMap.Find w.Storage C := by
  have hform : w'.Storage = w.Storage.map (fun ckv =>
      (ckv.1, (fun (k : UClass) (v : TMap FName FLambdaStorage) =>
        if k = Class then v.filter (fun KV => decide (KV.1 ∉ Names)) else v) ckv.1 ckv.2)) := by
    rw [h.storage]
    apply List.map_congr_left
    intro ckv _
    by_cases hc : ckv.1 = Class <;> simp [hc]
  have key := TMap.Find_map_value w.Storage (fun (k : UClass) (v : TMap FName FLambdaStorage) =>
    if k = Class then v.filter (fun KV => decide (KV.1 ∉ Names)) else v) C
  rw [hform]
  refine key.trans ?_
  cases TMap.Find w.Storage C <;> simp [hC]

theorem SweptClass.removedNames_other {w w' : World} {Class : UClass} {Names : List FName}
    (h : SweptClass w Class Names w') {C : UClass} (hC : C ≠ Class) :
    RemovedNames w' C = RemovedNames w C := by
  unfold RemovedNames
  rw [h.find_other hC, h.frame.objects]

theorem SweptClass.keys {w w' : World} {Class : UClass} {Names : List FName}
    (h : SweptClass w Class Names w') : TMap.Keys w'.Storage = TMap.Keys w.Storage := by
  unfold TMap.Keys
  rw [h.storage, List.map_map]
  apply List.map_congr_left
  intro ckv _
  by_cases hc : ckv.1 = Class <;> simp [Function.comp, hc]

theorem Swept_nil (w : World) : Swept w [] w := by
  refine ⟨?_, fun _ h => (by cases h), fun _ _ => rfl, (by simp), SweepFrame_refl w⟩
  simp

/-- The loop over the classes on a consistent world, for distinct classes of the registry:
it does not abort, and its effect is `Swept`. -/
theorem SweepClasses_spec :
    ∀ (Classes : List UClass) (w : World), Consistent w → Classes.Nodup →
      (∀ C ∈ Classes, C ∈ TMap.Keys w.Storage) →
      ∃ w', SweepClasses w Classes = some w' ∧ Swept w Classes w'
  | [], w, _, _, _ => ⟨w, rfl, Swept_nil w⟩
  | c :: rest, w, hw, hnd, hsub => by
    obtain ⟨ckv, hckv, hck⟩ := List.mem_map.1 (hsub c (List.mem_cons_self _ _))
    obtain ⟨c0, m⟩ := ckv
    simp only at hck
    subst hck
    have hFind : TMap.Find w.Storage c0 = some m := TMap.Find_eq_some_of_mem hw.1 hckv
    have hU := (hw.2 _ hckv).1
    obtain ⟨w1, he1, hs1⟩ := CleanUpLambdas_spec c0 (LambdasToRemove w.GUObjectArray m) w hw m
      hckv (LambdasToRemove_nodup _ hU) (LambdasToRemove_subset _ _)
    have hw1 := hs1.consistent hw
    have hnd' := List.nodup_cons.1 hnd
    obtain ⟨w2, he2, hs2⟩ := SweepClasses_spec rest w1 hw1 hnd'.2 (by
      intro C hC
      rw [hs1.keys]
      exact hsub C (List.mem_cons_of_mem _ hC))
    refine ⟨w2, by simp [SweepClasses, hFind, he1, he2], ?_⟩
    have hne : ∀ C ∈ rest, C ≠ c0 := fun C hC e => hnd'.1 (e ▸ hC)
    constructor
    · rw [hs2.storage, hs1.storage, List.map_map, hs1.frame.objects]
      apply List.map_congr_left
      intro ckv hckv'
      by_cases hc : ckv.1 = c0
      · have hm : ckv.2 = m := by
          have := TMap.Find_eq_some_of_mem hw.1 (k := ckv.1) (v := ckv.2) hckv'
          rw [hc, hFind] at this
          exact (Option.some.inj this).symm
        simp only [Function.comp, hc, if_true, hnd'.1, if_false, List.mem_cons, true_or]
        rw [hm, filter_not_removed _ hU]
      · by_cases hr : ckv.1 ∈ rest
        · simp [Function.comp, hc, hr]
        · simp [Function.comp, hc, hr]
    · intro C hC
      rcases List.mem_cons.1 hC with e | e
      · subst e
        rw [hs2.others _ hnd'.1]
        have : RemovedNames w C = LambdasToRemove w.GUObjectArray m := by
          simp [RemovedNames, hFind]
        rw [this]
        exact hs1.tables
      · have := hs2.tables C e
        rw [hs1.removedNames_other (hne C e), hs1.others C (hne C e)] at this
        exact this
    · intro C hC
      have h1 : C ≠ c0 := fun e => hC (e ▸ List.mem_cons_self _ _)
      have h2 : C ∉ rest := fun e => hC (List.mem_cons_of_mem _ e)
      rw [hs2.others C h2, hs1.others C h1]
    · rw [hs2.pool, hs1.pool, List.flatMap_cons, List.append_assoc]
      have : RemovedNames w c0 = LambdasToRemove w.GUObjectArray m := by
        simp [RemovedNames, hFind]
      rw [this]
      congr 2
      apply List.flatMap_congr
      intro C hC
      rw [hs1.removedNames_other (hne C hC), hs1.others C (hne C hC)]
    · exact SweepFrame_trans hs1.frame hs2.frame

/-- The sweep on a consistent world does not abort, and its effect is `Swept` over all the
classes of the registry. -/
theorem OnPostGarbageCollect_spec (w : World) (hw : Consistent w) :
    ∃ w', OnPostGarbageCollect w = some w' ∧ Swept w (TMap.Keys w.Storage) w' :=
  SweepClasses_spec (TMap.Keys w.Storage) w hw hw.1 (fun _ h => h)

theorem TMap.Find_filter_value {K V : Type} [DecidableEq K] {m : TMap K V}
    (hm : TMap.UniqueKeys m) (p : V → Bool) (k : K) :
    TMap.Find (m.filter (fun kv => p kv.2)) k = (TMap.Find m k).filter p := by
  induction m with
  | nil => simp [TMap.Find]
  | cons kv rest ih =>
    obtain ⟨k0, v0⟩ := kv
    simp only [TMap.UniqueKeys, List.map_cons, List.nodup_cons] at hm
    have ih' := ih hm.2
    by_cases hk : k0 = k
    · subst hk
      have hnone : TMap.Find rest k0 = none := TMap.Find_eq_none_iff.2 hm.1
      by_cases hp : p v0 = true
      · rw [List.filter_cons_of_pos (by simpa using hp)]
        simp [TMap.Find, Option.filter, hp]
      · rw [List.filter_cons_of_neg (by simpa using hp), ih', hnone]
        simp [TMap.Find, Option.filter, hp]
    · by_cases hp : p v0 = true
      · rw [List.filter_cons_of_pos (by simpa using hp)]
        simp [TMap.Find, hk, ih']
      · rw [List.filter_cons_of_neg (by simpa using hp)]
        simp [TMap.Find, hk, ih']

/-- The registry entries after a sweep over all classes: the valid ones, unchanged. -/
theorem Swept.entry {w w' : World} (hw : Consistent w)
    (h : Swept w (TMap.Keys w.Storage) w') (Class : UClass) (LambdaName : FName) :
    w'.Entry Class LambdaName =
      (w.Entry Class LambdaName).filter (fun e => e.IsValid w.GUObjectArray) := by
  have hform : w'.Storage = w.Storage.map (fun ckv =>
      (ckv.1, (fun (_ : UClass) (v : TMap FName FLambdaStorage) =>
        v.filter (fun KV => KV.2.IsValid w.GUObjectArray)) ckv.1 ckv.2)) := by
    rw [h.storage]
    apply List.map_congr_left
    intro ckv hckv
    have : ckv.1 ∈ TMap.Keys w.Storage := List.mem_map.2 ⟨ckv, hckv, rfl⟩
    simp [this]
  have key := TMap.Find_map_value w.Storage (fun (_ : UClass) (v : TMap FName FLambdaStorage) =>
    v.filter (fun KV => KV.2.IsValid w.GUObjectArray)) Class
  unfold World.Entry
  rw [hform]
  rw [key]
  cases hF : TMap.Find w.Storage Class with
  | none => simp [Option.filter]
  | some m =>
    have hU := (hw.2 _ (TMap.mem_of_Find_eq_some hF)).1
    simpa using TMap.Find_filter_value hU (fun e => e.IsValid w.GUObjectArray) LambdaName

/-- C1: on a consistent world the post-collection sweep runs to the end, and afterwards the
registry holds exactly the entries that were valid (owner and target both valid) before the
sweep, unchanged; every entry whose owner or whose target is not valid is absent. -/
theorem OnPostGarbageCollect_keeps_exactly_valid (w : World) (hw : Consistent w) :
    ∃ w', OnPostGarbageCollect w = some w' ∧
      w'.GUObjectArray = w.GUObjectArray ∧
      w'.Storage = w.Storage.map (fun ClassKV =>
        (ClassKV.1, ClassKV.2.filter (fun KV => KV.2.IsValid w.GUObjectArray))) ∧
      (∀ Class LambdaName, w'.Entry Class LambdaName =
        (w.Entry Class LambdaName).filter (fun e => e.IsValid w.GUObjectArray)) ∧
      (∀ Class LambdaName e, w.Entry Class LambdaName = some e →
        (TWeakObjectPtr.IsValid w.GUObjectArray e.DelegateOwner = false ∨
          TWeakObjectPtr.IsValid w.GUObjectArray e.LambdaOwner = false) →
        w'.Entry Class LambdaName = none) := by
  obtain ⟨w', he, hs⟩ := OnPostGarbageCollect_spec w hw
  refine ⟨w', he, hs.frame.objects, ?_, hs.entry hw, ?_⟩
  · rw [hs.storage]
    apply List.map_congr_left
    intro ckv hckv
    have : ckv.1 ∈ TMap.Keys w.Storage := List.mem_map.2 ⟨ckv, hckv, rfl⟩
    simp [this]
  · intro Class LambdaName e hE hbad
    rw [hs.entry hw, hE]
    have : e.IsValid w.GUObjectArray = false := by
      unfold FLambdaStorage.IsValid
      rcases hbad with h | h <;> simp [h]
    simp [Option.filter, this]

/-- C1, on the example: the sweep of `ExampleBound` keeps the second binding and drops the
first. -/
theorem OnPostGarbageCollect_keeps_exactly_valid_witness :
    Consistent ExampleBound ∧
      ∃ w', OnPostGarbageCollect ExampleBound = some w' ∧
        w'.Entry 2 "lambda_2_f.cpp:11" = ExampleBound.Entry 2 "lambda_2_f.cpp:11" ∧
        w'.Entry 2 "lambda_1_f.cpp:10" = none := by
  refine ⟨by decide, ?_⟩
  obtain ⟨w', he, _, _, hE, _⟩ :=
    OnPostGarbageCollect_keeps_exactly_valid ExampleBound (by decide)
  exact ⟨w', he, by rw [hE]; decide, by rw [hE]; decide⟩

/-- C2, as stated, fails: in `ExampleBound` the binding `lambda_1_f.cpp:10` has an owner
that was never resolved and a valid target, and the sweep removes it. -/
theorem unresolved_owner_is_reaped :
    (ExampleBound.Entry 2 "lambda_1_f.cpp:10").map
        (fun e => (e.DelegateOwner.IsExplicitlyNull,
          TWeakObjectPtr.IsValid ExampleBound.GUObjectArray e.LambdaOwner)) = some (true, true) ∧
      (OnPostGarbageCollect ExampleBound).map (fun w => w.Entry 2 "lambda_1_f.cpp:10") =
        some none := by
  decide

/-- C2, amended: the sweep removes every entry whose owner was never resolved, whatever the
state of its target; an entry that is still in the registry after the sweep has an owner
that was resolved and is valid, and a valid target. -/
theorem OnPostGarbageCollect_reaps_unresolved (w : World) (hw : Consistent w) :
    ∃ w', OnPostGarbageCollect w = some w' ∧
      (∀ Class LambdaName e, w.Entry Class LambdaName = some e →
        e.DelegateOwner.IsExplicitlyNull = true → w'.Entry Class LambdaName = none) ∧
      (∀ Class LambdaName e, w'.Entry Class LambdaName = some e →
        w.Entry Class LambdaName = some e ∧ e.DelegateOwner.IsExplicitlyNull = false ∧
        TWeakObjectPtr.IsValid w.GUObjectArray e.DelegateOwner = true ∧
        TWeakObjectPtr.IsValid w.GUObjectArray e.LambdaOwner = true) := by
  obtain ⟨w', he, hs⟩ := OnPostGarbageCollect_spec w hw
  refine ⟨w', he, ?_, ?_⟩
  · intro Class LambdaName e hE hnull
    rw [hs.entry hw, hE]
    have : e.IsValid w.GUObjectArray = false := by
      cases hO : e.DelegateOwner with
      | none => simp [FLambdaStorage.IsValid, TWeakObjectPtr.IsValid, hO]
      | some s => simp [TWeakObjectPtr.IsExplicitlyNull, hO] at hnull
    simp [Option.filter, this]
  · intro Class LambdaName e hE
    rw [hs.entry hw] at hE
    cases hO : w.Entry Class LambdaName with
    | none => simp [hO, Option.filter] at hE
    | some e0 =>
      rw [hO] at hE
      by_cases hv : e0.IsValid w.GUObjectArray = true
      · simp only [Option.filter, hv, if_true, Option.some.injEq] at hE
        subst hE
        have hv' := hv
        simp only [FLambdaStorage.IsValid, Bool.and_eq_true] at hv'
        refine ⟨rfl, ?_, hv'.1, hv'.2⟩
        cases hD : e0.DelegateOwner with
        | none => simp [hD, TWeakObjectPtr.IsValid] at hv'
        | some s => rfl
      · simp [Option.filter, hv] at hE

/-- C2 amended, on the example: the unresolved binding of `ExampleBound` is removed. -/
theorem OnPostGarbageCollect_reaps_unresolved_witness :
    Consistent ExampleBound ∧
      ∃ w', OnPostGarbageCollect ExampleBound = some w' ∧
        w'.Entry 2 "lambda_1_f.cpp:10" = none := by
  refine ⟨by decide, ?_⟩
  obtain ⟨w', he, h1, _⟩ := OnPostGarbageCollect_reaps_unresolved ExampleBound (by decide)
  exact ⟨w', he, h1 2 "lambda_1_f.cpp:10"
    { DelegateData := { Pointer := 140, IsMulticast := false }, DelegateOwner := none,
      LambdaOwner := some 1, Lambda := 7 } (by decide) (by decide)⟩

theorem World.mem_of_Entry {w : World} {Class : UClass} {LambdaName : FName}
    {e : FLambdaStorage} (h : w.Entry Class LambdaName = some e) :
    ∃ m, TMap.Find w.Storage Class = some m ∧ (Class, m) ∈ w.Storage ∧ (LambdaName, e) ∈ m := by
  unfold World.Entry at h
  cases hF : TMap.Find w.Storage Class with
  | none => simp [hF] at h
  | some m =>
    rw [hF] at h
    exact ⟨m, rfl, TMap.mem_of_Find_eq_some hF, TMap.mem_of_Find_eq_some h⟩

theorem mem_RemovedNames_iff {w : World} (hw : Consistent w) (Class : UClass)
    (LambdaName : FName) :
    LambdaName ∈ RemovedNames w Class ↔
      ∃ e, w.Entry Class LambdaName = some e ∧ e.IsValid w.GUObjectArray = false := by
  unfold RemovedNames World.Entry
  cases hF : TMap.Find w.Storage Class with
  | none => simp
  | some m =>
    have hU := (hw.2 _ (TMap.mem_of_Find_eq_some hF)).1
    simp only [LambdasToRemove]
    constructor
    · intro h
      obtain ⟨kv, hkv, hk⟩ := List.mem_map.1 h
      obtain ⟨hin, hbad⟩ := List.mem_filter.1 hkv
      refine ⟨kv.2, ?_, by simpa using hbad⟩
      rw [← hk]
      exact TMap.Find_eq_some_of_mem hU hin
    · rintro ⟨e, hE, hbad⟩
      exact List.mem_map.2 ⟨(LambdaName, e),
        List.mem_filter.2 ⟨TMap.mem_of_Find_eq_some hE, by simp [hbad]⟩, rfl⟩

theorem RemovedNames_of_not_key {w : World} {Class : UClass}
    (h : Class ∉ TMap.Keys w.Storage) : RemovedNames w Class = [] := by
  unfold RemovedNames
  rw [TMap.Find_eq_none_iff.2 h]

theorem length_filterMap_of_isSome {α β : Type} (f : α → Option β) :
    ∀ (l : List α), (∀ a ∈ l, ∃ b, f a = some b) → (l.filterMap f).length = l.length
  | [], _ => rfl
  | a :: l, h => by
    obtain ⟨b, hb⟩ := h a (List.mem_cons_self _ _)
    rw [List.filterMap_cons_some hb]
    simp [length_filterMap_of_isSome f l (fun a ha => h a (List.mem_cons_of_mem _ ha))]

/-- Every gathered name has its function in the function map of the class. -/
theorem RemovedNames_routed {w : World} (hw : Consistent w) (Class : UClass) :
    ∀ n ∈ RemovedNames w Class, ∃ f, TMap.Find (w.Classes Class).FuncMap n = some f := by
  intro n hn
  obtain ⟨e, hE, _⟩ := (mem_RemovedNames_iff hw Class n).1 hn
  obtain ⟨m, _, hm, hin⟩ := World.mem_of_Entry hE
  obtain ⟨_, f, _, hf, _, _⟩ := (HasRouter_iff _ _ _).1 ((hw.2 _ hm).2 _ hin)
  exact ⟨f, hf⟩

theorem Swept.pool_length {w w' : World} (hw : Consistent w)
    (h : Swept w (TMap.Keys w.Storage) w') :
    w'.FunctionPool.length = w.FunctionPool.length + InvalidCount w := by
  rw [h.pool, List.length_append, List.length_flatMap]
  congr 1
  unfold InvalidCount TMap.Keys
  rw [List.map_map]
  congr 1
  apply List.map_congr_left
  intro ckv hckv
  have hF : TMap.Find w.Storage ckv.1 = some ckv.2 := TMap.Find_eq_some_of_mem hw.1 hckv
  simp only [Function.comp]
  rw [length_filterMap_of_isSome _ _ (RemovedNames_routed hw ckv.1)]
  simp [RemovedNames, hF]

/-- C10: on a consistent world whose lookup tables hold each name once, the sweep detaches
every removed slot and pools it.  For an entry that is removed, the lookup table of its class
has no item of that name afterwards, the function map has no function of that name, and the
function that was attached under the name is in the pool.  For every name that is not
removed, the lookup-table items and the function-map entry are still there.  No item
appears, each table shrinks by the number of names removed from its class, and the pool,
extended at its end, grows by the number of removed entries. -/
theorem OnPostGarbageCollect_detaches_and_pools (w : World) (hw : Consistent w)
    (hNames : ∀ C,
      ((w.Classes C).NativeFunctionLookupTable.map (fun Item => Item.Name)).Nodup) :
    ∃ w', OnPostGarbageCollect w = some w' ∧
      (∀ Class LambdaName e, w.Entry Class LambdaName = some e →
        e.IsValid w.GUObjectArray = false →
        (∀ Item ∈ (w'.Classes Class).NativeFunctionLookupTable, Item.Name ≠ LambdaName) ∧
        TMap.Find (w'.Classes Class).FuncMap LambdaName = none ∧
        ∃ Function, TMap.Find (w.Classes Class).FuncMap LambdaName = some Function ∧
          Function ∈ w'.FunctionPool) ∧
      (∀ Class LambdaName,
        (∀ e, w.Entry Class LambdaName = some e → e.IsValid w.GUObjectArray = true) →
        (∀ Item ∈ (w.Classes Class).NativeFunctionLookupTable, Item.Name = LambdaName →
          Item ∈ (w'.Classes Class).NativeFunctionLookupTable) ∧
        TMap.Find (w'.Classes Class).FuncMap LambdaName =
          TMap.Find (w.Classes Class).FuncMap LambdaName) ∧
      (∀ Class, ∀ Item ∈ (w'.Classes Class).NativeFunctionLookupTable,
        Item ∈ (w.Classes Class).NativeFunctionLookupTable) ∧
      (∀ Class, (w'.Classes Class).NativeFunctionLookupTable.length +
        (RemovedNames w Class).length = (w.Classes Class).NativeFunctionLookupTable.length) ∧
      (∃ Pooled, w'.FunctionPool = w.FunctionPool ++ Pooled) ∧
      w'.FunctionPool.length = w.FunctionPool.length + InvalidCount w := by
  obtain ⟨w', he, hs⟩ := OnPostGarbageCollect_spec w hw
  -- the effect on the tables of any class, in or out of the registry
  have hT : ∀ C, ClassSwept (w.Classes C) (RemovedNames w C) (w'.Classes C) := by
    intro C
    by_cases hC : C ∈ TMap.Keys w.Storage
    · exact hs.tables C hC
    · rw [hs.others C hC, RemovedNames_of_not_key hC]
      exact ⟨⟨[], rfl, by simp⟩, by simp, rfl, rfl⟩
  refine ⟨w', he, ?_, ?_, ?_, ?_, ⟨_, hs.pool⟩, hs.pool_length hw⟩
  · intro Class LambdaName e hE hbad
    have hmem : LambdaName ∈ RemovedNames w Class :=
      (mem_RemovedNames_iff hw Class LambdaName).2 ⟨e, hE, hbad⟩
    obtain ⟨Items, hn, hp⟩ := (hT Class).table
    refine ⟨?_, ?_, ?_⟩
    · intro Item hItem hName
      have hnd : ((Items ++ (w'.Classes Class).NativeFunctionLookupTable).map
          (fun Item => Item.Name)).Nodup :=
        (hp.map _).nodup_iff.1 (hNames Class)
      rw [List.map_append, hn] at hnd
      exact (List.disjoint_of_nodup_append hnd) hmem
        (hName ▸ List.mem_map.2 ⟨Item, hItem, rfl⟩)
    · rw [(hT Class).funcMap, TMap.Find_filter_key (w.Classes Class).FuncMap
        (fun k => decide (k ∉ RemovedNames w Class)) LambdaName]
      simp [hmem]
    · obtain ⟨f, hf⟩ := RemovedNames_routed hw Class LambdaName hmem
      refine ⟨f, hf, ?_⟩
      obtain ⟨m, hFind, _, _⟩ := World.mem_of_Entry hE
      have hKey : Class ∈ TMap.Keys w.Storage := by
        by_contra hno
        rw [TMap.Find_eq_none_iff.2 hno] at hFind
        cases hFind
      rw [hs.pool]
      refine List.mem_append_right _ (List.mem_flatMap.2 ⟨Class, hKey, ?_⟩)
      exact List.mem_filterMap.2 ⟨LambdaName, hmem, hf⟩
  · intro Class LambdaName hvalid
    have hnot : LambdaName ∉ RemovedNames w Class := by
      intro hmem
      obtain ⟨e, hE, hbad⟩ := (mem_RemovedNames_iff hw Class LambdaName).1 hmem
      rw [hvalid e hE] at hbad
      cases hbad
    obtain ⟨Items, hn, hp⟩ := (hT Class).table
    refine ⟨?_, ?_⟩
    · intro Item hItem hName
      rcases List.mem_append.1 (hp.subset hItem) with hi | hi
      · exfalso
        apply hnot
        rw [← hn, ← hName]
        exact List.mem_map.2 ⟨Item, hi, rfl⟩
      · exact hi
    · rw [(hT Class).funcMap, TMap.Find_filter_key (w.Classes Class).FuncMap
        (fun k => decide (k ∉ RemovedNames w Class)) LambdaName]
      simp [hnot]
  · intro Class Item hItem
    obtain ⟨Items, _, hp⟩ := (hT Class).table
    exact hp.symm.subset (List.mem_append_right _ hItem)
  · intro Class
    obtain ⟨Items, hn, hp⟩ := (hT Class).table
    rw [hp.length_eq, List.length_append, ← hn, List.length_map]
    omega

theorem ExampleBound_names_nodup (C : UClass) :
    ((ExampleBound.Classes C).NativeFunctionLookupTable.map (fun Item => Item.Name)).Nodup := by
  show ((ExampleBoundClasses C).NativeFunctionLookupTable.map (fun Item => Item.Name)).Nodup
  unfold ExampleBoundClasses ExampleClasses
  by_cases h2 : C = 2
  · rw [if_pos h2]
    decide
  · rw [if_neg h2]
    by_cases h1 : C = 1
    · rw [if_pos h1]
      decide
    · rw [if_neg h1]
      decide

/-- C10, on the example: the sweep of `ExampleBound` takes the slot `lambda_1_f.cpp:10` out
of the tables of class `2`, puts its function `0` into the pool, and keeps the other slot. -/
theorem OnPostGarbageCollect_detaches_and_pools_witness :
    Consistent ExampleBound ∧
      ∃ w', OnPostGarbageCollect ExampleBound = some w' ∧
        (∀ Item ∈ (w'.Classes 2).NativeFunctionLookupTable, Item.Name ≠ "lambda_1_f.cpp:10") ∧
        TMap.Find (w'.Classes 2).FuncMap "lambda_1_f.cpp:10" = none ∧
        0 ∈ w'.FunctionPool ∧
        TMap.Find (w'.Classes 2).FuncMap "lambda_2_f.cpp:11" = some 1 ∧
        w'.FunctionPool.length = 1 := by
  refine ⟨by decide, ?_⟩
  obtain ⟨w', he, h1, h2, _, _, _, h6⟩ :=
    OnPostGarbageCollect_detaches_and_pools ExampleBound (by decide) ExampleBound_names_nodup
  obtain ⟨ha, hb, f, hf, hc⟩ := h1 2 "lambda_1_f.cpp:10"
    { DelegateData := { Pointer := 140, IsMulticast := false }, DelegateOwner := none,
      LambdaOwner := some 1, Lambda := 7 } (by decide) (by decide)
  have hf0 : f = 0 := by
    have : TMap.Find (ExampleBound.Classes 2).FuncMap "lambda_1_f.cpp:10" = some 0 := by decide
    rw [this] at hf
    exact (Option.some.inj hf).symm
  subst hf0
  have hkeep := (h2 2 "lambda_2_f.cpp:11" (by
    intro e hE
    have : ExampleBound.Entry 2 "lambda_2_f.cpp:11" = some
        { DelegateData := { Pointer := 240, IsMulticast := false }, DelegateOwner := some 3,
          LambdaOwner := some 1, Lambda := 8 } := by decide
    rw [this] at hE
    cases hE
    decide)).2
  refine ⟨w', he, ha, hb, hc, ?_, ?_⟩
  · rw [hkeep]
    decide
  · rw [h6]
    decide

/-- C5: when the registry has an entry for the caller's class under the name of the function
the call came through, `RouteToLambda` returns, the closure of that entry is invoked once
and no other closure is invoked (the trace grows by exactly that closure), and the registry,
the pool, the class tables and the function objects are unchanged. -/
theorem RouteToLambda_invokes_registered_closure_once (w : World) (Context : UObject)
    (CurrentNativeFunction : UFunction) (Data : UFunctionData) (e : FLambdaStorage)
    (hF : w.UFunctions[CurrentNativeFunction]? = some Data)
    (hE : w.Entry Context.Class Data.Name = some e) :
    ∃ w', RouteToLambda w Context CurrentNativeFunction = some w' ∧
      w'.Invocations = w.Invocations ++ [e.Lambda] ∧
      (∀ Lambda, w'.Invocations.count Lambda =
        w.Invocations.count Lambda + if Lambda = e.Lambda then 1 else 0) ∧
      w'.Storage = w.Storage ∧ w'.FunctionPool = w.FunctionPool ∧
      w'.Classes = w.Classes ∧ w'.UFunctions = w.UFunctions := by
  obtain ⟨m, hFind, _, hin⟩ := World.mem_of_Entry hE
  have hE' : TMap.Find m Data.Name = some e := by
    unfold World.Entry at hE
    rw [hFind] at hE
    exact hE
  refine ⟨{ w with Invocations := w.Invocations ++ [e.Lambda] }, ?_, rfl, ?_, rfl, rfl, rfl, rfl⟩
  · simp [RouteToLambda, hF, hFind, hE']
  · intro Lambda
    by_cases h : Lambda = e.Lambda
    · subst h
      simp
    · simp [h, List.count_append, List.count_singleton, Ne.symm h]

/-- C5, on the example: a call on `ExampleTarget` through function `1` of `ExampleBound`
runs closure `8` once and runs nothing else. -/
theorem RouteToLambda_invokes_registered_closure_once_witness :
    ∃ w', RouteToLambda ExampleBound ExampleTarget 1 = some w' ∧
      w'.Invocations = [8] ∧ w'.Invocations.count 7 = 0 ∧ w'.Storage = ExampleBound.Storage := by
  obtain ⟨w', he, h1, h2, h3, _⟩ :=
    RouteToLambda_invokes_registered_closure_once ExampleBound ExampleTarget 1
      { Name := "lambda_2_f.cpp:11", Outer := 2, Func := some .RouteToLambda }
      { DelegateData := { Pointer := 240, IsMulticast := false }, DelegateOwner := some 3,
        LambdaOwner := some 1, Lambda := 8 } (by decide) (by decide)
  exact ⟨w', he, h1, by rw [h2]; decide, h3⟩

/-! ## Binding -/

theorem getElem?_set_other {α : Type} (l : List α) (i j : Nat) (a : α) (h : j ≠ i) :
    (l.set i a)[j]? = l[j]? := by
  rw [List.getElem?_set]
  simp [Ne.symm h]

/-- The function `CreateFunction` returns whenever the pooled functions are allocated objects; its effect
is `CreatedFunction`. -/
theorem CreateFunction_spec (w : World) (hp : PoolAllocated w) (ObjectClass : UClass)
    (Name : FName) :
    ∃ Function w', CreateFunction w ObjectClass Name = some (Function, w') ∧
      CreatedFunction w ObjectClass Name Function w' := by
  cases hL : w.FunctionPool.getLast? with
  | none =>
    have hnil : w.FunctionPool = [] := List.getLast?_eq_none_iff.1 hL
    refine ⟨w.UFunctions.length, _, by simp [CreateFunction, hL]; rfl, ?_⟩
    refine ⟨⟨{ Name := Name, Outer := ObjectClass, Func := none }, by simp, rfl, rfl⟩, ?_,
      Or.inr ⟨hnil, hnil, rfl, rfl⟩, rfl, rfl, rfl, rfl, rfl, rfl, rfl, rfl, rfl⟩
    intro Other hO
    show (w.UFunctions ++ [_])[Other]? = _
    by_cases hlt : Other < w.UFunctions.length
    · rw [List.getElem?_append_left hlt]
    · have hgt : w.UFunctions.length < Other :=
        Nat.lt_of_le_of_ne (Nat.le_of_not_lt hlt) (Ne.symm hO)
      rw [List.getElem?_eq_none (by simpa using hgt), List.getElem?_eq_none (Nat.le_of_lt hgt)]
  | some f =>
    have hmem : f ∈ w.FunctionPool := List.mem_of_getLast?_eq_some hL
    have hlt : f < w.UFunctions.length := hp f hmem
    have hget : w.UFunctions[f]? = some w.UFunctions[f] := List.getElem?_eq_getElem hlt
    have hpool : w.FunctionPool = w.FunctionPool.dropLast ++ [f] := by
      have hne : w.FunctionPool ≠ [] := List.ne_nil_of_mem hmem
      have := List.dropLast_concat_getLast hne
      rw [List.getLast?_eq_getLast _ hne] at hL
      rw [← Option.some.inj hL]
      exact this.symm
    refine ⟨f, { w with
        FunctionPool := w.FunctionPool.dropLast
        UFunctions := w.UFunctions.set f
          { Name := Name, Outer := ObjectClass, Func := (w.UFunctions[f]).Func } }, ?_, ?_⟩
    · simp [CreateFunction, hL, Rename, hget, hlt]
    · refine ⟨⟨{ Name := Name, Outer := ObjectClass, Func := (w.UFunctions[f]).Func },
        by simp [hlt], rfl, rfl⟩, ?_, Or.inl ⟨hpool, hlt, by simp⟩, rfl, rfl, rfl,
        rfl, rfl, rfl, rfl, rfl, rfl⟩
      intro Other hO
      exact getElem?_set_other _ _ _ _ hO
/-- A bind returns whenever the pooled functions are allocated objects; its effect is
`Bound`. -/
theorem Bind_spec (w : World) (hp : PoolAllocated w) (Object : UObject) (Delegate : Nat)
    (IsMulticast : Bool) (Callable : TFunction) (File : String) (Line : Int) :
    ∃ Function w',
      BindWeakLambdaToDynamicDelegate w Object Delegate IsMulticast Callable File Line =
        some w' ∧
      Bound w Object Delegate IsMulticast Callable File Line Function w' := by
  obtain ⟨f, w2, hCF, hc⟩ := CreateFunction_spec
    { w with
      ID := WrapInt32 (w.ID + 1)
      Classes := SetClass w.Classes Object.Class
        { w.Classes Object.Class with
          NativeFunctionLookupTable := (w.Classes Object.Class).NativeFunctionLookupTable ++
            [{ Name := NextLambdaName w File Line, Pointer := .RouteToLambda }] } }
    hp Object.Class (NextLambdaName w File Line)
  obtain ⟨d, hd, hdn, hdo⟩ := hc.named
  have htable : (w2.Classes d.Outer).NativeFunctionLookupTable =
      (w.Classes Object.Class).NativeFunctionLookupTable ++
        [{ Name := NextLambdaName w File Line, Pointer := .RouteToLambda }] := by
    rw [hc.classes, hdo]
    simp [SetClass]
  obtain ⟨Found, hFound⟩ : ∃ Found, (w2.Classes d.Outer).NativeFunctionLookupTable.find?
      (fun Item => decide (Item.Name = d.Name)) = some Found := by
    rw [htable, hdn]
    cases h : ((w.Classes Object.Class).NativeFunctionLookupTable ++
        [({ Name := NextLambdaName w File Line, Pointer := .RouteToLambda } :
          FNativeFunctionLookup)]).find?
        (fun Item => decide (Item.Name = NextLambdaName w File Line)) with
    | some x => exact ⟨x, rfl⟩
    | none =>
      rw [List.find?_eq_none] at h
      have := h { Name := NextLambdaName w File Line, Pointer := .RouteToLambda } (by simp)
      simp at this
  have hlt : f < w2.UFunctions.length := by
    by_contra hno
    rw [List.getElem?_eq_none (Nat.le_of_not_lt hno)] at hd
    cases hd
  have hB : BindWeakLambdaToDynamicDelegate w Object Delegate IsMulticast Callable File Line =
      some (StoreLambda
        (BindDelegate
          { w2 with
            UFunctions := w2.UFunctions.set f { d with Func := some Found.Pointer }
            Classes := SetClass w2.Classes Object.Class
              { w2.Classes Object.Class with
                FuncMap := TMap.Add (w2.Classes Object.Class).FuncMap
                  (NextLambdaName w File Line) f } }
          Delegate IsMulticast Object (NextLambdaName w File Line))
        (NextLambdaName w File Line) Object (MakeDelegateData Delegate IsMulticast)
        Callable) := by
    simp only [BindWeakLambdaToDynamicDelegate, GenerateLambdaName, CreateLambdaRouter]
    unfold NextLambdaName at hCF
    rw [hCF]
    simp only [UFunctionBind, hd, hFound]
    rfl
  refine ⟨f, _, hB, ?_⟩
  · constructor
    · simp only [StoreLambda, BindDelegate]
      split <;> simp [hc.storage, NextLambdaName, NewEntry, MakeDelegateData]
    · simp only [StoreLambda, BindDelegate]
      split <;> simp [hc.id]
    · simp only [StoreLambda, BindDelegate]
      split <;> simp [SetClass, hc.classes]
    · simp only [StoreLambda, BindDelegate]
      split <;> simp [SetClass, hc.classes]
    · simp only [StoreLambda, BindDelegate]
      split <;> simp [SetClass, hc.classes]
    · simp only [StoreLambda, BindDelegate]
      split <;> simp [SetClass, hc.classes]
    · intro C hC
      simp only [StoreLambda, BindDelegate]
      split <;> simp [SetClass, hc.classes, hC]
    · refine ⟨{ d with Func := some Found.Pointer }, ?_, hdn, hdo, ?_⟩
      · simp only [StoreLambda, BindDelegate]
        split <;> simp [hlt]
      · have : (w2.Classes d.Outer).NativeFunctionLookupTable.find?
            (fun Item => decide (Item.Name = NextLambdaName w File Line)) = some Found := by
          rw [← hdn]
          exact hFound
        rw [hdo] at this
        simp only [StoreLambda, BindDelegate]
        split <;> simp [SetClass, this]
    · intro Other hO
      have := hc.otherFunctions Other hO
      simp only [StoreLambda, BindDelegate]
      split <;> simp [getElem?_set_other _ _ _ _ hO, this]
    · rcases hc.source with ⟨h1, h2, h3⟩ | ⟨h1, h2, h3, h4⟩
      · left
        simp only [StoreLambda, BindDelegate]
        split <;> simpa using ⟨h1, h2, h3⟩
      · right
        simp only [StoreLambda, BindDelegate]
        split <;> simpa [h4] using ⟨h1, h2, h3⟩
    · simp only [StoreLambda, BindDelegate]
      split <;> simp [hc.objects]
    · simp only [StoreLambda, BindDelegate]
      split <;> simp [hc.firstGCIndex]
    · simp only [StoreLambda, BindDelegate]
      split <;> simp [hc.threads]
    · simp only [StoreLambda, BindDelegate]
      split <;> simp_all [hc.scriptDelegates]
    · simp only [StoreLambda, BindDelegate]
      split <;> simp_all [hc.multicastDelegates]
    · simp only [StoreLambda, BindDelegate]
      split <;> simp [hc.invocations]

theorem TMap.length_Add_of_Find_none {K V : Type} [DecidableEq K] (m : TMap K V) (k : K)
    (v : V) (h : TMap.Find m k = none) : (TMap.Add m k v).length = m.length + 1 := by
  induction m with
  | nil => simp [TMap.Add]
  | cons kv rest ih =>
    obtain ⟨k0, v0⟩ := kv
    by_cases hk : k0 = k
    · simp [TMap.Find, hk] at h
    · simp only [TMap.Find, hk, if_false] at h
      simp [TMap.Add, hk, ih h]

/-- Storing an entry under a key the registry does not have yet makes the registry one
entry larger. -/
theorem EntryCount_store (Storage : TMap UClass (TMap FName FLambdaStorage)) (Class : UClass)
    (LambdaName : FName) (e : FLambdaStorage)
    (hfresh : ∀ m, TMap.Find Storage Class = some m → TMap.Find m LambdaName = none) :
    ((TMap.Add Storage Class
        (TMap.Add
          (match TMap.Find Storage Class with
            | none => []
            | some ClassStorage => ClassStorage)
          LambdaName e)).map (fun ClassKV => ClassKV.2.length)).sum =
      (Storage.map (fun ClassKV => ClassKV.2.length)).sum + 1 := by
  induction Storage with
  | nil => simp [TMap.Add, TMap.Find]
  | cons ckv rest ih =>
    obtain ⟨c0, m0⟩ := ckv
    by_cases hc : c0 = Class
    · have := hfresh m0 (by simp [TMap.Find, hc])
      simp [TMap.Add, TMap.Find, hc, TMap.length_Add_of_Find_none _ _ _ this]
      omega
    · have ih' := ih (by
        intro m hm
        exact hfresh m (by simpa [TMap.Find, hc] using hm))
      simp only [TMap.Find, hc, if_false] at ih' ⊢
      simp only [TMap.Add, hc, if_false, List.map_cons, List.sum_cons, ih']
      omega

/-! ## Closures run only through the trampoline -/

theorem CleanUpLambda_invocations {w w' : World} {Class : UClass} {LambdaName : FName}
    (h : CleanUpLambda w Class LambdaName = some w') : w'.Invocations = w.Invocations := by
  unfold CleanUpLambda at h
  cases hS : TMap.Find w.Storage Class with
  | none => simp [hS] at h
  | some m =>
    cases hI : IndexOfByPredicate (fun Item : FNativeFunctionLookup =>
        decide (Item.Name = LambdaName)) (w.Classes Class).NativeFunctionLookupTable with
    | none => simp [hS, hI] at h
    | some i =>
      cases hF : FindFunctionByName w Class LambdaName with
      | none => simp [hS, hI, hF] at h
      | some f =>
        cases hD : w.UFunctions[f]? with
        | none => simp [hS, hI, hF, hD] at h
        | some d =>
          simp only [hS, hI, hF, hD, Option.some.injEq] at h
          rw [← h]

theorem CleanUpLambdas_invocations (Class : UClass) :
    ∀ (Names : List FName) (w w' : World), CleanUpLambdas w Class Names = some w' →
      w'.Invocations = w.Invocations
  | [], w, w', h => by
    cases h
    rfl
  | n :: rest, w, w', h => by
    unfold CleanUpLambdas at h
    split at h
    · cases h
    · rename_i w1 h1
      rw [CleanUpLambdas_invocations Class rest w1 w' h, CleanUpLambda_invocations h1]

theorem SweepClasses_invocations :
    ∀ (Classes : List UClass) (w w' : World), SweepClasses w Classes = some w' →
      w'.Invocations = w.Invocations
  | [], w, w', h => by
    cases h
    rfl
  | c :: rest, w, w', h => by
    unfold SweepClasses at h
    split at h
    · cases h
    · split at h
      · cases h
      · rename_i w1 h1
        rw [SweepClasses_invocations rest w1 w' h, CleanUpLambdas_invocations c _ w w1 h1]

theorem CreateFunction_invocations {w w' : World} {ObjectClass : UClass} {Name : FName}
    {Function : UFunction} (h : CreateFunction w ObjectClass Name = some (Function, w')) :
    w'.Invocations = w.Invocations := by
  unfold CreateFunction at h
  cases hL : w.FunctionPool.getLast? with
  | none =>
    simp only [hL, Option.some.injEq, Prod.mk.injEq] at h
    rw [← h.2]
  | some f =>
    cases hD : (Rename w.UFunctions f Name ObjectClass)[f]? with
    | none => simp [hL, hD] at h
    | some d =>
      by_cases hn : d.Name = Name
      · simp only [hL, hD, hn, if_true, Option.some.injEq, Prod.mk.injEq] at h
        rw [← h.2]
      · simp [hL, hD, hn] at h

theorem UFunctionBind_invocations (w : World) (Function : UFunction) :
    (UFunctionBind w Function).Invocations = w.Invocations := by
  unfold UFunctionBind
  split
  · rfl
  · split <;> rfl

theorem Bind_invocations {w w' : World} {Object : UObject} {Delegate : Nat}
    {IsMulticast : Bool} {Callable : TFunction} {File : String} {Line : Int}
    (h : BindWeakLambdaToDynamicDelegate w Object Delegate IsMulticast Callable File Line =
      some w') : w'.Invocations = w.Invocations := by
  simp only [BindWeakLambdaToDynamicDelegate, GenerateLambdaName, CreateLambdaRouter] at h
  split at h
  · cases h
  · rename_i w1 h1
    split at h1
    · cases h1
    · rename_i f w2 h2
      cases h1
      cases h
      have h3 := CreateFunction_invocations h2
      simp only [StoreLambda, BindDelegate]
      split <;> simp [UFunctionBind_invocations, h3]

theorem OnPreGarbageCollect_invocations {w w' : World} {Counter : Int}
    (h : OnPreGarbageCollect w Counter = some w') : w'.Invocations = w.Invocations := by
  unfold OnPreGarbageCollect at h
  simp only at h
  split at h
  · cases h
    rfl
  · split at h
    · cases h
    · cases h
      rfl

/-- C7: neither a bind nor the pre-collection pass nor the post-collection pass invokes a
stored closure: whenever one of them returns, the trace of closure invocations, and so the
invocation count of every closure, is what it was before. -/
theorem only_RouteToLambda_invokes (w : World) :
    (∀ Object Delegate IsMulticast Callable File Line w',
      BindWeakLambdaToDynamicDelegate w Object Delegate IsMulticast Callable File Line =
        some w' →
      w'.Invocations = w.Invocations ∧
        ∀ Lambda, w'.Invocations.count Lambda = w.Invocations.count Lambda) ∧
    (∀ Counter w', OnPreGarbageCollect w Counter = some w' →
      w'.Invocations = w.Invocations ∧
        ∀ Lambda, w'.Invocations.count Lambda = w.Invocations.count Lambda) ∧
    (∀ w', OnPostGarbageCollect w = some w' →
      w'.Invocations = w.Invocations ∧
        ∀ Lambda, w'.Invocations.count Lambda = w.Invocations.count Lambda) := by
  refine ⟨?_, ?_, ?_⟩
  · intro Object Delegate IsMulticast Callable File Line w' h
    have := Bind_invocations h
    exact ⟨this, fun _ => by rw [this]⟩
  · intro Counter w' h
    have := OnPreGarbageCollect_invocations h
    exact ⟨this, fun _ => by rw [this]⟩
  · intro w' h
    have := SweepClasses_invocations _ _ _ h
    exact ⟨this, fun _ => by rw [this]⟩

theorem exists_of_isSome {α : Type} {o : Option α} (h : o.isSome = true) : ∃ a, o = some a := by
  cases o with
  | none => cases h
  | some a => exact ⟨a, rfl⟩

/-- C7, on the example: a bind, a pre-pass and a sweep of `ExampleBound` all return and
leave the invocation trace empty. -/
theorem only_RouteToLambda_invokes_witness :
    (∃ w', BindWeakLambdaToDynamicDelegate ExampleBound ExampleTarget 156 true 9 "f.cpp" 12 =
        some w' ∧ w'.Invocations = []) ∧
      (∃ w', OnPreGarbageCollect ExampleBound 0 = some w' ∧ w'.Invocations = []) ∧
      (∃ w', OnPostGarbageCollect ExampleBound = some w' ∧ w'.Invocations = []) := by
  obtain ⟨h1, h2, h3⟩ := only_RouteToLambda_invokes ExampleBound
  refine ⟨?_, ?_, ?_⟩
  · obtain ⟨w', he⟩ := exists_of_isSome (o := BindWeakLambdaToDynamicDelegate ExampleBound
      ExampleTarget 156 true 9 "f.cpp" 12) (by decide)
    exact ⟨w', he, (h1 _ _ _ _ _ _ w' he).1⟩
  · obtain ⟨w', he⟩ := exists_of_isSome (o := OnPreGarbageCollect ExampleBound 0) (by decide)
    exact ⟨w', he, (h2 0 w' he).1⟩
  · obtain ⟨w', he⟩ := exists_of_isSome (o := OnPostGarbageCollect ExampleBound) (by decide)
    exact ⟨w', he, (h3 w' he).1⟩

theorem toDigitsCore_append (b : Nat) :
    ∀ (fuel n : Nat) (ds : List Char),
      Nat.toDigitsCore b fuel n ds = Nat.toDigitsCore b fuel n [] ++ ds
  | 0, _, ds => by simp [Nat.toDigitsCore]
  | fuel + 1, n, ds => by
    simp only [Nat.toDigitsCore]
    by_cases h : n / b = 0
    · simp [h]
    · simp only [h, if_false]
      rw [toDigitsCore_append b fuel (n / b) (Nat.digitChar (n % b) :: ds),
        toDigitsCore_append b fuel (n / b) [Nat.digitChar (n % b)]]
      simp

theorem toDigitsCore_fuel :
    ∀ (fuel1 fuel2 n : Nat), n < fuel1 → n < fuel2 →
      Nat.toDigitsCore 10 fuel1 n [] = Nat.toDigitsCore 10 fuel2 n []
  | 0, _, _, h, _ => by omega
  | _ + 1, 0, _, _, h => by omega
  | fuel1 + 1, fuel2 + 1, n, h1, h2 => by
    simp only [Nat.toDigitsCore]
    by_cases h : n / 10 = 0
    · simp [h]
    · simp only [h, if_false]
      have hlt : n / 10 < n := Nat.div_lt_self (by omega) (by omega)
      rw [toDigitsCore_append 10 fuel1, toDigitsCore_append 10 fuel2,
        toDigitsCore_fuel fuel1 fuel2 (n / 10) (by omega) (by omega)]

theorem toDigits_small (n : Nat) (h : n < 10) : Nat.toDigits 10 n = [Nat.digitChar n] := by
  have h0 : n / 10 = 0 := Nat.div_eq_of_lt h
  simp [Nat.toDigits, Nat.toDigitsCore, h0, Nat.mod_eq_of_lt h]

theorem toDigits_large (n : Nat) (h : 10 ≤ n) :
    Nat.toDigits 10 n = Nat.toDigits 10 (n / 10) ++ [Nat.digitChar (n % 10)] := by
  have h0 : n / 10 ≠ 0 := by omega
  have hlt : n / 10 < n := Nat.div_lt_self (by omega) (by omega)
  have hl : Nat.toDigits 10 n =
      Nat.toDigitsCore 10 n (n / 10) [Nat.digitChar (n % 10)] := by
    simp [Nat.toDigits, Nat.toDigitsCore, h0]
  have hr : Nat.toDigits 10 (n / 10) = Nat.toDigitsCore 10 (n / 10 + 1) (n / 10) [] := rfl
  rw [hl, hr, toDigitsCore_append 10 n, toDigitsCore_fuel n (n / 10 + 1) (n / 10) hlt (by omega)]

theorem toDigits_ne_nil (n : Nat) : Nat.toDigits 10 n ≠ [] := by
  by_cases h : n < 10
  · simp [toDigits_small n h]
  · rw [toDigits_large n (by omega)]
    simp

theorem digitChar_ne_underscore : ∀ m, m < 10 → Nat.digitChar m ≠ '_' := by decide

theorem digitChar_injective : ∀ m, m < 10 → ∀ k, k < 10 →
    Nat.digitChar m = Nat.digitChar k → m = k := by decide

/-- The decimal digits of a number contain no underscore. -/
theorem underscore_not_mem_toDigits : ∀ n : Nat, '_' ∉ Nat.toDigits 10 n := by
  intro n
  induction n using Nat.strong_induction_on with
  | _ n ih =>
    by_cases h : n < 10
    · rw [toDigits_small n h]
      simpa using (digitChar_ne_underscore n h).symm
    · rw [toDigits_large n (by omega)]
      have := ih (n / 10) (Nat.div_lt_self (by omega) (by omega))
      have h2 := digitChar_ne_underscore (n % 10) (Nat.mod_lt _ (by omega))
      simp [this, h2.symm]

/-- Different numbers have different decimal digits. -/
theorem toDigits_injective : ∀ n m : Nat, Nat.toDigits 10 n = Nat.toDigits 10 m → n = m := by
  intro n
  induction n using Nat.strong_induction_on with
  | _ n ih =>
    intro m hnm
    by_cases hn : n < 10
    · by_cases hm : m < 10
      · rw [toDigits_small n hn, toDigits_small m hm] at hnm
        exact digitChar_injective n hn m hm (by simpa using hnm)
      · rw [toDigits_small n hn, toDigits_large m (by omega)] at hnm
        have := congrArg List.length hnm
        have hne := toDigits_ne_nil (m / 10)
        have hpos : 0 < (Nat.toDigits 10 (m / 10)).length := List.length_pos.2 hne
        simp only [List.length_append, List.length_singleton, List.length_cons,
          List.length_nil] at this
        omega
    · by_cases hm : m < 10
      · rw [toDigits_large n (by omega), toDigits_small m hm] at hnm
        have := congrArg List.length hnm
        have hne := toDigits_ne_nil (n / 10)
        have hpos : 0 < (Nat.toDigits 10 (n / 10)).length := List.length_pos.2 hne
        simp only [List.length_append, List.length_singleton, List.length_cons,
          List.length_nil] at this
        omega
      · rw [toDigits_large n (by omega), toDigits_large m (by omega)] at hnm
        obtain ⟨h1, h2⟩ := List.append_inj' hnm rfl
        have hq := ih (n / 10) (Nat.div_lt_self (by omega) (by omega)) (m / 10) h1
        have hr := digitChar_injective (n % 10) (Nat.mod_lt _ (by omega)) (m % 10)
          (Nat.mod_lt _ (by omega)) (by simpa using h2)
        omega

theorem append_separator_inj {α : Type} (c : α) :
    ∀ (a b x y : List α), c ∉ a → c ∉ b → a ++ c :: x = b ++ c :: y → a = b
  | [], [], _, _, _, _, _ => rfl
  | [], b0 :: b, _, _, _, hb, h => by
    simp only [List.nil_append, List.cons_append, List.cons.injEq] at h
    exact absurd (h.1 ▸ List.mem_cons_self _ _) hb
  | a0 :: a, [], _, _, ha, _, h => by
    simp only [List.nil_append, List.cons_append, List.cons.injEq] at h
    exact absurd (h.1 ▸ List.mem_cons_self _ _) ha
  | a0 :: a, b0 :: b, x, y, ha, hb, h => by
    simp only [List.cons_append, List.cons.injEq] at h
    rw [h.1, append_separator_inj c a b x y (fun m => ha (List.mem_cons_of_mem _ m))
      (fun m => hb (List.mem_cons_of_mem _ m)) h.2]

/-- The generated text determines the counter value it was made from. -/
theorem LambdaNameText_injective (i j : Nat) (FileName FileName' : String)
    (LineNumber LineNumber' : Int)
    (h : LambdaNameText (i : Int) FileName LineNumber =
      LambdaNameText (j : Int) FileName' LineNumber') : i = j := by
  have hi : toString ((i : Nat) : Int) = (Nat.toDigits 10 i).asString := rfl
  have hj : toString ((j : Nat) : Int) = (Nat.toDigits 10 j).asString := rfl
  unfold LambdaNameText at h
  rw [hi, hj] at h
  have hd := congrArg String.data h
  simp only [String.data_append, List.append_assoc] at hd
  have hd' := List.append_cancel_left hd
  have hs : ("_" : String).data = ['_'] := rfl
  simp only [List.asString, hs, List.singleton_append] at hd'
  exact toDigits_injective i j (append_separator_inj '_' _ _ _ _
    (underscore_not_mem_toDigits i) (underscore_not_mem_toDigits j) hd')
theorem WrapInt32_of_range (x : Int) (h1 : -2147483648 ≤ x) (h2 : x < 2147483648) :
    WrapInt32 x = x := by
  unfold WrapInt32
  omega

/-- The `k`-th of a run of calls, counted from zero, is made with counter value
`ID + (k + 1)`, as long as the counter stays below `2 ^ 31`. -/
theorem GenerateLambdaNames_getElem? :
    ∀ (Calls : List (String × Int)) (w : World), 0 ≤ w.ID →
      w.ID + Calls.length < 2147483648 → ∀ k : Nat,
      (GenerateLambdaNames w Calls).1[k]? =
        (Calls[k]?).map (fun Call => LambdaNameText (w.ID + (k + 1 : Nat)) Call.1 Call.2)
  | [], w, _, _, k => by simp [GenerateLambdaNames]
  | Call :: rest, w, h0, hmax, k => by
    have hlen : ((Call :: rest).length : Int) = (rest.length : Int) + 1 := by simp
    have hW : WrapInt32 (w.ID + 1) = w.ID + 1 := WrapInt32_of_range _ (by omega) (by omega)
    have ih := GenerateLambdaNames_getElem? rest (GenerateLambdaName w Call.1 Call.2).2
      (by simp only [GenerateLambdaName, hW]; omega)
      (by simp only [GenerateLambdaName, hW]; omega)
    cases k with
    | zero =>
      simp [GenerateLambdaNames, GenerateLambdaName, hW]
    | succ k =>
      have := ih k
      simp only [GenerateLambdaName, hW] at this
      simp only [GenerateLambdaNames, GenerateLambdaName, hW, List.getElem?_cons_succ, this]
      congr 1
      funext Call
      congr 1
      push_cast
      omega

/-- C8: the names generated by any run of calls of `GenerateLambdaName`, with any file names
and line numbers, are pairwise different, as long as the 32-bit counter does not wrap: the
call at position `k` (from zero) returns the text `lambda_<ID + k + 1>_<file>:<line>`, where
`ID` is the counter before the run (`0` at start-up), and the decimal counter followed by
`_` determines `k`. -/
theorem GenerateLambdaName_unique (w : World) (Calls : List (String × Int))
    (h0 : 0 ≤ w.ID) (hmax : w.ID + Calls.length < 2147483648) :
    (∀ k : Nat, (GenerateLambdaNames w Calls).1[k]? =
      (Calls[k]?).map (fun Call =>
        "lambda_" ++ toString (w.ID + (k + 1 : Nat)) ++ "_" ++ Call.1 ++ ":" ++
          toString Call.2)) ∧
    (∀ (i j : Nat) (a b : FName), (GenerateLambdaNames w Calls).1[i]? = some a →
      (GenerateLambdaNames w Calls).1[j]? = some b → i ≠ j → a ≠ b) ∧
    (GenerateLambdaNames w Calls).1.Nodup := by
  have hk := GenerateLambdaNames_getElem? Calls w h0 hmax
  have hpair : ∀ (i j : Nat) (a b : FName), (GenerateLambdaNames w Calls).1[i]? = some a →
      (GenerateLambdaNames w Calls).1[j]? = some b → i ≠ j → a ≠ b := by
    intro i j a b hi hj hij hab
    rw [hk i] at hi
    rw [hk j] at hj
    obtain ⟨ci, _, hci⟩ := Option.map_eq_some'.1 hi
    obtain ⟨cj, _, hcj⟩ := Option.map_eq_some'.1 hj
    obtain ⟨n, hn⟩ : ∃ n : Nat, w.ID = (n : Int) := ⟨w.ID.toNat, (Int.toNat_of_nonneg h0).symm⟩
    rw [hn] at hci hcj
    have hci' : LambdaNameText ((n + (i + 1) : Nat) : Int) ci.1 ci.2 = a := by
      rw [← hci]; push_cast; rfl
    have hcj' : LambdaNameText ((n + (j + 1) : Nat) : Int) cj.1 cj.2 = b := by
      rw [← hcj]; push_cast; rfl
    rw [← hci', ← hcj'] at hab
    have := LambdaNameText_injective _ _ _ _ _ _ hab
    omega
  refine ⟨hk, hpair, ?_⟩
  rw [List.nodup_iff_getElem?_ne_getElem?]
  intro i j hij hj
  have hi : i < (GenerateLambdaNames w Calls).1.length := by omega
  intro heq
  have e1 : (GenerateLambdaNames w Calls).1[i]? = some ((GenerateLambdaNames w Calls).1[i]) :=
    List.getElem?_eq_getElem hi
  have e2 : (GenerateLambdaNames w Calls).1[j]? = some ((GenerateLambdaNames w Calls).1[j]) :=
    List.getElem?_eq_getElem hj
  rw [e1, e2] at heq
  exact hpair i j _ _ e1 e2 (by omega) (Option.some.inj heq)

/-- C8, on the example: three calls on the initial manager, two of them from the same file
and line, return three different names. -/
theorem GenerateLambdaName_unique_witness :
    (GenerateLambdaNames ExampleInitial [("f.cpp", 10), ("f.cpp", 10), ("unknown", 0)]).1 =
        ["lambda_1_f.cpp:10", "lambda_2_f.cpp:10", "lambda_3_unknown:0"] ∧
      (GenerateLambdaNames ExampleInitial
        [("f.cpp", 10), ("f.cpp", 10), ("unknown", 0)]).1.Nodup :=
  ⟨by decide,
    (GenerateLambdaName_unique ExampleInitial [("f.cpp", 10), ("f.cpp", 10), ("unknown", 0)]
      (by decide) (by decide)).2.2⟩

/-! ## Owner resolution on two owner objects -/

/-- Once the last record of the working list has been resolved, its pointer is null and
`TryResolveDelegate` skips every object, since every object lies after the null address. -/
theorem TryResolveDelegate_skips_after_last_resolved (w : World) (Item : FUObjectItem)
    (State : FResolveState) (Last : FDelegateResolvingData)
    (hLast : State.ObjectsToResolve.getLast? = some Last)
    (hNull : Last.DelegateData.Pointer = 0)
    (hAddr : ∀ Object, Item.Object = some Object → 0 < Object.Address) :
    TryResolveDelegate w Item State = some State := by
  unfold TryResolveDelegate
  simp only [hLast, hNull]
  cases hO : Item.Object with
  | none => simp [ShouldSkipObject, hO]
  | some Object =>
    have := hAddr Object hO
    simp [ShouldSkipObject, hO, this]

/-- C3 fails on the code.  Two closures are bound to the single delegates of two live test
objects (the delegate at `140` is the reflected field at offset `40` of the object at `100`,
the delegate at `240` that of the object at `200`); the object table lists the object at
address `200` before the one at address `100`; one worker scans the whole table.  The
pre-pass resolves the owner of the second binding and leaves the owner of the first binding
null, and the post-pass of the same cycle, in which no object died, removes the first
binding.  With the two objects listed in the other order both owners are resolved and both
bindings survive. -/
theorem prepass_misses_owner_listed_after_last_record :
    (BindTwo ExampleInitial).map (fun w =>
        (OwnerOf w 2 "lambda_1_f.cpp:10", OwnerOf w 2 "lambda_2_f.cpp:11")) =
      some (some none, some none) ∧
    (BindTwo ExampleInitial).map (fun w => (w.ScriptDelegates 140, w.ScriptDelegates 240)) =
      some ({ Object := some 1, FunctionName := "lambda_1_f.cpp:10" },
        { Object := some 1, FunctionName := "lambda_2_f.cpp:11" }) ∧
    (BindTwo ExampleInitial).map (fun w => (w.Classes ExampleOwner1.Class).Properties) =
      some [{ Offset := 40, Kind := .Delegate }, { Offset := 56, Kind := .MulticastDelegate }] ∧
    (BindTwo ExampleInitial).map (fun w => w.GUObjectArray) =
      some [LiveItem ExampleOwner2, LiveItem ExampleOwner1, LiveItem ExampleTarget] ∧
    (BindTwo ExampleInitial).map (fun w => (w.NumWorkerThreads, w.FirstGCIndex)) =
      some (1, 0) ∧
    ((BindTwo ExampleInitial).bind (fun w => OnPreGarbageCollect w 0)).map (fun w =>
        (OwnerOf w 2 "lambda_1_f.cpp:10", OwnerOf w 2 "lambda_2_f.cpp:11")) =
      some (some none, some (some 3)) ∧
    ((BindTwo ExampleInitial).bind (fun w => CollectNothing w 0)).map (fun w =>
        (OwnerOf w 2 "lambda_1_f.cpp:10", OwnerOf w 2 "lambda_2_f.cpp:11")) =
      some (none, some (some 3)) ∧
    ((BindTwo ExampleInitial).bind (fun w => CollectNothing
        { w with GUObjectArray :=
            [LiveItem ExampleOwner1, LiveItem ExampleOwner2, LiveItem ExampleTarget] } 0)).map
        (fun w => (OwnerOf w 2 "lambda_1_f.cpp:10", OwnerOf w 2 "lambda_2_f.cpp:11")) =
      some (some (some 2), some (some 3)) := by
  refine ⟨by decide, by decide, by decide, by decide, by decide, by decide, by decide,
    by decide⟩

theorem World.Entry_eq_EntryAt (w : World) (Class : UClass) (LambdaName : FName) :
    w.Entry Class LambdaName = EntryAt w.Storage (Class, LambdaName) := rfl

theorem EntryAt_WriteDelegateOwner (Storage : TMap UClass (TMap FName FLambdaStorage))
    (Ptr : UClass × FName) (Object : UObject) (Place : UClass × FName) :
    EntryAt (WriteDelegateOwner Storage Ptr Object) Place =
      if Place = Ptr then (EntryAt Storage Place).map (SetOwner Object)
      else EntryAt Storage Place := by
  have hform : WriteDelegateOwner Storage Ptr Object = Storage.map (fun ckv =>
      (ckv.1, (fun (k : UClass) (v : TMap FName FLambdaStorage) =>
        if k = Ptr.1 then v.map (fun kv =>
          (kv.1, (fun (n : FName) (e : FLambdaStorage) =>
            if n = Ptr.2 then SetOwner Object e else e) kv.1 kv.2))
        else v) ckv.1 ckv.2)) := by
    unfold WriteDelegateOwner
    apply List.map_congr_left
    intro ckv _
    by_cases hc : ckv.1 = Ptr.1
    · simp only [hc, if_true]
      congr 1
      apply List.map_congr_left
      intro kv _
      by_cases hn : kv.1 = Ptr.2 <;> simp [hn, SetOwner]
    · simp [hc]
  have key := TMap.Find_map_value Storage (fun (k : UClass) (v : TMap FName FLambdaStorage) =>
    if k = Ptr.1 then v.map (fun kv =>
      (kv.1, (fun (n : FName) (e : FLambdaStorage) =>
        if n = Ptr.2 then SetOwner Object e else e) kv.1 kv.2))
    else v) Place.1
  unfold EntryAt
  rw [hform, key]
  obtain ⟨c, n⟩ := Place
  obtain ⟨pc, pn⟩ := Ptr
  cases hF : TMap.Find Storage c with
  | none => simp
  | some m =>
    simp only [Option.map_some']
    by_cases hc : c = pc
    · subst hc
      simp only [if_true]
      have key2 := TMap.Find_map_value m (fun (k : FName) (e : FLambdaStorage) =>
        if k = pn then SetOwner Object e else e) n
      rw [key2]
      by_cases hn : n = pn
      · subst hn
        simp
      · have : ¬ (c, n) = (c, pn) := fun e => hn (Prod.mk.inj e).2
        rw [if_neg this]
        cases TMap.Find m n <;> simp [hn]
    · have : ¬ (c, n) = (pc, pn) := fun e => hc (Prod.mk.inj e).1
      rw [if_neg this, if_neg hc]

theorem OwnersRecorded_refl (w : World) (Object : UObject)
    (Records : List FDelegateResolvingData) (Storage : TMap UClass (TMap FName FLambdaStorage)) :
    OwnersRecorded w Object Records Storage Storage :=
  fun _ => Or.inl rfl

theorem SetOwner_idem (Object : UObject) (o : Option FLambdaStorage) :
    (o.map (SetOwner Object)).map (SetOwner Object) = o.map (SetOwner Object) := by
  cases o <;> rfl

/-- One more write, on the strength of a match, keeps `OwnersRecorded`. -/
theorem OwnersRecorded_write {w : World} {Object : UObject}
    {Records : List FDelegateResolvingData}
    {Storage0 Storage : TMap UClass (TMap FName FLambdaStorage)}
    (h : OwnersRecorded w Object Records Storage0 Storage) (Ptr : UClass × FName)
    (hm : MatchedAt w Object Records Ptr) :
    OwnersRecorded w Object Records Storage0 (WriteDelegateOwner Storage Ptr Object) := by
  intro Place
  rw [EntryAt_WriteDelegateOwner]
  by_cases hp : Place = Ptr
  · subst hp
    rw [if_pos rfl]
    right
    rcases h Place with e | ⟨e, _⟩
    · exact ⟨by rw [e], hm⟩
    · exact ⟨by rw [e, SetOwner_idem], hm⟩
  · rw [if_neg hp]
    exact h Place

theorem IsTheSameDelegate_iff (w : World) (Property : FProperty)
    (Record : FDelegateResolvingData) :
    IsTheSameDelegate w Record.DelegateData.Pointer Property Record = true ↔
      SameDelegate w Property Record := by
  unfold IsTheSameDelegate SameDelegate MulticastContains
  cases hM : Record.DelegateData.IsMulticast <;> cases hK : Property.Kind <;> simp

/-- The loop over the records for one property keeps `OwnersRecorded`, and leaves every
record as it was or with a null pointer. -/
theorem TryResolveProperty_sound (w : World) (Object : UObject)
    (Records0 : List FDelegateResolvingData)
    (Storage0 : TMap UClass (TMap FName FLambdaStorage)) (Property : FProperty)
    (hP : Property ∈ (w.Classes Object.Class).Properties) :
    ∀ (Records : List FDelegateResolvingData) (Storage : TMap UClass (TMap FName FLambdaStorage))
      (Counter : Int),
      (∀ r ∈ Records, r ∈ Records0 ∨ r.DelegateData.Pointer = 0) →
      OwnersRecorded w Object Records0 Storage0 Storage →
      (∀ r ∈ (TryResolveProperty w Object Property Records Storage Counter).1,
        r ∈ Records0 ∨ r.DelegateData.Pointer = 0) ∧
      OwnersRecorded w Object Records0 Storage0
        (TryResolveProperty w Object Property Records Storage Counter).2.1
  | [], Storage, Counter, _, hS => by
    simp [TryResolveProperty]
    exact hS
  | r :: rest, Storage, Counter, hR, hS => by
    have hrest : ∀ r' ∈ rest, r' ∈ Records0 ∨ r'.DelegateData.Pointer = 0 :=
      fun r' h => hR r' (List.mem_cons_of_mem _ h)
    simp only [TryResolveProperty]
    by_cases hg : (decide (r.DelegateData.Pointer ≠ 0) &&
        decide (Object.Address + Property.Offset = r.DelegateData.Pointer)) = true
    · by_cases hs : IsTheSameDelegate w r.DelegateData.Pointer Property r = true
      · have hg' := hg
        simp only [Bool.and_eq_true, decide_eq_true_eq] at hg'
        have hr0 : r ∈ Records0 := by
          rcases hR r (List.mem_cons_self _ _) with h | h
          · exact h
          · exact absurd h hg'.1
        have hm : MatchedAt w Object Records0 r.DelegateOwnerPtr :=
          ⟨r, hr0, Property, hP, rfl, hg'.1, hg'.2, (IsTheSameDelegate_iff w Property r).1 hs⟩
        have ih := TryResolveProperty_sound w Object Records0 Storage0 Property hP rest
          (WriteDelegateOwner Storage r.DelegateOwnerPtr Object) (WrapInt32 (Counter + 1)) hrest
          (OwnersRecorded_write hS _ hm)
        simp only [TryResolveRecord, hg, hs, if_true]
        refine ⟨?_, ih.2⟩
        intro r' hr'
        rcases List.mem_cons.1 hr' with e | e
        · right
          rw [e]
        · exact ih.1 r' e
      · have ih := TryResolveProperty_sound w Object Records0 Storage0 Property hP rest
          Storage Counter hrest hS
        simp only [TryResolveRecord, hg, hs, if_true]
        refine ⟨?_, ih.2⟩
        intro r' hr'
        rcases List.mem_cons.1 hr' with e | e
        · rw [e]
          exact hR r (List.mem_cons_self _ _)
        · exact ih.1 r' e
    · have ih := TryResolveProperty_sound w Object Records0 Storage0 Property hP rest
        Storage Counter hrest hS
      simp only [TryResolveRecord, hg]
      refine ⟨?_, ih.2⟩
      intro r' hr'
      rcases List.mem_cons.1 hr' with e | e
      · rw [e]
        exact hR r (List.mem_cons_self _ _)
      · exact ih.1 r' e
/-- The loop over the properties keeps `OwnersRecorded`, and leaves every record as it was
or with a null pointer. -/
theorem TryResolveProperties_sound (w : World) (Object : UObject)
    (Records0 : List FDelegateResolvingData)
    (Storage0 : TMap UClass (TMap FName FLambdaStorage)) :
    ∀ (Properties : List FProperty) (State : FResolveState),
      (∀ P ∈ Properties, P ∈ (w.Classes Object.Class).Properties) →
      (∀ r ∈ State.ObjectsToResolve, r ∈ Records0 ∨ r.DelegateData.Pointer = 0) →
      OwnersRecorded w Object Records0 Storage0 State.Storage →
      (∀ r ∈ (TryResolveProperties w Object Properties State).ObjectsToResolve,
        r ∈ Records0 ∨ r.DelegateData.Pointer = 0) ∧
      OwnersRecorded w Object Records0 Storage0
        (TryResolveProperties w Object Properties State).Storage
  | [], State, _, hR, hS => ⟨hR, hS⟩
  | P :: rest, State, hP, hR, hS => by
    have h1 := TryResolveProperty_sound w Object Records0 Storage0 P
      (hP P (List.mem_cons_self _ _)) State.ObjectsToResolve State.Storage State.Counter hR hS
    simp only [TryResolveProperties]
    exact TryResolveProperties_sound w Object Records0 Storage0 rest _
      (fun Q hQ => hP Q (List.mem_cons_of_mem _ hQ)) h1.1 h1.2

theorem Get_eq_of_valid {Objects : List FUObjectItem} {p q : TWeakObjectPtr}
    (hq : TWeakObjectPtr.IsValid Objects q = true)
    (h : TWeakObjectPtr.Get Objects p = TWeakObjectPtr.Get Objects q) : p = q := by
  unfold TWeakObjectPtr.Get at h
  rw [if_pos hq] at h
  by_cases hp : TWeakObjectPtr.IsValid Objects p = true
  · rw [if_pos hp] at h
    exact h
  · rw [if_neg hp] at h
    rw [← h] at hq
    simp [TWeakObjectPtr.IsValid] at hq

/-- C4: no incorrect owner is recorded.  After `TryResolveDelegate` has examined an object
table item, every registry entry is as before, or its owner slot now holds the item's
object `O` and nothing else in it has changed; in that case `O` was not skipped, and some
record points to the entry whose non-null delegate address is the absolute address (object
start plus field offset) of a reflected field of `O`, whose multicast tag agrees with the
kind of the field, and whose target and name the delegate stored there is bound to (for a
single delegate both equal, for a multicast delegate carried by a registration of its
list).  Targets are compared through `Get`, as the code does; for a record whose target is
valid, as every gathered record's is, that is equality of the stored weak pointers. -/
theorem TryResolveDelegate_records_only_matching_owner (w : World) (Item : FUObjectItem)
    (State State' : FResolveState) (h : TryResolveDelegate w Item State = some State')
    (Place : UClass × FName) :
    EntryAt State'.Storage Place = EntryAt State.Storage Place ∨
      ∃ Object Last, Item.Object = some Object ∧
        State.ObjectsToResolve.getLast? = some Last ∧
        ShouldSkipObject Item Last.DelegateData.Pointer = false ∧
        EntryAt State'.Storage Place = (EntryAt State.Storage Place).map
          (fun e => { e with DelegateOwner := some Object.Serial }) ∧
        ∃ Record ∈ State.ObjectsToResolve,
          ∃ Property ∈ (w.Classes Object.Class).Properties,
            Record.DelegateOwnerPtr = Place ∧
            Record.DelegateData.Pointer ≠ 0 ∧
            Object.Address + Property.Offset = Record.DelegateData.Pointer ∧
            ((Record.DelegateData.IsMulticast = true ∧ Property.Kind = .MulticastDelegate ∧
              ∃ Delegate ∈ w.MulticastDelegates Record.DelegateData.Pointer,
                TWeakObjectPtr.Get w.GUObjectArray Delegate.Object =
                    TWeakObjectPtr.Get w.GUObjectArray Record.LambdaOwner ∧
                  Delegate.FunctionName = Record.LambdaName ∧
                  (TWeakObjectPtr.IsValid w.GUObjectArray Record.LambdaOwner = true →
                    Delegate.Object = Record.LambdaOwner)) ∨
            (Record.DelegateData.IsMulticast = false ∧ Property.Kind = .Delegate ∧
              TWeakObjectPtr.Get w.GUObjectArray
                  (w.ScriptDelegates Record.DelegateData.Pointer).Object =
                TWeakObjectPtr.Get w.GUObjectArray Record.LambdaOwner ∧
              (w.ScriptDelegates Record.DelegateData.Pointer).FunctionName =
                Record.LambdaName ∧
              (TWeakObjectPtr.IsValid w.GUObjectArray Record.LambdaOwner = true →
                (w.ScriptDelegates Record.DelegateData.Pointer).Object =
                  Record.LambdaOwner))) := by
  unfold TryResolveDelegate at h
  cases hL : State.ObjectsToResolve.getLast? with
  | none => simp [hL] at h
  | some Last =>
    simp only [hL] at h
    by_cases hSkip : ShouldSkipObject Item Last.DelegateData.Pointer = true
    · rw [if_pos hSkip] at h
      cases h
      exact Or.inl rfl
    · rw [if_neg hSkip] at h
      cases hO : Item.Object with
      | none =>
        simp only [hO] at h
        cases h
        exact Or.inl rfl
      | some Object =>
        simp only [hO, Option.some.injEq] at h
        subst h
        have hsound := (TryResolveProperties_sound w Object State.ObjectsToResolve State.Storage
          (w.Classes Object.Class).Properties State (fun _ hP => hP)
          (fun r hr => Or.inl hr) (OwnersRecorded_refl _ _ _ _)).2 Place
        rcases hsound with e | ⟨e, Record, hRec, Property, hProp, hPtr, hNull, hAddr, hSame⟩
        · exact Or.inl e
        · refine Or.inr ⟨Object, Last, rfl, rfl, by simpa using hSkip, e, Record, hRec, Property,
            hProp, hPtr, hNull, hAddr, ?_⟩
          rcases hSame with ⟨hM, hK, Delegate, hD, hGet, hName⟩ | ⟨hM, hK, hGet, hName⟩
          · exact Or.inl ⟨hM, hK, Delegate, hD, hGet, hName,
              fun hv => Get_eq_of_valid hv hGet⟩
          · exact Or.inr ⟨hM, hK, hGet, hName, fun hv => Get_eq_of_valid hv hGet⟩

/-- C4, on the example: examining the object at address `200` in the world of the two
bindings writes that object into the owner slot of `lambda_2_f.cpp:11`, and a record that
points to that entry has as delegate address a reflected field of the object; the entry
`lambda_1_f.cpp:10`, whose delegate is no field of the object, stays without owner. -/
theorem TryResolveDelegate_records_only_matching_owner_witness :
    ∃ w State State', BindTwo ExampleInitial = some w ∧
      State.ObjectsToResolve = GatherDelegatesToResolve w ∧ State.Storage = w.Storage ∧
      TryResolveDelegate w (LiveItem ExampleOwner2) State = some State' ∧
      (EntryAt State'.Storage (2, "lambda_2_f.cpp:11")).map (fun e => e.DelegateOwner) =
        some (some 3) ∧
      (EntryAt State'.Storage (2, "lambda_1_f.cpp:10")).map (fun e => e.DelegateOwner) =
        some none ∧
      ∃ Record ∈ State.ObjectsToResolve, Record.DelegateOwnerPtr = (2, "lambda_2_f.cpp:11") ∧
        ∃ Property ∈ (w.Classes ExampleOwner2.Class).Properties,
          ExampleOwner2.Address + Property.Offset = Record.DelegateData.Pointer := by
  obtain ⟨w, hw⟩ := exists_of_isSome (o := BindTwo ExampleInitial) (by decide)
  have hState : ∃ State', TryResolveDelegate w (LiveItem ExampleOwner2)
      { ObjectsToResolve := GatherDelegatesToResolve w, Storage := w.Storage, Counter := 0 } =
        some State' := by
    apply exists_of_isSome
    have : (BindTwo ExampleInitial).map (fun w => (TryResolveDelegate w (LiveItem ExampleOwner2)
        { ObjectsToResolve := GatherDelegatesToResolve w, Storage := w.Storage,
          Counter := 0 }).isSome) = some true := by decide
    rw [hw] at this
    exact Option.some.inj this
  obtain ⟨State', hS⟩ := hState
  have h2 : (BindTwo ExampleInitial).map (fun w =>
      ((TryResolveDelegate w (LiveItem ExampleOwner2)
        { ObjectsToResolve := GatherDelegatesToResolve w, Storage := w.Storage,
          Counter := 0 }).map (fun S =>
            ((EntryAt S.Storage (2, "lambda_2_f.cpp:11")).map (fun e => e.DelegateOwner),
              (EntryAt S.Storage (2, "lambda_1_f.cpp:10")).map (fun e => e.DelegateOwner))))) =
      some (some (some (some 3), some none)) := by decide
  rw [hw] at h2
  simp only [Option.map_some', hS, Option.some.injEq, Prod.mk.injEq] at h2
  have h3 : (BindTwo ExampleInitial).map (fun w =>
      (EntryAt w.Storage (2, "lambda_2_f.cpp:11")).map (fun e => e.DelegateOwner)) =
      some (some none) := by decide
  rw [hw] at h3
  simp only [Option.map_some', Option.some.injEq] at h3
  refine ⟨w, _, State', hw, rfl, rfl, hS, h2.1, h2.2, ?_⟩
  rcases TryResolveDelegate_records_only_matching_owner w (LiveItem ExampleOwner2) _ State' hS
      (2, "lambda_2_f.cpp:11") with e | ⟨Object, Last, hO, _, _, _, Record, hR, Property, hP,
        hPtr, _, hAddr, _⟩
  · rw [e, h3] at h2
    exact absurd h2.1 (by decide)
  · have hObj : Object = ExampleOwner2 := by
      simp only [LiveItem, Option.some.injEq] at hO
      exact hO.symm
    subst hObj
    exact ⟨Record, hR, hPtr, Property, hP, hAddr⟩

/-! ## The working list of the pre-pass -/

theorem GatherDelegatesToResolve_perm (w : World) :
    List.Perm (GatherDelegatesToResolve w) (PendingRecords w) :=
  List.perm_insertionSort _ _

theorem GatherDelegatesToResolve_sorted (w : World) :
    List.Sorted (fun Lhs Rhs : FDelegateResolvingData =>
      Lhs.DelegateData.Pointer ≤ Rhs.DelegateData.Pointer) (GatherDelegatesToResolve w) := by
  haveI : IsTotal FDelegateResolvingData
      (fun Lhs Rhs => Lhs.DelegateData.Pointer ≤ Rhs.DelegateData.Pointer) :=
    ⟨fun a b => Nat.le_total _ _⟩
  haveI : IsTrans FDelegateResolvingData
      (fun Lhs Rhs => Lhs.DelegateData.Pointer ≤ Rhs.DelegateData.Pointer) :=
    ⟨fun a b c h1 h2 => Nat.le_trans h1 h2⟩
  exact List.sorted_insertionSort _ _

theorem mem_PendingRecords (w : World) (r : FDelegateResolvingData) :
    r ∈ PendingRecords w ↔
      ∃ ClassKV ∈ w.Storage, ∃ KV ∈ ClassKV.2,
        KV.2.DelegateOwner.IsExplicitlyNull = true ∧
        TWeakObjectPtr.IsValid w.GUObjectArray KV.2.LambdaOwner = true ∧
        r = MakeRecord ClassKV.1 KV := by
  unfold PendingRecords
  simp only [List.mem_flatMap, List.mem_map, List.mem_filter, IsPending, Bool.and_eq_true]
  constructor
  · rintro ⟨ckv, hckv, kv, ⟨hkv, h1, h2⟩, rfl⟩
    exact ⟨ckv, hckv, kv, hkv, h1, h2, rfl⟩
  · rintro ⟨ckv, hckv, kv, hkv, h1, h2, rfl⟩
    exact ⟨ckv, hckv, kv, ⟨hkv, h1, h2⟩, rfl⟩

theorem sorted_le_getLast {α : Type} (r : α → α → Prop) (hrefl : ∀ a, r a a) :
    ∀ (l : List α), List.Sorted r l → ∀ last, l.getLast? = some last → ∀ a ∈ l, r a last := by
  intro l hs last hl a ha
  have hne : l ≠ [] := List.ne_nil_of_mem ha
  have hsplit : l = l.dropLast ++ [last] := by
    have := List.dropLast_concat_getLast hne
    rw [List.getLast?_eq_getLast _ hne] at hl
    rw [← Option.some.inj hl]
    exact this.symm
  rw [hsplit] at ha hs
  rcases List.mem_append.1 ha with h | h
  · exact (List.pairwise_append.1 hs).2.2 a h last (by simp)
  · have : a = last := by simpa using h
    rw [this]
    exact hrefl last

/-- C14: the working list is exactly the pending entries, sorted.  `GatherDelegatesToResolve`
yields the records of the entries whose `DelegateOwner` is explicitly null and whose
`LambdaOwner` is valid, one record per such entry and no other record; the records are in
ascending order of the delegate address, so the last record carries the greatest address;
and when no entry is pending the pre-pass returns at once with the world, and so the
registry, unchanged. -/
theorem GatherDelegatesToResolve_exactly_pending_sorted (w : World) :
    List.Perm (GatherDelegatesToResolve w) (PendingRecords w) ∧
    (∀ r, r ∈ GatherDelegatesToResolve w ↔
      ∃ ClassKV ∈ w.Storage, ∃ KV ∈ ClassKV.2,
        KV.2.DelegateOwner.IsExplicitlyNull = true ∧
        TWeakObjectPtr.IsValid w.GUObjectArray KV.2.LambdaOwner = true ∧
        r = { DelegateData := KV.2.DelegateData
              DelegateOwnerPtr := (ClassKV.1, KV.1)
              LambdaOwner := KV.2.LambdaOwner
              LambdaName := KV.1 }) ∧
    (GatherDelegatesToResolve w).length =
      (w.Storage.map (fun ClassKV =>
        (ClassKV.2.filter (fun KV => IsPending w.GUObjectArray KV.2)).length)).sum ∧
    List.Sorted (fun Lhs Rhs : FDelegateResolvingData =>
      Lhs.DelegateData.Pointer ≤ Rhs.DelegateData.Pointer) (GatherDelegatesToResolve w) ∧
    (∀ Last, (GatherDelegatesToResolve w).getLast? = some Last →
      ∀ r ∈ GatherDelegatesToResolve w,
        r.DelegateData.Pointer ≤ Last.DelegateData.Pointer) ∧
    ((∀ ClassKV ∈ w.Storage, ∀ KV ∈ ClassKV.2, IsPending w.GUObjectArray KV.2 = false) →
      GatherDelegatesToResolve w = [] ∧
        ∀ Counter, OnPreGarbageCollect w Counter = some w) := by
  have hperm := GatherDelegatesToResolve_perm w
  refine ⟨hperm, ?_, ?_, GatherDelegatesToResolve_sorted w, ?_, ?_⟩
  · intro r
    rw [hperm.mem_iff, mem_PendingRecords]
    rfl
  · rw [hperm.length_eq]
    unfold PendingRecords
    rw [List.length_flatMap]
    congr 1
    apply List.map_congr_left
    intro ckv _
    simp
  · exact sorted_le_getLast
      (fun Lhs Rhs : FDelegateResolvingData =>
        Lhs.DelegateData.Pointer ≤ Rhs.DelegateData.Pointer)
      (fun a => Nat.le_refl _) _ (GatherDelegatesToResolve_sorted w)
  · intro hnone
    have hnil : PendingRecords w = [] := by
      unfold PendingRecords
      rw [List.flatMap_eq_nil_iff]
      intro ckv hckv
      rw [List.map_eq_nil_iff, List.filter_eq_nil_iff]
      intro kv hkv
      simp [hnone ckv hckv kv hkv]
    have hg : GatherDelegatesToResolve w = [] := by
      rw [hnil] at hperm
      exact List.Perm.eq_nil hperm
    refine ⟨hg, ?_⟩
    intro Counter
    unfold OnPreGarbageCollect
    simp [hg]

/-- C14, on the example: in `ExampleBound` only the first binding is pending, the working
list is its one record; in `ExamplePooled` no entry is pending and the pre-pass returns the
world as it is. -/
theorem GatherDelegatesToResolve_exactly_pending_sorted_witness :
    GatherDelegatesToResolve ExampleBound =
        [{ DelegateData := { Pointer := 140, IsMulticast := false }
           DelegateOwnerPtr := (2, "lambda_1_f.cpp:10")
           LambdaOwner := some 1
           LambdaName := "lambda_1_f.cpp:10" }] ∧
      GatherDelegatesToResolve ExamplePooled = [] ∧
      ∀ Counter, (OnPreGarbageCollect ExamplePooled Counter).map (fun w => w.Storage) =
        some ExamplePooled.Storage := by
  have h := (GatherDelegatesToResolve_exactly_pending_sorted ExamplePooled).2.2.2.2.2
    (by decide)
  refine ⟨by decide, h.1, ?_⟩
  intro Counter
  rw [h.2 Counter]
  rfl

/-! ## The address bound of the scan -/

/-- C15 fails on the code.  In the world of the two bindings the greatest gathered delegate
address is `240`, and that is the bound for the first object examined, the object at address
`200`.  Examining it resolves the last record, whose pointer the code then clears, so for the
next object the bound is `0`: the object at address `100`, which does not lie after `240`,
is skipped by the address test, and the scan leaves the state as it is. -/
theorem skip_bound_drops_after_last_record_resolved :
    (BindTwo ExampleInitial).map (fun w =>
        (MaxGatheredPointer w, SkipBound (ScanStart w 0))) = some (240, some 240) ∧
    (BindTwo ExampleInitial).map (fun w =>
        (TryResolveDelegate w (LiveItem ExampleOwner2) (ScanStart w 0)).map SkipBound) =
      some (some (some 0)) ∧
    (ShouldSkipObject (LiveItem ExampleOwner1) 240, ShouldSkipObject (LiveItem ExampleOwner1) 0) =
      (false, true) ∧
    (BindTwo ExampleInitial).map (fun w =>
        (TryResolveDelegate w (LiveItem ExampleOwner2) (ScanStart w 0)).bind (fun State =>
          (TryResolveDelegate w (LiveItem ExampleOwner1) State).map (fun State' =>
            (decide (State'.ObjectsToResolve = State.ObjectsToResolve),
              decide (State'.Storage = State.Storage),
              State'.ObjectsToResolve.map (fun r => r.DelegateData.Pointer))))) =
      some (some (true, true, [140, 0])) := by
  refine ⟨by decide, by decide, by decide, by decide⟩

/-! ## What one pass can change -/

theorem RegistryShape_WriteDelegateOwner (Storage : TMap UClass (TMap FName FLambdaStorage))
    (Ptr : UClass × FName) (Object : UObject) :
    RegistryShape (WriteDelegateOwner Storage Ptr Object) = RegistryShape Storage := by
  unfold RegistryShape WriteDelegateOwner
  rw [List.map_map]
  apply List.map_congr_left
  intro ckv _
  by_cases hc : ckv.1 = Ptr.1
  · simp only [Function.comp, hc, if_true, List.map_map, Prod.mk.injEq, true_and]
    apply List.map_congr_left
    intro kv _
    by_cases hn : kv.1 = Ptr.2 <;> simp [hn]
  · simp [Function.comp, hc]

theorem RecordStep_refl (r : FDelegateResolvingData) : RecordStep r r := Or.inl rfl

theorem RecordSteps_refl :
    ∀ (l : List FDelegateResolvingData), List.Forall₂ RecordStep l l
  | [] => List.Forall₂.nil
  | r :: l => List.Forall₂.cons (RecordStep_refl r) (RecordSteps_refl l)

theorem RecordStep_trans {r r' r'' : FDelegateResolvingData} (h1 : RecordStep r r')
    (h2 : RecordStep r' r'') : RecordStep r r'' := by
  rcases h1 with e1 | ⟨n1, e1⟩
  · rw [e1] at h2
    exact h2
  · rcases h2 with e2 | ⟨n2, _⟩
    · rw [e2]
      exact Or.inr ⟨n1, e1⟩
    · rw [e1] at n2
      exact absurd rfl n2

theorem RecordSteps_trans :
    ∀ {l l' l'' : List FDelegateResolvingData}, List.Forall₂ RecordStep l l' →
      List.Forall₂ RecordStep l' l'' → List.Forall₂ RecordStep l l''
  | [], _, _, h1, h2 => by
    cases h1
    cases h2
    exact List.Forall₂.nil
  | r :: l, _, _, h1, h2 => by
    cases h1 with
    | cons hr hl =>
      cases h2 with
      | cons hr' hl' =>
        exact List.Forall₂.cons (RecordStep_trans hr hr') (RecordSteps_trans hl hl')

/-- A record that is still unmatched after a step was there, unmatched, before it. -/
theorem mem_of_RecordSteps :
    ∀ {l l' : List FDelegateResolvingData}, List.Forall₂ RecordStep l l' →
      ∀ r' ∈ l', r'.DelegateData.Pointer ≠ 0 → r' ∈ l
  | _, _, List.Forall₂.nil, r', h, _ => by cases h
  | _, _, List.Forall₂.cons (a := a) (b := b) hr hl, r', h, hn => by
    rcases List.mem_cons.1 h with e | e
    · subst e
      rcases hr with e1 | ⟨_, e1⟩
      · rw [e1]
        exact List.mem_cons_self _ _
      · rw [e1] at hn
        exact absurd rfl hn
    · exact List.mem_cons_of_mem _ (mem_of_RecordSteps hl r' e hn)

theorem SetOwner_SetOwner (Object Object' : UObject) (o : Option FLambdaStorage) :
    (o.map (SetOwner Object)).map (SetOwner Object') = o.map (SetOwner Object') := by
  cases o <;> rfl

theorem PassStep_refl (Records : List FDelegateResolvingData)
    (Storage : TMap UClass (TMap FName FLambdaStorage)) (Counter : Int) :
    PassStep Records Storage Counter Records Storage Counter :=
  ⟨RecordSteps_refl Records, ⟨0, rfl, rfl⟩, rfl, fun _ => Or.inl rfl⟩

theorem PassStep_trans {R R' R'' : List FDelegateResolvingData}
    {S S' S'' : TMap UClass (TMap FName FLambdaStorage)} {C C' C'' : Int}
    (h1 : PassStep R S C R' S' C') (h2 : PassStep R' S' C' R'' S'' C'') :
    PassStep R S C R'' S'' C'' := by
  refine ⟨RecordSteps_trans h1.records h2.records, ?_, h2.shape.trans h1.shape, ?_⟩
  · obtain ⟨k1, hk1, hc1⟩ := h1.counter
    obtain ⟨k2, hk2, hc2⟩ := h2.counter
    refine ⟨k2 + k1, by omega, ?_⟩
    rw [hc2, hc1, Function.iterate_add_apply]
  · intro Place
    rcases h2.owners Place with e2 | ⟨O2, e2, r2, hr2, hp2, hn2⟩
    · rcases h1.owners Place with e1 | ⟨O1, e1, j1⟩
      · exact Or.inl (e2.trans e1)
      · exact Or.inr ⟨O1, e2.trans e1, j1⟩
    · have hr : r2 ∈ R := mem_of_RecordSteps h1.records r2 hr2 hn2
      rcases h1.owners Place with e1 | ⟨O1, e1, _⟩
      · exact Or.inr ⟨O2, by rw [e2, e1], r2, hr, hp2, hn2⟩
      · exact Or.inr ⟨O2, by rw [e2, e1, SetOwner_SetOwner], r2, hr, hp2, hn2⟩
theorem Unmatched_append (A B : List FDelegateResolvingData) :
    Unmatched (A ++ B) = Unmatched A + Unmatched B := by
  simp [Unmatched, List.filter_append]

/-- Steps on two parts of the working list, one after the other, make a step on the
whole list. -/
theorem PassStep_append {A A' B B' : List FDelegateResolvingData}
    {S S1 S' : TMap UClass (TMap FName FLambdaStorage)} {C C1 C' : Int}
    (h1 : PassStep A S C A' S1 C1) (h2 : PassStep B S1 C1 B' S' C') :
    PassStep (A ++ B) S C (A' ++ B') S' C' := by
  refine ⟨List.rel_append h1.records h2.records, ?_, h2.shape.trans h1.shape, ?_⟩
  · obtain ⟨k1, hk1, hc1⟩ := h1.counter
    obtain ⟨k2, hk2, hc2⟩ := h2.counter
    refine ⟨k2 + k1, ?_, ?_⟩
    · rw [Unmatched_append, Unmatched_append]
      omega
    · rw [hc2, hc1, Function.iterate_add_apply]
  · intro Place
    rcases h2.owners Place with e2 | ⟨O2, e2, r2, hr2, hp2, hn2⟩
    · rcases h1.owners Place with e1 | ⟨O1, e1, r1, hr1, hp1, hn1⟩
      · exact Or.inl (e2.trans e1)
      · exact Or.inr ⟨O1, e2.trans e1, r1, List.mem_append_left _ hr1, hp1, hn1⟩
    · rcases h1.owners Place with e1 | ⟨O1, e1, _⟩
      · exact Or.inr ⟨O2, by rw [e2, e1], r2, List.mem_append_right _ hr2, hp2, hn2⟩
      · exact Or.inr ⟨O2, by rw [e2, e1, SetOwner_SetOwner], r2,
          List.mem_append_right _ hr2, hp2, hn2⟩

theorem TryResolveRecord_PassStep (w : World) (Object : UObject) (Property : FProperty)
    (r : FDelegateResolvingData) (S : TMap UClass (TMap FName FLambdaStorage)) (C : Int) :
    PassStep [r] S C [(TryResolveRecord w Object Property r S C).1]
      (TryResolveRecord w Object Property r S C).2.1
      (TryResolveRecord w Object Property r S C).2.2 := by
  unfold TryResolveRecord
  by_cases hg : (decide (r.DelegateData.Pointer ≠ 0) &&
      decide (Object.Address + Property.Offset = r.DelegateData.Pointer)) = true
  · by_cases hs : IsTheSameDelegate w r.DelegateData.Pointer Property r = true
    · simp only [hg, hs, if_true]
      have hn : r.DelegateData.Pointer ≠ 0 := by
        simp only [Bool.and_eq_true, decide_eq_true_eq] at hg
        exact hg.1
      refine ⟨List.Forall₂.cons (Or.inr ⟨hn, rfl⟩) List.Forall₂.nil, ⟨1, ?_, rfl⟩,
        RegistryShape_WriteDelegateOwner _ _ _, ?_⟩
      · simp [Unmatched, hn]
      · intro Place
        rw [EntryAt_WriteDelegateOwner]
        by_cases hp : Place = r.DelegateOwnerPtr
        · rw [if_pos hp]
          exact Or.inr ⟨Object, rfl, r, List.mem_cons_self _ _, hp.symm, hn⟩
        · rw [if_neg hp]
          exact Or.inl rfl
    · simp only [hg, hs, if_true]
      exact PassStep_refl _ _ _
  · simp only [hg]
    exact PassStep_refl _ _ _

theorem TryResolveProperty_PassStep (w : World) (Object : UObject) (Property : FProperty) :
    ∀ (Records : List FDelegateResolvingData) (S : TMap UClass (TMap FName FLambdaStorage))
      (C : Int),
      PassStep Records S C (TryResolveProperty w Object Property Records S C).1
        (TryResolveProperty w Object Property Records S C).2.1
        (TryResolveProperty w Object Property Records S C).2.2
  | [], S, C => PassStep_refl _ _ _
  | r :: rest, S, C => by
    have h1 := TryResolveRecord_PassStep w Object Property r S C
    have h2 := TryResolveProperty_PassStep w Object Property rest
      (TryResolveRecord w Object Property r S C).2.1
      (TryResolveRecord w Object Property r S C).2.2
    exact PassStep_append h1 h2

theorem TryResolveProperties_PassStep (w : World) (Object : UObject) :
    ∀ (Properties : List FProperty) (State : FResolveState),
      PassStep State.ObjectsToResolve State.Storage State.Counter
        (TryResolveProperties w Object Properties State).ObjectsToResolve
        (TryResolveProperties w Object Properties State).Storage
        (TryResolveProperties w Object Properties State).Counter
  | [], State => PassStep_refl _ _ _
  | P :: rest, State => by
    have h1 := TryResolveProperty_PassStep w Object P State.ObjectsToResolve State.Storage
      State.Counter
    have h2 := TryResolveProperties_PassStep w Object rest
      { ObjectsToResolve :=
          (TryResolveProperty w Object P State.ObjectsToResolve State.Storage State.Counter).1
        Storage :=
          (TryResolveProperty w Object P State.ObjectsToResolve State.Storage State.Counter).2.1
        Counter :=
          (TryResolveProperty w Object P State.ObjectsToResolve State.Storage
            State.Counter).2.2 }
    exact PassStep_trans h1 h2

theorem TryResolveDelegate_PassStep {w : World} {Item : FUObjectItem}
    {State State' : FResolveState} (h : TryResolveDelegate w Item State = some State') :
    PassStep State.ObjectsToResolve State.Storage State.Counter
      State'.ObjectsToResolve State'.Storage State'.Counter := by
  unfold TryResolveDelegate at h
  cases hL : State.ObjectsToResolve.getLast? with
  | none => simp [hL] at h
  | some Last =>
    simp only [hL] at h
    by_cases hSkip : ShouldSkipObject Item Last.DelegateData.Pointer = true
    · rw [if_pos hSkip] at h
      cases h
      exact PassStep_refl _ _ _
    · rw [if_neg hSkip] at h
      cases hO : Item.Object with
      | none =>
        simp only [hO] at h
        cases h
        exact PassStep_refl _ _ _
      | some Object =>
        simp only [hO, Option.some.injEq] at h
        subst h
        exact TryResolveProperties_PassStep w Object _ State

theorem ScanRange_PassStep (w : World) :
    ∀ (Count : Nat) (Idx : Int) (State State' : FResolveState),
      ScanRange w Idx Count State = some State' →
      PassStep State.ObjectsToResolve State.Storage State.Counter
        State'.ObjectsToResolve State'.Storage State'.Counter
  | 0, _, State, State', h => by
    simp only [ScanRange, Option.some.injEq] at h
    subst h
    exact PassStep_refl _ _ _
  | Count + 1, Idx, State, State', h => by
    unfold ScanRange at h
    cases hI : IndexToObjectUnsafeForGC w Idx with
    | none => simp [hI] at h
    | some Item =>
      cases hT : TryResolveDelegate w Item State with
      | none => simp [hI, hT] at h
      | some State1 =>
        simp only [hI, hT] at h
        have h1 := TryResolveDelegate_PassStep hT
        by_cases hc : State1.Counter = State1.ObjectsToResolve.length
        · rw [if_pos hc] at h
          cases h
          exact h1
        · rw [if_neg hc] at h
          exact PassStep_trans h1 (ScanRange_PassStep w Count (Idx + 1) State1 State' h)

theorem ResolveWorker_eq (w : World) (Threads Id : Int) (State : FResolveState) :
    ResolveWorker w Threads Id State =
      ScanRange w (FirstObjectIndex w.GUObjectArray.length w.FirstGCIndex Threads Id)
        (LastObjectIndex w.GUObjectArray.length w.FirstGCIndex Threads Id -
          FirstObjectIndex w.GUObjectArray.length w.FirstGCIndex Threads Id + 1).toNat State :=
  rfl

theorem RunWorkers_nil (w : World) (Threads : Int) (State : FResolveState) :
    RunWorkers w Threads [] State = some State := rfl

theorem RunWorkers_cons (w : World) (Threads : Int) (Id : Nat) (rest : List Nat)
    (State : FResolveState) :
    RunWorkers w Threads (Id :: rest) State =
      match ResolveWorker w Threads Id State with
      | none => none
      | some State1 => RunWorkers w Threads rest State1 := rfl

theorem RunWorkers_PassStep (w : World) (Threads : Int) :
    ∀ (Ids : List Nat) (State State' : FResolveState),
      RunWorkers w Threads Ids State = some State' →
      PassStep State.ObjectsToResolve State.Storage State.Counter
        State'.ObjectsToResolve State'.Storage State'.Counter := by
  intro Ids
  induction Ids with
  | nil =>
    intro State State' h
    rw [RunWorkers_nil, Option.some.injEq] at h
    subst h
    exact PassStep_refl _ _ _
  | cons Id rest ih =>
    intro State State' h
    rw [RunWorkers_cons] at h
    generalize hW : ResolveWorker w Threads Id State = r at h
    cases r with
    | none => simp at h
    | some State1 =>
      simp only at h
      rw [ResolveWorker_eq] at hW
      exact PassStep_trans (ScanRange_PassStep w _ _ State State1 hW) (ih State1 State' h)

/-- A whole scan is a pass step from the state it starts in. -/
theorem ResolveDelegates_PassStep {w : World} {Records : List FDelegateResolvingData}
    {Counter : Int} {State' : FResolveState}
    (h : ResolveDelegates w Records Counter = some State') :
    PassStep Records w.Storage Counter
      State'.ObjectsToResolve State'.Storage State'.Counter :=
  RunWorkers_PassStep w _ _ _ State' h

theorem RegistryUnique_of_shape {S S' : TMap UClass (TMap FName FLambdaStorage)}
    (h : RegistryShape S' = RegistryShape S) (hS : RegistryUnique S) : RegistryUnique S' := by
  have hkeys : S'.map Prod.fst = S.map Prod.fst := by
    have := congrArg (List.map Prod.fst) h
    simpa [RegistryShape, List.map_map, Function.comp] using this
  refine ⟨by unfold TMap.UniqueKeys; rw [hkeys]; exact hS.1, ?_⟩
  intro ckv' hckv'
  have hmem : (ckv'.1, ckv'.2.map Prod.fst) ∈ RegistryShape S' :=
    List.mem_map.2 ⟨ckv', hckv', rfl⟩
  rw [h] at hmem
  obtain ⟨ckv, hckv, he⟩ := List.mem_map.1 hmem
  have := (hS.2 ckv hckv)
  unfold TMap.UniqueKeys at this ⊢
  rw [← (Prod.mk.inj he).2]
  exact this

theorem EntryAt_of_mem {S : TMap UClass (TMap FName FLambdaStorage)} (hS : RegistryUnique S)
    {ClassKV : UClass × TMap FName FLambdaStorage} (hC : ClassKV ∈ S)
    {KV : FName × FLambdaStorage} (hK : KV ∈ ClassKV.2) :
    EntryAt S (ClassKV.1, KV.1) = some KV.2 := by
  unfold EntryAt
  simp only
  rw [TMap.Find_eq_some_of_mem hS.1 (k := ClassKV.1) (v := ClassKV.2) hC]
  exact TMap.Find_eq_some_of_mem (hS.2 ClassKV hC) (k := KV.1) (v := KV.2) hK

/-- A gathered record points to an entry whose owner is explicitly null. -/
theorem GatherDelegatesToResolve_points_to_unresolved {w : World}
    (hS : RegistryUnique w.Storage) {r : FDelegateResolvingData}
    (hr : r ∈ GatherDelegatesToResolve w) :
    ∃ e, EntryAt w.Storage r.DelegateOwnerPtr = some e ∧ e.DelegateOwner = none := by
  rw [(GatherDelegatesToResolve_perm w).mem_iff, mem_PendingRecords] at hr
  obtain ⟨ckv, hckv, kv, hkv, hnull, _, rfl⟩ := hr
  refine ⟨kv.2, EntryAt_of_mem hS hckv hkv, ?_⟩
  cases hO : kv.2.DelegateOwner with
  | none => rfl
  | some s => simp [TWeakObjectPtr.IsExplicitlyNull, hO] at hnull

theorem Unmatched_le_length (Records : List FDelegateResolvingData) :
    Unmatched Records ≤ Records.length :=
  List.length_filter_le _ _

theorem CounterIncrement_iterate (k : Nat) :
    ∀ (Counter : Int), -2147483648 ≤ Counter → Counter + k < 2147483648 →
      CounterIncrement^[k] Counter = Counter + k := by
  induction k with
  | zero => intro Counter _ _; simp
  | succ k ih =>
    intro Counter h1 h2
    have hstep : CounterIncrement Counter = Counter + 1 := by
      unfold CounterIncrement
      exact WrapInt32_of_range _ (by omega) (by push_cast at h2; omega)
    rw [Function.iterate_succ_apply, hstep, ih (Counter + 1) (by omega)
      (by push_cast at h2 ⊢; omega)]
    push_cast
    omega

/-- What a pre-pass does to the registry: it keeps the keys, and an entry is as before
unless a gathered record points to it. -/
theorem OnPreGarbageCollect_owners {w w' : World} {Counter : Int}
    (h : OnPreGarbageCollect w Counter = some w') :
    RegistryShape w'.Storage = RegistryShape w.Storage ∧
    ∀ Place, EntryAt w'.Storage Place = EntryAt w.Storage Place ∨
      ∃ Object, EntryAt w'.Storage Place = (EntryAt w.Storage Place).map (SetOwner Object) ∧
        ∃ r ∈ GatherDelegatesToResolve w, r.DelegateOwnerPtr = Place ∧
          r.DelegateData.Pointer ≠ 0 := by
  unfold OnPreGarbageCollect at h
  simp only at h
  by_cases h0 : (GatherDelegatesToResolve w).length = 0
  · rw [if_pos h0] at h
    cases h
    exact ⟨rfl, fun _ => Or.inl rfl⟩
  · rw [if_neg h0] at h
    cases hR : ResolveDelegates w (GatherDelegatesToResolve w) Counter with
    | none => simp [hR] at h
    | some State' =>
      simp only [hR, Option.some.injEq] at h
      subst h
      have hp := ResolveDelegates_PassStep hR
      exact ⟨hp.shape, hp.owners⟩

/-- A pre-pass leaves every owner that is already resolved as it is. -/
theorem OnPreGarbageCollect_keeps_resolved {w w' : World} {Counter : Int}
    (hS : RegistryUnique w.Storage) (h : OnPreGarbageCollect w Counter = some w')
    (Place : UClass × FName) (e : FLambdaStorage) (hE : EntryAt w.Storage Place = some e)
    (hO : e.DelegateOwner ≠ none) : EntryAt w'.Storage Place = some e := by
  rcases (OnPreGarbageCollect_owners h).2 Place with e1 | ⟨_, _, r, hr, hp, _⟩
  · rw [e1, hE]
  · obtain ⟨e', hE', hnull⟩ := GatherDelegatesToResolve_points_to_unresolved hS hr
    rw [hp, hE] at hE'
    rw [Option.some.inj hE'] at hO
    exact absurd hnull hO

/-- C13: resolution is idempotent and never overcounts, on a registry that is a well-formed
map.  An entry whose owner is resolved is never gathered: every gathered record points to
an entry with an explicitly null owner.  A pre-pass leaves every resolved owner unchanged,
and so does a second pre-pass run right after the first.  Within one scan every record is
left as it is or is matched once, its pointer going from non-null to null, and the counter
is incremented once per record matched, so at most as often as there are records. -/
theorem prepass_idempotent_and_never_overcounts (w : World)
    (hS : RegistryUnique w.Storage) :
    (∀ r ∈ GatherDelegatesToResolve w,
      ∃ e, EntryAt w.Storage r.DelegateOwnerPtr = some e ∧ e.DelegateOwner = none) ∧
    (∀ Counter w', OnPreGarbageCollect w Counter = some w' →
      ∀ Place e, EntryAt w.Storage Place = some e → e.DelegateOwner ≠ none →
        EntryAt w'.Storage Place = some e) ∧
    (∀ Counter1 Counter2 w1 w2, OnPreGarbageCollect w Counter1 = some w1 →
      OnPreGarbageCollect w1 Counter2 = some w2 →
      ∀ Place e, EntryAt w1.Storage Place = some e → e.DelegateOwner ≠ none →
        EntryAt w2.Storage Place = some e) ∧
    (∀ Counter State', ResolveDelegates w (GatherDelegatesToResolve w) Counter = some State' →
      List.Forall₂
        (fun r r' => r' = r ∨ (r.DelegateData.Pointer ≠ 0 ∧
          r' = { r with DelegateData := { r.DelegateData with Pointer := 0 } }))
        (GatherDelegatesToResolve w) State'.ObjectsToResolve ∧
      ∃ k : Nat, k ≤ (GatherDelegatesToResolve w).length ∧
        Unmatched (GatherDelegatesToResolve w) = Unmatched State'.ObjectsToResolve + k ∧
        State'.Counter = (fun c => WrapInt32 (c + 1))^[k] Counter ∧
        (-2147483648 ≤ Counter → Counter + k < 2147483648 → State'.Counter = Counter + k)) := by
  refine ⟨fun r hr => GatherDelegatesToResolve_points_to_unresolved hS hr, ?_, ?_, ?_⟩
  · intro Counter w' h Place e hE hO
    exact OnPreGarbageCollect_keeps_resolved hS h Place e hE hO
  · intro Counter1 Counter2 w1 w2 h1 h2 Place e hE hO
    have hS1 : RegistryUnique w1.Storage :=
      RegistryUnique_of_shape (OnPreGarbageCollect_owners h1).1 hS
    exact OnPreGarbageCollect_keeps_resolved hS1 h2 Place e hE hO
  · intro Counter State' h
    have hp := ResolveDelegates_PassStep h
    obtain ⟨k, hk, hc⟩ := hp.counter
    refine ⟨hp.records, k, ?_, hk, hc, ?_⟩
    · have := Unmatched_le_length (GatherDelegatesToResolve w)
      omega
    · intro h1 h2
      rw [hc]
      exact CounterIncrement_iterate k Counter h1 h2

/-- C13, on the example: a pre-pass on `ExampleBound` returns and leaves the resolved owner
of `lambda_2_f.cpp:11` in place, and its scan, started with the counter at `0`, ends with
the counter at `1` for the one record gathered. -/
theorem prepass_idempotent_and_never_overcounts_witness :
    RegistryUnique ExampleBound.Storage ∧
      (∃ w', OnPreGarbageCollect ExampleBound 0 = some w' ∧
        (EntryAt w'.Storage (2, "lambda_2_f.cpp:11")).map (fun e => e.DelegateOwner) =
          some (some 3)) ∧
      (∃ State', ResolveDelegates ExampleBound (GatherDelegatesToResolve ExampleBound) 0 =
          some State' ∧ State'.Counter = 1 ∧
        (GatherDelegatesToResolve ExampleBound).length = 1) := by
  obtain ⟨_, h2, _, h4⟩ := prepass_idempotent_and_never_overcounts ExampleBound (by decide)
  refine ⟨by decide, ?_, ?_⟩
  · obtain ⟨w', he⟩ := exists_of_isSome (o := OnPreGarbageCollect ExampleBound 0) (by decide)
    refine ⟨w', he, ?_⟩
    rw [h2 0 w' he (2, "lambda_2_f.cpp:11")
      { DelegateData := { Pointer := 240, IsMulticast := false }, DelegateOwner := some 3,
        LambdaOwner := some 1, Lambda := 8 } (by decide) (by decide)]
    rfl
  · obtain ⟨State', he⟩ := exists_of_isSome
      (o := ResolveDelegates ExampleBound (GatherDelegatesToResolve ExampleBound) 0) (by decide)
    refine ⟨State', he, ?_, by decide⟩
    have : (ResolveDelegates ExampleBound (GatherDelegatesToResolve ExampleBound) 0).map
        (fun S => S.Counter) = some 1 := by decide
    rw [he] at this
    exact Option.some.inj this

/-! ## Index ranges of the workers -/

theorem World.Entry_nil {w : World} (h : w.Storage = []) (C : UClass) (n : FName) :
    w.Entry C n = none := by
  unfold World.Entry
  rw [h]
  rfl

theorem Invariant_initial {w : World} (h : InitialManager w) : Invariant w := by
  have hE : ∀ C n, w.Entry C n = none := World.Entry_nil h.storage
  have hid := h.id
  refine
    { consistent := ?_
      counter := by rw [hid]
      tableNames := fun C Item hI => by rw [hid]; exact (h.tableHost C Item hI).2
      tableNodup := h.tableNodup
      funcNames := fun C KV hK => by rw [hid]; exact (h.funcHost C KV hK).2.1
      funcUnique := h.funcUnique
      funcAllocated := fun C KV hK => (h.funcHost C KV hK).1
      funcOnce := h.funcOnce
      poolAllocated := ?_
      poolNodup := by rw [h.pool]; exact List.nodup_nil
      poolDetached := fun C KV _ => by rw [h.pool]; simp
      routerItems := fun C Item hI hP => absurd hP (h.tableHost C Item hI).1
      entryItems := fun C n e hE' => by rw [hE] at hE'; cases hE'
      routerFuncs := fun C KV hK hR => absurd hR (h.funcHost C KV hK).2.2
      entryFuncs := fun C n e hE' => by rw [hE] at hE'; cases hE' }
  · unfold Consistent
    rw [h.storage]
    exact ⟨List.nodup_nil, fun _ hc => by cases hc⟩
  · intro f hf
    rw [h.pool] at hf
    cases hf

/-- The invariant speaks of the registry only through its keys. -/
theorem Invariant_of_same_keys {w w' : World} (hI : Invariant w)
    (hShape : RegistryShape w'.Storage = RegistryShape w.Storage)
    (hPool : w'.FunctionPool = w.FunctionPool) (hID : w'.ID = w.ID)
    (hClasses : w'.Classes = w.Classes) (hFunctions : w'.UFunctions = w.UFunctions)
    (hEntry : ∀ C n, (∃ e, w'.Entry C n = some e) ↔ ∃ e, w.Entry C n = some e) :
    Invariant w' := by
  have hRouter : ∀ f, IsRouter w' f ↔ IsRouter w f := by
    intro f
    unfold IsRouter
    rw [hFunctions]
  have hHas : ∀ C n, HasRouter w' C n = HasRouter w C n := by
    intro C n
    unfold HasRouter
    rw [hClasses, hFunctions]
  refine
    { consistent := ?_
      counter := by rw [hID]; exact hI.counter
      tableNames := by rw [hClasses, hID]; exact hI.tableNames
      tableNodup := by rw [hClasses]; exact hI.tableNodup
      funcNames := by rw [hClasses, hID]; exact hI.funcNames
      funcUnique := by rw [hClasses]; exact hI.funcUnique
      funcAllocated := by rw [hClasses, hFunctions]; exact hI.funcAllocated
      funcOnce := by rw [hClasses]; exact hI.funcOnce
      poolAllocated := by
        unfold PoolAllocated
        rw [hPool, hFunctions]
        exact hI.poolAllocated
      poolNodup := by rw [hPool]; exact hI.poolNodup
      poolDetached := by rw [hClasses, hPool]; exact hI.poolDetached
      routerItems := ?_
      entryItems := ?_
      routerFuncs := ?_
      entryFuncs := ?_ }
  · have hU := RegistryUnique_of_shape hShape ⟨hI.consistent.1, fun c hc => (hI.consistent.2 c hc).1⟩
    refine ⟨hU.1, fun ckv' hckv' => ⟨hU.2 ckv' hckv', ?_⟩⟩
    intro kv' hkv'
    have hmem : (ckv'.1, ckv'.2.map Prod.fst) ∈ RegistryShape w'.Storage :=
      List.mem_map.2 ⟨ckv', hckv', rfl⟩
    rw [hShape] at hmem
    obtain ⟨ckv, hckv, he⟩ := List.mem_map.1 hmem
    obtain ⟨h1, h2⟩ := Prod.mk.inj he
    have hk : kv'.1 ∈ ckv.2.map Prod.fst := by
      rw [h2]
      exact List.mem_map.2 ⟨kv', hkv', rfl⟩
    obtain ⟨kv, hkv, hkn⟩ := List.mem_map.1 hk
    rw [hHas, ← h1, ← hkn]
    exact (hI.consistent.2 ckv hckv).2 kv hkv
  · intro C Item hItem hP
    rw [hClasses] at hItem
    exact (hEntry C Item.Name).2 (hI.routerItems C Item hItem hP)
  · intro C n e hE Item hItem hN
    rw [hClasses] at hItem
    obtain ⟨e0, hE0⟩ := (hEntry C n).1 ⟨e, hE⟩
    exact hI.entryItems C n e0 hE0 Item hItem hN
  · intro C KV hKV hR
    rw [hClasses] at hKV
    exact (hEntry C KV.1).2 (hI.routerFuncs C KV hKV ((hRouter _).1 hR))
  · intro C n e hE f hf
    rw [hClasses] at hf
    obtain ⟨e0, hE0⟩ := (hEntry C n).1 ⟨e, hE⟩
    exact (hRouter f).2 (hI.entryFuncs C n e0 hE0 f hf)

theorem Invariant_host {w w' : World} (hI : Invariant w) (h : HostStep w w') :
    Invariant w' := by
  obtain ⟨h1, h2, h3, h4, h5⟩ := h
  refine Invariant_of_same_keys hI (by rw [h1]) h2 h3 h4 h5 ?_
  intro C n
  unfold World.Entry
  rw [h1]

theorem Invariant_resolve {w w' : World} {Counter : Int} (hI : Invariant w)
    (h : OnPreGarbageCollect w Counter = some w') : Invariant w' := by
  obtain ⟨hShape, hOwners⟩ := OnPreGarbageCollect_owners h
  have hrest : w'.FunctionPool = w.FunctionPool ∧ w'.ID = w.ID ∧ w'.Classes = w.Classes ∧
      w'.UFunctions = w.UFunctions := by
    unfold OnPreGarbageCollect at h
    simp only at h
    by_cases h0 : (GatherDelegatesToResolve w).length = 0
    · rw [if_pos h0] at h
      cases h
      exact ⟨rfl, rfl, rfl, rfl⟩
    · rw [if_neg h0] at h
      cases hR : ResolveDelegates w (GatherDelegatesToResolve w) Counter with
      | none => simp [hR] at h
      | some State' =>
        simp only [hR, Option.some.injEq] at h
        subst h
        exact ⟨rfl, rfl, rfl, rfl⟩
  refine Invariant_of_same_keys hI hShape hrest.1 hrest.2.1 hrest.2.2.1 hrest.2.2.2 ?_
  intro C n
  rw [World.Entry_eq_EntryAt, World.Entry_eq_EntryAt]
  rcases hOwners (C, n) with e | ⟨O, e, _⟩
  · rw [e]
  · rw [e]
    cases EntryAt w.Storage (C, n) <;> simp

/-! ### The sweep keeps the invariant -/

/-- The effect of a sweep on the tables of any class, in or out of the registry. -/
theorem Swept_tables_all {w w' : World} (h : Swept w (TMap.Keys w.Storage) w') (C : UClass) :
    ClassSwept (w.Classes C) (RemovedNames w C) (w'.Classes C) := by
  by_cases hC : C ∈ TMap.Keys w.Storage
  · exact h.tables C hC
  · rw [h.others C hC, RemovedNames_of_not_key hC]
    exact ⟨⟨[], rfl, by simp⟩, by simp, rfl, rfl⟩

theorem ClassSwept_mem_table {d d' : UClassData} {Names : List FName}
    (h : ClassSwept d Names d')
    (hN : (d.NativeFunctionLookupTable.map (fun Item => Item.Name)).Nodup)
    (Item : FNativeFunctionLookup) :
    Item ∈ d'.NativeFunctionLookupTable ↔
      Item ∈ d.NativeFunctionLookupTable ∧ Item.Name ∉ Names := by
  obtain ⟨Items, hn, hp⟩ := h.table
  have hnd : ((Items ++ d'.NativeFunctionLookupTable).map (fun Item => Item.Name)).Nodup :=
    (hp.map _).nodup_iff.1 hN
  rw [List.map_append, hn] at hnd
  constructor
  · intro hI
    refine ⟨hp.symm.subset (List.mem_append_right _ hI), ?_⟩
    intro hmem
    exact (List.disjoint_of_nodup_append hnd) hmem (List.mem_map.2 ⟨Item, hI, rfl⟩)
  · rintro ⟨hI, hnot⟩
    rcases List.mem_append.1 (hp.subset hI) with hi | hi
    · exfalso
      apply hnot
      rw [← hn]
      exact List.mem_map.2 ⟨Item, hi, rfl⟩
    · exact hi

theorem ClassSwept_table_nodup {d d' : UClassData} {Names : List FName}
    (h : ClassSwept d Names d')
    (hN : (d.NativeFunctionLookupTable.map (fun Item => Item.Name)).Nodup) :
    (d'.NativeFunctionLookupTable.map (fun Item => Item.Name)).Nodup := by
  obtain ⟨Items, hn, hp⟩ := h.table
  have hnd : ((Items ++ d'.NativeFunctionLookupTable).map (fun Item => Item.Name)).Nodup :=
    (hp.map _).nodup_iff.1 hN
  rw [List.map_append] at hnd
  exact (List.nodup_append.1 hnd).2.1

theorem ClassSwept_mem_funcMap {d d' : UClassData} {Names : List FName}
    (h : ClassSwept d Names d') (KV : FName × UFunction) :
    KV ∈ d'.FuncMap ↔ KV ∈ d.FuncMap ∧ KV.1 ∉ Names := by
  rw [h.funcMap, List.mem_filter]
  simp

theorem ClassSwept_Find {d d' : UClassData} {Names : List FName}
    (h : ClassSwept d Names d') (n : FName) (hn : n ∉ Names) :
    TMap.Find d'.FuncMap n = TMap.Find d.FuncMap n := by
  rw [h.funcMap, TMap.Find_filter_key d.FuncMap (fun k => decide (k ∉ Names)) n]
  simp [hn]

/-- After a sweep an entry exists exactly when it existed and its name was not gathered. -/
theorem Swept_entry_iff {w w' : World} (hw : Consistent w)
    (h : Swept w (TMap.Keys w.Storage) w') (C : UClass) (n : FName) :
    (∃ e, w'.Entry C n = some e) ↔ (∃ e, w.Entry C n = some e) ∧ n ∉ RemovedNames w C := by
  rw [h.entry hw, mem_RemovedNames_iff hw]
  cases hE : w.Entry C n with
  | none => simp [Option.filter]
  | some e =>
    by_cases hv : e.IsValid w.GUObjectArray = true
    · simp [Option.filter, hv]
    · simp [Option.filter, hv]

/-- The functions a sweep pools are those attached under the gathered names. -/
theorem Swept_mem_pool {w w' : World} (h : Swept w (TMap.Keys w.Storage) w')
    (f : UFunction) :
    f ∈ w'.FunctionPool ↔ f ∈ w.FunctionPool ∨
      ∃ C, C ∈ TMap.Keys w.Storage ∧ ∃ n ∈ RemovedNames w C,
        TMap.Find (w.Classes C).FuncMap n = some f := by
  rw [h.pool, List.mem_append, List.mem_flatMap]
  simp only [List.mem_filterMap]

theorem Swept_consistent {w w' : World} (hw : Consistent w)
    (h : Swept w (TMap.Keys w.Storage) w') : Consistent w' := by
  have hst : w'.Storage = w.Storage.map (fun ckv =>
      (ckv.1, ckv.2.filter (fun KV => KV.2.IsValid w.GUObjectArray))) := by
    rw [h.storage]
    apply List.map_congr_left
    intro ckv hckv
    have : ckv.1 ∈ TMap.Keys w.Storage := List.mem_map.2 ⟨ckv, hckv, rfl⟩
    simp [this]
  have hkeys : w'.Storage.map Prod.fst = w.Storage.map Prod.fst := by
    rw [hst, List.map_map]
    rfl
  refine ⟨by unfold TMap.UniqueKeys; rw [hkeys]; exact hw.1, ?_⟩
  intro ckv' hckv'
  rw [hst] at hckv'
  obtain ⟨ckv, hckv, rfl⟩ := List.mem_map.1 hckv'
  obtain ⟨hU, hR⟩ := hw.2 ckv hckv
  refine ⟨TMap.UniqueKeys_filter hU _, ?_⟩
  intro kv hkv
  obtain ⟨hkv1, hvalid⟩ := List.mem_filter.1 hkv
  have hE : w.Entry ckv.1 kv.1 = some kv.2 := by
    rw [World.Entry_eq_EntryAt]
    exact EntryAt_of_mem ⟨hw.1, fun c hc => (hw.2 c hc).1⟩ hckv hkv1
  have hnot : kv.1 ∉ RemovedNames w ckv.1 := by
    intro hmem
    obtain ⟨e, hE', hbad⟩ := (mem_RemovedNames_iff hw _ _).1 hmem
    rw [hE] at hE'
    rw [← Option.some.inj hE', hvalid] at hbad
    cases hbad
  obtain ⟨⟨Item, hItem, hItemName⟩, f, d, hf, hd, hdn⟩ := (HasRouter_iff _ _ _).1 (hR kv hkv1)
  have hT := Swept_tables_all h ckv.1
  refine (HasRouter_iff _ _ _).2 ⟨⟨Item, ?_, hItemName⟩, f, d, ?_, ?_, hdn⟩
  · obtain ⟨Items, hn, hp⟩ := hT.table
    rcases List.mem_append.1 (hp.subset hItem) with hi | hi
    · exfalso
      apply hnot
      rw [← hn, ← hItemName]
      exact List.mem_map.2 ⟨Item, hi, rfl⟩
    · exact hi
  · rw [ClassSwept_Find hT _ hnot]
    exact hf
  · rw [h.frame.functions]
    exact hd
theorem Invariant_swept {w w' : World} (hI : Invariant w)
    (h : Swept w (TMap.Keys w.Storage) w') : Invariant w' := by
  have hw := hI.consistent
  have hT := Swept_tables_all h
  have hTable := fun C => ClassSwept_mem_table (hT C) (hI.tableNodup C)
  have hFunc := fun C => ClassSwept_mem_funcMap (hT C)
  have hID : w'.ID = w.ID := h.frame.id
  have hFn : w'.UFunctions = w.UFunctions := h.frame.functions
  have hRouter : ∀ f, IsRouter w' f ↔ IsRouter w f := by
    intro f
    unfold IsRouter
    rw [hFn]
  -- a pooled function was attached under a gathered name
  have hPooled : ∀ f, f ∈ w'.FunctionPool → f ∉ w.FunctionPool →
      ∃ C n, n ∈ RemovedNames w C ∧ (n, f) ∈ (w.Classes C).FuncMap := by
    intro f hf hnot
    rcases (Swept_mem_pool h f).1 hf with h1 | ⟨C, _, n, hn, hfind⟩
    · exact absurd h1 hnot
    · exact ⟨C, n, hn, TMap.mem_of_Find_eq_some hfind⟩
  refine
    { consistent := Swept_consistent hw h
      counter := by rw [hID]; exact hI.counter
      tableNames := ?_
      tableNodup := fun C => ClassSwept_table_nodup (hT C) (hI.tableNodup C)
      funcNames := ?_
      funcUnique := ?_
      funcAllocated := ?_
      funcOnce := ?_
      poolAllocated := ?_
      poolNodup := ?_
      poolDetached := ?_
      routerItems := ?_
      entryItems := ?_
      routerFuncs := ?_
      entryFuncs := ?_ }
  · intro C Item hItem
    rw [hID]
    exact hI.tableNames C Item ((hTable C Item).1 hItem).1
  · intro C KV hKV
    rw [hID]
    exact hI.funcNames C KV ((hFunc C KV).1 hKV).1
  · intro C
    rw [(hT C).funcMap]
    exact TMap.UniqueKeys_filter (hI.funcUnique C) _
  · intro C KV hKV
    rw [hFn]
    exact hI.funcAllocated C KV ((hFunc C KV).1 hKV).1
  · intro C C' KV KV' hKV hKV' he
    exact hI.funcOnce C C' KV KV' ((hFunc C KV).1 hKV).1 ((hFunc C' KV').1 hKV').1 he
  · intro f hf
    rw [hFn]
    by_cases hold : f ∈ w.FunctionPool
    · exact hI.poolAllocated f hold
    · obtain ⟨C, n, _, hmem⟩ := hPooled f hf hold
      exact hI.funcAllocated C (n, f) hmem
  · rw [h.pool, List.nodup_append]
    refine ⟨hI.poolNodup, ?_, ?_⟩
    · rw [List.nodup_flatMap]
      refine ⟨?_, ?_⟩
      · intro C _
        refine List.Nodup.filterMap ?_ ?_
        · intro n n' f hf hf'
          have h1 := TMap.mem_of_Find_eq_some (Option.mem_def.1 hf)
          have h2 := TMap.mem_of_Find_eq_some (Option.mem_def.1 hf')
          have := (hI.funcOnce C C (n, f) (n', f) h1 h2 rfl).2
          exact (Prod.mk.inj this).1
        · unfold RemovedNames
          cases hF : TMap.Find w.Storage C with
          | none => exact List.nodup_nil
          | some m =>
            exact LambdasToRemove_nodup _ (hw.2 _ (TMap.mem_of_Find_eq_some hF)).1
      · have hk : (TMap.Keys w.Storage).Nodup := hw.1
        refine hk.imp ?_
        intro C C' hne
        show List.Disjoint _ _
        intro f hf hf'
        obtain ⟨n, _, hfind⟩ := List.mem_filterMap.1 hf
        obtain ⟨n', _, hfind'⟩ := List.mem_filterMap.1 hf'
        exact hne (hI.funcOnce C C' (n, f) (n', f) (TMap.mem_of_Find_eq_some hfind)
          (TMap.mem_of_Find_eq_some hfind') rfl).1
    · intro f hf hf'
      obtain ⟨C, _, hC⟩ := List.mem_flatMap.1 hf'
      obtain ⟨n, _, hfind⟩ := List.mem_filterMap.1 hC
      exact hI.poolDetached C (n, f) (TMap.mem_of_Find_eq_some hfind) hf
  · intro C KV hKV hpool
    obtain ⟨hKV1, hKV2⟩ := (hFunc C KV).1 hKV
    by_cases hold : KV.2 ∈ w.FunctionPool
    · exact hI.poolDetached C KV hKV1 hold
    · obtain ⟨C2, n2, hn2, hmem⟩ := hPooled KV.2 hpool hold
      obtain ⟨hC, hKVeq⟩ := hI.funcOnce C C2 KV (n2, KV.2) hKV1 hmem rfl
      subst hC
      rw [hKVeq] at hKV2
      exact hKV2 hn2
  · intro C Item hItem hP
    obtain ⟨hItem1, hItem2⟩ := (hTable C Item).1 hItem
    exact (Swept_entry_iff hw h C Item.Name).2 ⟨hI.routerItems C Item hItem1 hP, hItem2⟩
  · intro C n e hE Item hItem hN
    obtain ⟨⟨e0, hE0⟩, _⟩ := (Swept_entry_iff hw h C n).1 ⟨e, hE⟩
    exact hI.entryItems C n e0 hE0 Item ((hTable C Item).1 hItem).1 hN
  · intro C KV hKV hR
    obtain ⟨hKV1, hKV2⟩ := (hFunc C KV).1 hKV
    exact (Swept_entry_iff hw h C KV.1).2
      ⟨hI.routerFuncs C KV hKV1 ((hRouter _).1 hR), hKV2⟩
  · intro C n e hE f hf
    obtain ⟨⟨e0, hE0⟩, hnot⟩ := (Swept_entry_iff hw h C n).1 ⟨e, hE⟩
    rw [ClassSwept_Find (hT C) n hnot] at hf
    exact (hRouter f).2 (hI.entryFuncs C n e0 hE0 f hf)

theorem Invariant_sweep {w w' : World} (hI : Invariant w)
    (h : OnPostGarbageCollect w = some w') : Invariant w' := by
  obtain ⟨w1, he, hs⟩ := OnPostGarbageCollect_spec w hI.consistent
  rw [h] at he
  rw [Option.some.inj he]
  exact Invariant_swept hI hs

/-! ### A bind keeps the invariant -/

theorem TMap.Add_of_not_key {K V : Type} [DecidableEq K] {m : TMap K V} {k : K}
    (hk : k ∉ TMap.Keys m) (v : V) : TMap.Add m k v = m ++ [(k, v)] := by
  induction m with
  | nil => rfl
  | cons kv rest ih =>
    obtain ⟨k0, v0⟩ := kv
    simp only [TMap.Keys, List.map_cons, List.mem_cons, not_or] at hk
    have h0 : ¬ k0 = k := fun e => hk.1 e.symm
    simp only [TMap.Add, h0, if_false, List.cons_append]
    rw [ih hk.2]

theorem TMap.Keys_Add {K V : Type} [DecidableEq K] (m : TMap K V) (k : K) (v : V) :
    TMap.Keys (TMap.Add m k v) = if k ∈ TMap.Keys m then TMap.Keys m else TMap.Keys m ++ [k] := by
  induction m with
  | nil => simp [TMap.Add, TMap.Keys]
  | cons kv rest ih =>
    obtain ⟨k0, v0⟩ := kv
    by_cases h0 : k0 = k
    · subst h0
      simp [TMap.Add, TMap.Keys]
    · have h1 : ¬ k = k0 := fun e => h0 e.symm
      simp only [TMap.Keys] at ih
      simp only [TMap.Add, h0, if_false, TMap.Keys, List.map_cons, List.mem_cons, h1, false_or,
        ih]
      split <;> simp

theorem TMap.UniqueKeys_Add {K V : Type} [DecidableEq K] {m : TMap K V}
    (hm : TMap.UniqueKeys m) (k : K) (v : V) : TMap.UniqueKeys (TMap.Add m k v) := by
  have h := TMap.Keys_Add m k v
  unfold TMap.UniqueKeys
  unfold TMap.Keys at h
  rw [h]
  split
  · exact hm
  · rename_i hk
    rw [List.nodup_append]
    refine ⟨hm, List.nodup_singleton k, ?_⟩
    intro a ha hb
    rw [List.mem_singleton] at hb
    rw [hb] at ha
    exact hk ha

/-- With a unique-key map, the pairs after `Add` are the new pair and the old pairs under
other keys. -/
theorem TMap.mem_Add_iff {K V : Type} [DecidableEq K] {m : TMap K V}
    (hm : TMap.UniqueKeys m) (k : K) (v : V) (kv : K × V) :
    kv ∈ TMap.Add m k v ↔ kv = (k, v) ∨ (kv ∈ m ∧ kv.1 ≠ k) := by
  by_cases hk : k ∈ TMap.Keys m
  · rw [TMap.Add_eq_map hm hk, List.mem_map]
    constructor
    · rintro ⟨kv0, hkv0, e⟩
      by_cases h0 : kv0.1 = k
      · rw [if_pos h0] at e
        exact Or.inl e.symm
      · rw [if_neg h0] at e
        rw [← e]
        exact Or.inr ⟨hkv0, h0⟩
    · rintro (e | ⟨h1, h2⟩)
      · obtain ⟨kv0, hkv0, e0⟩ := List.mem_map.1 hk
        exact ⟨kv0, hkv0, by rw [if_pos e0, e]⟩
      · exact ⟨kv, h1, by rw [if_neg h2]⟩
  · rw [TMap.Add_of_not_key hk, List.mem_append, List.mem_singleton]
    constructor
    · rintro (h | h)
      · refine Or.inr ⟨h, ?_⟩
        intro e
        exact hk (List.mem_map.2 ⟨kv, h, e⟩)
      · exact Or.inl h
    · rintro (h | ⟨h, _⟩)
      · exact Or.inr h
      · exact Or.inl h

theorem NameOld_mono {ID ID' : Int} {Name : FName} (h : NameOld ID Name) (hle : ID ≤ ID') :
    NameOld ID' Name := by
  intro k File Line e
  exact le_trans (h k File Line e) hle

theorem NextLambdaName_eq (w : World) (h0 : 0 ≤ w.ID) (h1 : w.ID + 1 < 2147483648)
    (File : String) (Line : Int) :
    NextLambdaName w File Line = LambdaNameText (((w.ID + 1).toNat : Nat) : Int) File Line := by
  unfold NextLambdaName
  rw [WrapInt32_of_range _ (by omega) h1, Int.toNat_of_nonneg (by omega)]

theorem NextLambdaName_fresh (w : World) (h0 : 0 ≤ w.ID) (h1 : w.ID + 1 < 2147483648)
    (File : String) (Line : Int) {Name : FName} (h : NameOld w.ID Name) :
    Name ≠ NextLambdaName w File Line := by
  intro e
  rw [NextLambdaName_eq w h0 h1] at e
  have := h _ File Line e
  rw [Int.toNat_of_nonneg (by omega)] at this
  omega

theorem NextLambdaName_old (w : World) (h0 : 0 ≤ w.ID) (h1 : w.ID + 1 < 2147483648)
    (File : String) (Line : Int) : NameOld (w.ID + 1) (NextLambdaName w File Line) := by
  intro k File' Line' e
  rw [NextLambdaName_eq w h0 h1] at e
  have := LambdaNameText_injective _ _ _ _ _ _ e
  rw [← this, Int.toNat_of_nonneg (by omega)]

/-- The registry after a bind: the new entry under the generated name, every other entry as
before. -/
theorem Bound_entry {w w' : World} {Object : UObject} {Delegate : Nat} {IsMulticast : Bool}
    {Callable : TFunction} {File : String} {Line : Int} {Function : UFunction}
    (hb : Bound w Object Delegate IsMulticast Callable File Line Function w')
    (Class : UClass) (LambdaName : FName) :
    w'.Entry Class LambdaName =
      if (Class, LambdaName) = (Object.Class, NextLambdaName w File Line) then
        some (NewEntry Object Delegate IsMulticast Callable)
      else w.Entry Class LambdaName := by
  unfold World.Entry
  rw [hb.storage, TMap.Find_Add]
  by_cases hc : Object.Class = Class
  · subst hc
    simp only [if_true, TMap.Find_Add]
    by_cases hn : NextLambdaName w File Line = LambdaName
    · simp [hn]
    · have : ¬ (Object.Class, LambdaName) = (Object.Class, NextLambdaName w File Line) := by
        intro e
        exact hn (Prod.mk.inj e).2.symm
      rw [if_neg hn, if_neg this]
      cases TMap.Find w.Storage Object.Class <;> simp [TMap.Find]
  · have : ¬ (Class, LambdaName) = (Object.Class, NextLambdaName w File Line) := by
      intro e
      exact hc (Prod.mk.inj e).1.symm
    rw [if_neg hc, if_neg this]

/-- A bind that does not overflow the name counter keeps the invariant. -/
theorem Invariant_bound {w w' : World} {Object : UObject} {Delegate : Nat} {IsMulticast : Bool}
    {Callable : TFunction} {File : String} {Line : Int} {Function : UFunction}
    (hI : Invariant w) (hID : w.ID + 1 < 2147483648)
    (hb : Bound w Object Delegate IsMulticast Callable File Line Function w') :
    Invariant w' := by
  have h0 := hI.counter
  have hid : w'.ID = w.ID + 1 := by
    rw [hb.id, WrapInt32_of_range _ (by omega) hID]
  have hfreshT : ∀ C, ∀ Item ∈ (w.Classes C).NativeFunctionLookupTable,
      Item.Name ≠ NextLambdaName w File Line :=
    fun C Item hItem => NextLambdaName_fresh w h0 hID File Line (hI.tableNames C Item hItem)
  have hfreshF : ∀ C, ∀ KV ∈ (w.Classes C).FuncMap, KV.1 ≠ NextLambdaName w File Line :=
    fun C KV hKV => NextLambdaName_fresh w h0 hID File Line (hI.funcNames C KV hKV)
  have hnew := NextLambdaName_old w h0 hID File Line
  have hkey : NextLambdaName w File Line ∉ TMap.Keys (w.Classes Object.Class).FuncMap := by
    intro h
    obtain ⟨KV, hKV, e⟩ := List.mem_map.1 h
    exact hfreshF _ KV hKV e
  have hfm : (w'.Classes Object.Class).FuncMap =
      (w.Classes Object.Class).FuncMap ++ [(NextLambdaName w File Line, Function)] := by
    rw [hb.funcMap, TMap.Add_of_not_key hkey]
  have hmemT : ∀ C Item, Item ∈ (w'.Classes C).NativeFunctionLookupTable ↔
      Item ∈ (w.Classes C).NativeFunctionLookupTable ∨
        (C = Object.Class ∧
          Item = { Name := NextLambdaName w File Line, Pointer := .RouteToLambda }) := by
    intro C Item
    by_cases hC : C = Object.Class
    · rw [hC, hb.table, List.mem_append, List.mem_singleton]
      simp
    · rw [hb.otherClasses C hC]
      simp [hC]
  have hmemF : ∀ C KV, KV ∈ (w'.Classes C).FuncMap ↔
      KV ∈ (w.Classes C).FuncMap ∨
        (C = Object.Class ∧ KV = (NextLambdaName w File Line, Function)) := by
    intro C KV
    by_cases hC : C = Object.Class
    · rw [hC, hfm, List.mem_append, List.mem_singleton]
      simp
    · rw [hb.otherClasses C hC]
      simp [hC]
  have hFind : ∀ C n, TMap.Find (w'.Classes C).FuncMap n =
      if C = Object.Class ∧ n = NextLambdaName w File Line then some Function
      else TMap.Find (w.Classes C).FuncMap n := by
    intro C n
    by_cases hC : C = Object.Class
    · rw [hC, hb.funcMap, TMap.Find_Add]
      by_cases hn : NextLambdaName w File Line = n
      · simp [hn]
      · have hn' : ¬ n = NextLambdaName w File Line := fun e => hn e.symm
        simp [hn, hn']
    · rw [hb.otherClasses C hC]
      simp [hC]
  have hnotin : ∀ C, ∀ KV ∈ (w.Classes C).FuncMap, KV.2 ≠ Function := by
    intro C KV hKV e
    rcases hb.source with ⟨hp, _, _⟩ | ⟨_, _, hf, _⟩
    · exact hI.poolDetached C KV hKV (by rw [hp, e]; simp)
    · have := hI.funcAllocated C KV hKV
      rw [e, hf] at this
      exact Nat.lt_irrefl _ this
  have hlen : w.UFunctions.length ≤ w'.UFunctions.length ∧
      Function < w'.UFunctions.length := by
    rcases hb.source with ⟨_, h1, h2⟩ | ⟨_, _, h1, h2⟩
    · rw [h2]
      exact ⟨Nat.le_refl _, h1⟩
    · rw [h2, h1]
      exact ⟨Nat.le_succ _, Nat.lt_succ_self _⟩
  obtain ⟨Data, hData, hDn, _, hDf⟩ := hb.named
  have hDf' : Data.Func = some .RouteToLambda := by
    rw [hDf, hb.table, List.find?_append]
    have hnone : List.find? (fun Item => decide (Item.Name = NextLambdaName w File Line))
        (w.Classes Object.Class).NativeFunctionLookupTable = none := by
      rw [List.find?_eq_none]
      intro Item hItem
      simpa using hfreshT _ Item hItem
    rw [hnone]
    simp
  have hrouterNew : IsRouter w' Function := ⟨Data, hData, hDf'⟩
  have hrouterOld : ∀ g, g ≠ Function → (IsRouter w' g ↔ IsRouter w g) := by
    intro g hg
    unfold IsRouter
    rw [hb.otherFunctions g hg]
  have hE := Bound_entry hb
  have hEnew : ∀ C n, (C, n) = (Object.Class, NextLambdaName w File Line) →
      ∃ e, w'.Entry C n = some e := by
    intro C n e
    rw [hE, if_pos e]
    exact ⟨_, rfl⟩
  have hEold : ∀ C n e, w.Entry C n = some e → ∃ e', w'.Entry C n = some e' := by
    intro C n e he
    rw [hE]
    split
    · exact ⟨_, rfl⟩
    · exact ⟨e, he⟩
  have hHasOld : ∀ C n, HasRouter w C n = true → HasRouter w' C n = true := by
    intro C n h
    rw [HasRouter_iff] at h ⊢
    obtain ⟨⟨Item, hItem, hN⟩, f, d, hf, hd, hdn⟩ := h
    have hmem := TMap.mem_of_Find_eq_some hf
    have hne : ¬ (C = Object.Class ∧ n = NextLambdaName w File Line) := by
      intro e
      exact hfreshF C _ hmem e.2
    refine ⟨⟨Item, (hmemT C Item).2 (Or.inl hItem), hN⟩, f, d, ?_, ?_, hdn⟩
    · rw [hFind, if_neg hne, hf]
    · rw [hb.otherFunctions f (hnotin C _ hmem), hd]
  have hHasNew : HasRouter w' Object.Class (NextLambdaName w File Line) = true := by
    rw [HasRouter_iff]
    refine ⟨⟨_, (hmemT _ _).2 (Or.inr ⟨rfl, rfl⟩), rfl⟩, Function, Data, ?_, hData, hDn⟩
    rw [hFind, if_pos ⟨rfl, rfl⟩]
  have hcons := hI.consistent
  have hinner : TMap.UniqueKeys
      (match TMap.Find w.Storage Object.Class with
        | none => []
        | some ClassStorage => ClassStorage) := by
    cases hF : TMap.Find w.Storage Object.Class with
    | none => exact List.nodup_nil
    | some m => exact (hcons.2 _ (TMap.mem_of_Find_eq_some hF)).1
  refine
    { consistent := ?_
      counter := by rw [hid]; omega
      tableNames := ?_
      tableNodup := ?_
      funcNames := ?_
      funcUnique := ?_
      funcAllocated := ?_
      funcOnce := ?_
      poolAllocated := ?_
      poolNodup := ?_
      poolDetached := ?_
      routerItems := ?_
      entryItems := ?_
      routerFuncs := ?_
      entryFuncs := ?_ }
  · -- consistent
    refine ⟨?_, ?_⟩
    · rw [hb.storage]
      exact TMap.UniqueKeys_Add hcons.1 _ _
    · intro ckv hckv
      have hU : TMap.UniqueKeys ckv.2 := by
        rw [hb.storage, TMap.mem_Add_iff hcons.1] at hckv
        rcases hckv with e | ⟨h1, _⟩
        · rw [e]
          exact TMap.UniqueKeys_Add hinner _ _
        · exact (hcons.2 ckv h1).1
      refine ⟨hU, ?_⟩
      intro kv hkv
      have hS : TMap.Find w'.Storage ckv.1 = some ckv.2 :=
        TMap.Find_eq_some_of_mem (by rw [hb.storage]; exact TMap.UniqueKeys_Add hcons.1 _ _)
          hckv
      have hEntry : w'.Entry ckv.1 kv.1 = some kv.2 := by
        unfold World.Entry
        rw [hS]
        exact TMap.Find_eq_some_of_mem hU hkv
      rw [hE] at hEntry
      by_cases hk : (ckv.1, kv.1) = (Object.Class, NextLambdaName w File Line)
      · obtain ⟨h1, h2⟩ := Prod.mk.inj hk
        rw [h1, h2]
        exact hHasNew
      · rw [if_neg hk] at hEntry
        obtain ⟨m, _, hm1, hm2⟩ := World.mem_of_Entry hEntry
        exact hHasOld _ _ ((hcons.2 _ hm1).2 _ hm2)
  · -- tableNames
    intro C Item hItem
    rw [hid]
    rcases (hmemT C Item).1 hItem with h | ⟨_, h⟩
    · exact NameOld_mono (hI.tableNames C Item h) (by omega)
    · rw [h]
      exact hnew
  · -- tableNodup
    intro C
    by_cases hC : C = Object.Class
    · rw [hC, hb.table, List.map_append, List.nodup_append]
      refine ⟨hI.tableNodup _, List.nodup_singleton _, ?_⟩
      intro a ha hb'
      simp only [List.map_cons, List.map_nil, List.mem_singleton] at hb'
      obtain ⟨Item, hItem, e⟩ := List.mem_map.1 ha
      exact hfreshT _ Item hItem (e.trans hb')
    · rw [hb.otherClasses C hC]
      exact hI.tableNodup C
  · -- funcNames
    intro C KV hKV
    rw [hid]
    rcases (hmemF C KV).1 hKV with h | ⟨_, h⟩
    · exact NameOld_mono (hI.funcNames C KV h) (by omega)
    · rw [h]
      exact hnew
  · -- funcUnique
    intro C
    by_cases hC : C = Object.Class
    · rw [hC, hb.funcMap]
      exact TMap.UniqueKeys_Add (hI.funcUnique _) _ _
    · rw [hb.otherClasses C hC]
      exact hI.funcUnique C
  · -- funcAllocated
    intro C KV hKV
    rcases (hmemF C KV).1 hKV with h | ⟨_, h⟩
    · exact Nat.lt_of_lt_of_le (hI.funcAllocated C KV h) hlen.1
    · rw [h]
      exact hlen.2
  · -- funcOnce
    intro C C' KV KV' hKV hKV' e
    rcases (hmemF C KV).1 hKV with h | ⟨hC, h⟩
    · rcases (hmemF C' KV').1 hKV' with h' | ⟨hC', h'⟩
      · exact hI.funcOnce C C' KV KV' h h' e
      · rw [h'] at e
        exact absurd e (hnotin C KV h)
    · rcases (hmemF C' KV').1 hKV' with h' | ⟨hC', h'⟩
      · rw [h] at e
        exact absurd e.symm (hnotin C' KV' h')
      · exact ⟨hC.trans hC'.symm, h.trans h'.symm⟩
  · -- poolAllocated
    intro g hg
    rcases hb.source with ⟨hp, _, h2⟩ | ⟨_, hp, _, _⟩
    · rw [h2]
      exact hI.poolAllocated g (by rw [hp]; exact List.mem_append_left _ hg)
    · rw [hp] at hg
      cases hg
  · -- poolNodup
    rcases hb.source with ⟨hp, _, _⟩ | ⟨_, hp, _, _⟩
    · have := hI.poolNodup
      rw [hp, List.nodup_append] at this
      exact this.1
    · rw [hp]
      exact List.nodup_nil
  · -- poolDetached
    intro C KV hKV hin
    rcases hb.source with ⟨hp, _, _⟩ | ⟨_, hp, _, _⟩
    · rcases (hmemF C KV).1 hKV with h | ⟨_, h⟩
      · exact hI.poolDetached C KV h (by rw [hp]; exact List.mem_append_left _ hin)
      · have hn := hI.poolNodup
        rw [hp, List.nodup_append] at hn
        rw [h] at hin
        exact hn.2.2 hin (List.mem_singleton_self _)
    · rw [hp] at hin
      cases hin
  · -- routerItems
    intro C Item hItem hP
    rcases (hmemT C Item).1 hItem with h | ⟨hC, h⟩
    · obtain ⟨e, he⟩ := hI.routerItems C Item h hP
      exact hEold C _ e he
    · rw [h]
      exact hEnew C _ (by rw [hC])
  · -- entryItems
    intro C n e he Item hItem hN
    rcases (hmemT C Item).1 hItem with h | ⟨_, h⟩
    · rw [hE] at he
      have hne : ¬ (C, n) = (Object.Class, NextLambdaName w File Line) := by
        intro e'
        exact hfreshT C Item h (hN.trans (Prod.mk.inj e').2)
      rw [if_neg hne] at he
      exact hI.entryItems C n e he Item h hN
    · rw [h]
  · -- routerFuncs
    intro C KV hKV hR
    rcases (hmemF C KV).1 hKV with h | ⟨hC, h⟩
    · obtain ⟨e, he⟩ := hI.routerFuncs C KV h ((hrouterOld _ (hnotin C KV h)).1 hR)
      exact hEold C _ e he
    · rw [h]
      exact hEnew C _ (by rw [hC])
  · -- entryFuncs
    intro C n e he f hf
    rw [hFind] at hf
    by_cases hk : C = Object.Class ∧ n = NextLambdaName w File Line
    · rw [if_pos hk] at hf
      rw [← Option.some.inj hf]
      exact hrouterNew
    · rw [if_neg hk] at hf
      have hne : ¬ (C, n) = (Object.Class, NextLambdaName w File Line) := by
        intro e'
        exact hk ⟨(Prod.mk.inj e').1, (Prod.mk.inj e').2⟩
      rw [hE, if_neg hne] at he
      have hmem := TMap.mem_of_Find_eq_some hf
      exact (hrouterOld f (hnotin C _ hmem)).2 (hI.entryFuncs C n e he f hf)

theorem Invariant_bind {w w' : World} {Object : UObject} {Delegate : Nat} {IsMulticast : Bool}
    {Callable : TFunction} {File : String} {Line : Int}
    (hI : Invariant w) (hID : w.ID + 1 < 2147483648)
    (h : BindWeakLambdaToDynamicDelegate w Object Delegate IsMulticast Callable File Line =
      some w') : Invariant w' := by
  obtain ⟨f, w1, he, hb⟩ :=
    Bind_spec w hI.poolAllocated Object Delegate IsMulticast Callable File Line
  rw [h] at he
  rw [Option.some.inj he]
  exact Invariant_bound hI hID hb

/-- Every reachable state satisfies the invariant. -/
theorem Reachable_invariant {w : World} (h : Reachable w) : Invariant w := by
  induction h with
  | initial h0 => exact Invariant_initial h0
  | bind Object Delegate IsMulticast Callable File Line _ hID hB ih =>
    exact Invariant_bind ih hID hB
  | sweep _ hS ih => exact Invariant_sweep ih hS
  | resolve Counter _ hR ih => exact Invariant_resolve ih hR
  | host _ hH ih => exact Invariant_host ih hH

/-! ## Reachable example worlds -/

theorem ExampleClasses_table (C : UClass) :
    (ExampleClasses C).NativeFunctionLookupTable = [] := by
  unfold ExampleClasses
  split <;> rfl

theorem ExampleClasses_funcMap (C : UClass) : (ExampleClasses C).FuncMap = [] := by
  unfold ExampleClasses
  split <;> rfl

theorem InitialManager_ExampleInitial : InitialManager ExampleInitial where
  storage := rfl
  pool := rfl
  id := rfl
  tableNodup := fun C => by
    show (((ExampleClasses C).NativeFunctionLookupTable).map _).Nodup
    rw [ExampleClasses_table]
    exact List.nodup_nil
  tableHost := fun C Item h => by
    have h' : Item ∈ (ExampleClasses C).NativeFunctionLookupTable := h
    rw [ExampleClasses_table] at h'
    cases h'
  funcUnique := fun C => by
    show (((ExampleClasses C).FuncMap).map _).Nodup
    rw [ExampleClasses_funcMap]
    exact List.nodup_nil
  funcHost := fun C KV h => by
    have h' : KV ∈ (ExampleClasses C).FuncMap := h
    rw [ExampleClasses_funcMap] at h'
    cases h'
  funcOnce := fun C C' KV KV' h _ _ => by
    have h' : KV ∈ (ExampleClasses C).FuncMap := h
    rw [ExampleClasses_funcMap] at h'
    cases h'

theorem Bind_id {w w' : World} {Object : UObject} {Delegate : Nat} {IsMulticast : Bool}
    {Callable : TFunction} {File : String} {Line : Int}
    (hI : Invariant w) (hID : w.ID + 1 < 2147483648)
    (h : BindWeakLambdaToDynamicDelegate w Object Delegate IsMulticast Callable File Line =
      some w') : w'.ID = w.ID + 1 := by
  obtain ⟨f, w1, he, hb⟩ :=
    Bind_spec w hI.poolAllocated Object Delegate IsMulticast Callable File Line
  rw [h] at he
  rw [Option.some.inj he, hb.id, WrapInt32_of_range _ (by have := hI.counter; omega) hID]

theorem ExampleCycle_eq : ExampleCycle = some ExampleCollected := by
  unfold ExampleCollected
  cases h : ExampleCycle with
  | none =>
    have : ExampleCycle.isSome = true := by decide
    rw [h] at this
    cases this
  | some w => rfl

theorem Reachable_ExampleCollected : Reachable ExampleCollected := by
  have h := ExampleCycle_eq
  unfold ExampleCycle BindTwo at h
  have h0 : Reachable ExampleInitial := Reachable.initial InitialManager_ExampleInitial
  cases h1 : BindWeakLambdaToDynamicDelegate ExampleInitial ExampleTarget 140 false 7 "f.cpp" 10 with
  | none => simp [h1] at h
  | some w1 =>
    have hr1 : Reachable w1 := Reachable.bind _ _ _ _ _ _ h0 (by decide) h1
    have hid1 : w1.ID = 1 := Bind_id (Reachable_invariant h0) (by decide) h1
    cases h2 : BindWeakLambdaToDynamicDelegate w1 ExampleTarget 240 false 8 "f.cpp" 11 with
    | none => simp [h1, h2] at h
    | some w2 =>
      have hr2 : Reachable w2 := Reachable.bind _ _ _ _ _ _ hr1 (by rw [hid1]; decide) h2
      simp only [h1, h2] at h
      unfold CollectNothing at h
      cases h3 : OnPreGarbageCollect w2 0 with
      | none => simp [h3] at h
      | some w3 =>
        simp only [h3] at h
        exact Reachable.sweep (Reachable.resolve 0 hr2 h3) h

/-! ## Slots and classes -/

/-- C11: in every state reachable from an initial manager by binds, post-collection sweeps,
pre-collection passes and host steps, a function object is in the function map of at most
one class and there under one name only, no pooled function is in the function map of any
class, and the pool holds no function twice. -/
theorem slot_attached_to_at_most_one_class (w : World) (h : Reachable w) :
    (∀ C C' KV KV', KV ∈ (w.Classes C).FuncMap → KV' ∈ (w.Classes C').FuncMap →
        KV.2 = KV'.2 → C = C' ∧ KV = KV') ∧
      (∀ Function ∈ w.FunctionPool, ∀ C, ∀ KV ∈ (w.Classes C).FuncMap, KV.2 ≠ Function) ∧
      w.FunctionPool.Nodup := by
  have hI := Reachable_invariant h
  refine ⟨hI.funcOnce, ?_, hI.poolNodup⟩
  intro f hf C KV hKV e
  exact hI.poolDetached C KV hKV (by rw [e]; exact hf)

/-- C11, on the example: after two binds and a collection that reaps the first binding, the
function `0` is in the pool and the function `1` is attached to class `2`. -/
theorem slot_attached_to_at_most_one_class_witness :
    Reachable ExampleCollected ∧ ExampleCollected.FunctionPool = [0] ∧
      (ExampleCollected.Classes 2).FuncMap = [("lambda_2_f.cpp:11", 1)] ∧
      (∀ Function ∈ ExampleCollected.FunctionPool, ∀ C,
        ∀ KV ∈ (ExampleCollected.Classes C).FuncMap, KV.2 ≠ Function) ∧
      ExampleCollected.FunctionPool.Nodup :=
  ⟨Reachable_ExampleCollected, by decide, by decide,
    (slot_attached_to_at_most_one_class ExampleCollected Reachable_ExampleCollected).2⟩

/-! ## Registry and dispatch tables in step -/

theorem Invariant.hasRouter {w : World} (hI : Invariant w) {C : UClass} {n : FName}
    {e : FLambdaStorage} (h : w.Entry C n = some e) : HasRouter w C n = true := by
  obtain ⟨m, _, hm1, hm2⟩ := World.mem_of_Entry h
  exact (hI.consistent.2 _ hm1).2 _ hm2

/-- C17: in every state reachable from an initial manager by binds (the `int32` name counter
not overflowing), post-collection sweeps, pre-collection passes and host steps, for every
class the names keyed in the registry, the names of the lookup-table items that route to the
trampoline and the names under which the function map holds a function bound to the
trampoline are the same; a dispatch through a trampoline-bound function attached to the
class of the calling object finds its registry entry and runs the stored closure;
`CleanUpLambda` of a registry entry returns, and so does the whole sweep; and a bind
returns. -/
theorem registry_and_tables_stay_in_step (w : World) (h : Reachable w) :
    (∀ C n, (∃ e, w.Entry C n = some e) ↔
        ∃ Item ∈ (w.Classes C).NativeFunctionLookupTable,
          Item.Name = n ∧ Item.Pointer = .RouteToLambda) ∧
      (∀ C n, (∃ e, w.Entry C n = some e) ↔
        ∃ Function, (n, Function) ∈ (w.Classes C).FuncMap ∧ IsRouter w Function) ∧
      (∀ (Context : UObject) n Function,
        (n, Function) ∈ (w.Classes Context.Class).FuncMap → IsRouter w Function →
        ∃ e, w.Entry Context.Class n = some e ∧
          RouteToLambda w Context Function =
            some { w with Invocations := w.Invocations ++ [e.Lambda] }) ∧
      (∀ C n e, w.Entry C n = some e → ∃ w', CleanUpLambda w C n = some w') ∧
      (∃ w', OnPostGarbageCollect w = some w') ∧
      (∀ Object Delegate IsMulticast Callable File Line, ∃ w',
        BindWeakLambdaToDynamicDelegate w Object Delegate IsMulticast Callable File Line =
          some w') := by
  have hI := Reachable_invariant h
  refine ⟨?_, ?_, ?_, ?_, ?_, ?_⟩
  · intro C n
    constructor
    · rintro ⟨e, he⟩
      obtain ⟨⟨Item, hItem, hN⟩, _⟩ := (HasRouter_iff _ _ _).1 (hI.hasRouter he)
      exact ⟨Item, hItem, hN, hI.entryItems C n e he Item hItem hN⟩
    · rintro ⟨Item, hItem, hN, hP⟩
      rw [← hN]
      exact hI.routerItems C Item hItem hP
  · intro C n
    constructor
    · rintro ⟨e, he⟩
      obtain ⟨_, f, d, hf, _, _⟩ := (HasRouter_iff _ _ _).1 (hI.hasRouter he)
      exact ⟨f, TMap.mem_of_Find_eq_some hf, hI.entryFuncs C n e he f hf⟩
    · rintro ⟨f, hf, hR⟩
      exact hI.routerFuncs C (n, f) hf hR
  · intro Context n f hf hR
    obtain ⟨e, he⟩ := hI.routerFuncs Context.Class (n, f) hf hR
    refine ⟨e, he, ?_⟩
    obtain ⟨_, f', d, hf', hd, hdn⟩ := (HasRouter_iff _ _ _).1 (hI.hasRouter he)
    have hff : f' = f := by
      have := TMap.Find_eq_some_of_mem (hI.funcUnique Context.Class) hf
      rw [hf'] at this
      exact Option.some.inj this
    rw [hff] at hd
    obtain ⟨m, hm, _, hm2⟩ := World.mem_of_Entry he
    have hFm : TMap.Find m n = some e := by
      unfold World.Entry at he
      rw [hm] at he
      exact he
    unfold RouteToLambda
    simp only [hd, hm, hdn, hFm]
  · intro C n e he
    obtain ⟨m, _, hm1, hm2⟩ := World.mem_of_Entry he
    obtain ⟨w', hw', _⟩ := CleanUpLambda_spec w hI.consistent C m hm1 n
      (List.mem_map.2 ⟨(n, e), hm2, rfl⟩)
    exact ⟨w', hw'⟩
  · obtain ⟨w', hw', _⟩ := OnPostGarbageCollect_spec w hI.consistent
    exact ⟨w', hw'⟩
  · intro Object Delegate IsMulticast Callable File Line
    obtain ⟨_, w', hw', _⟩ :=
      Bind_spec w hI.poolAllocated Object Delegate IsMulticast Callable File Line
    exact ⟨w', hw'⟩

/-- C17, on the example: after two binds and a collection that reaps the first binding, the
registry of class `2` holds the name `lambda_2_f.cpp:11` only, and a dispatch through the
function `1` for the target runs closure `8`. -/
theorem registry_and_tables_stay_in_step_witness :
    Reachable ExampleCollected ∧
      (ExampleCollected.Classes 2).FuncMap = [("lambda_2_f.cpp:11", 1)] ∧
      (ExampleCollected.Classes 2).NativeFunctionLookupTable =
        [{ Name := "lambda_2_f.cpp:11", Pointer := .RouteToLambda }] ∧
      ExampleCollected.Storage.map (fun ClassKV => (ClassKV.1, TMap.Keys ClassKV.2)) =
        [(2, ["lambda_2_f.cpp:11"])] ∧
      (∃ e, ExampleCollected.Entry 2 "lambda_2_f.cpp:11" = some e ∧ e.Lambda = 8 ∧
        RouteToLambda ExampleCollected ExampleTarget 1 =
          some { ExampleCollected with
            Invocations := ExampleCollected.Invocations ++ [e.Lambda] }) := by
  refine ⟨Reachable_ExampleCollected, by decide, by decide, by decide, ?_⟩
  obtain ⟨e, he, hr⟩ :=
    (registry_and_tables_stay_in_step ExampleCollected Reachable_ExampleCollected).2.2.1
      ExampleTarget "lambda_2_f.cpp:11" 1 (by decide)
      ⟨_, (by decide : ExampleCollected.UFunctions[1]? =
        some { Name := "lambda_2_f.cpp:11", Outer := 2, Func := some .RouteToLambda }), rfl⟩
  refine ⟨e, he, ?_, hr⟩
  have h8 : (ExampleCollected.Entry 2 "lambda_2_f.cpp:11").map (fun e => e.Lambda) = some 8 := by
    decide
  have he' : ExampleCollected.Entry 2 "lambda_2_f.cpp:11" = some e := he
  rw [he'] at h8
  exact Option.some.inj h8

/-! ## Multicast delegates -/

theorem Dispatches_bound {w w' : World} {Object : UObject} {Delegate : Nat}
    {IsMulticast : Bool} {Callable : TFunction} {File : String} {Line : Int}
    {Function : UFunction} (hI : Invariant w) (hID : w.ID + 1 < 2147483648)
    (hb : Bound w Object Delegate IsMulticast Callable File Line Function w') :
    (∀ T n c, Dispatches w T n c → Dispatches w' T n c) ∧
      Dispatches w' Object (NextLambdaName w File Line) Callable := by
  have h0 := hI.counter
  have hfreshT : ∀ C, ∀ Item ∈ (w.Classes C).NativeFunctionLookupTable,
      Item.Name ≠ NextLambdaName w File Line :=
    fun C Item hItem => NextLambdaName_fresh w h0 hID File Line (hI.tableNames C Item hItem)
  have hfreshF : ∀ C, ∀ KV ∈ (w.Classes C).FuncMap, KV.1 ≠ NextLambdaName w File Line :=
    fun C KV hKV => NextLambdaName_fresh w h0 hID File Line (hI.funcNames C KV hKV)
  have hFind : ∀ C n, TMap.Find (w'.Classes C).FuncMap n =
      if C = Object.Class ∧ n = NextLambdaName w File Line then some Function
      else TMap.Find (w.Classes C).FuncMap n := by
    intro C n
    by_cases hC : C = Object.Class
    · rw [hC, hb.funcMap, TMap.Find_Add]
      by_cases hn : NextLambdaName w File Line = n
      · simp [hn]
      · have hn' : ¬ n = NextLambdaName w File Line := fun e => hn e.symm
        simp [hn, hn']
    · rw [hb.otherClasses C hC]
      simp [hC]
  have hnotin : ∀ C, ∀ KV ∈ (w.Classes C).FuncMap, KV.2 ≠ Function := by
    intro C KV hKV e
    rcases hb.source with ⟨hp, _, _⟩ | ⟨_, _, hf, _⟩
    · exact hI.poolDetached C KV hKV (by rw [hp, e]; simp)
    · have := hI.funcAllocated C KV hKV
      rw [e, hf] at this
      exact Nat.lt_irrefl _ this
  obtain ⟨Data, hData, hDn, _, hDf⟩ := hb.named
  have hDf' : Data.Func = some .RouteToLambda := by
    rw [hDf, hb.table, List.find?_append]
    have hnone : List.find? (fun Item => decide (Item.Name = NextLambdaName w File Line))
        (w.Classes Object.Class).NativeFunctionLookupTable = none := by
      rw [List.find?_eq_none]
      intro Item hItem
      simpa using hfreshT _ Item hItem
    rw [hnone]
    simp
  have hE := Bound_entry hb
  refine ⟨?_, ?_⟩
  · rintro T n c ⟨f, d, e, hf, hd, hdn, hdf, he, hc⟩
    have hmem := TMap.mem_of_Find_eq_some hf
    have hn : n ≠ NextLambdaName w File Line := hfreshF _ _ hmem
    refine ⟨f, d, e, ?_, ?_, hdn, hdf, ?_, hc⟩
    · rw [hFind, if_neg (fun h => hn h.2), hf]
    · rw [hb.otherFunctions f (hnotin _ _ hmem), hd]
    · rw [hE, if_neg (fun h => hn (Prod.mk.inj h).2), he]
  · refine ⟨Function, Data, NewEntry Object Delegate IsMulticast Callable, ?_, hData, hDn,
      hDf', ?_, rfl⟩
    · rw [hFind, if_pos ⟨rfl, rfl⟩]
    · rw [hE, if_pos rfl]

/-- Consecutive binds to one multicast delegate return, append their registrations in call
order and leave every registration, old or new, leading to its closure. -/
theorem BindAll_spec (Delegate : Nat) :
    ∀ (Calls : List FBindCall) (w : World), Invariant w →
      w.ID + (Calls.length : Int) < 2147483648 →
      ∃ w', BindAll w Delegate Calls = some w' ∧ Invariant w' ∧
        w'.GUObjectArray = w.GUObjectArray ∧ w'.Invocations = w.Invocations ∧
        w'.MulticastDelegates Delegate =
          w.MulticastDelegates Delegate ++ Registrations w.ID Calls ∧
        (∀ T n c, Dispatches w T n c → Dispatches w' T n c) ∧
        List.Forall₂ (fun (Call : FBindCall) (r : FScriptDelegate) =>
          r.Object = some Call.Object.Serial ∧
            Dispatches w' Call.Object r.FunctionName Call.Callable)
          Calls (Registrations w.ID Calls) := by
  intro Calls
  induction Calls with
  | nil =>
    intro w hI _
    exact ⟨w, rfl, hI, rfl, rfl, by simp [Registrations], fun _ _ _ h => h,
      List.Forall₂.nil⟩
  | cons Call rest ih =>
    intro w hI hID
    have hlen : ((Call :: rest).length : Int) = (rest.length : Int) + 1 := by
      simp
    rw [hlen] at hID
    have h0 := hI.counter
    have hID1 : w.ID + 1 < 2147483648 := by omega
    obtain ⟨f, w1, hB, hb⟩ :=
      Bind_spec w hI.poolAllocated Call.Object Delegate true Call.Callable Call.File Call.Line
    have hI1 := Invariant_bound hI hID1 hb
    have hid : w1.ID = w.ID + 1 := by
      rw [hb.id, WrapInt32_of_range _ (by omega) hID1]
    obtain ⟨w', hA, hI', hO, hInv, hM, hOld, hNew⟩ := ih w1 hI1 (by rw [hid]; omega)
    obtain ⟨hD1, hD2⟩ := Dispatches_bound hI hID1 hb
    have hregs : Registrations w.ID (Call :: rest) =
        { Object := some Call.Object.Serial,
          FunctionName := NextLambdaName w Call.File Call.Line } ::
          Registrations w1.ID rest := by
      rw [hb.id]
      rfl
    refine ⟨w', ?_, hI', ?_, ?_, ?_, ?_, ?_⟩
    · simp only [BindAll, hB]
      exact hA
    · rw [hO, hb.objects]
    · rw [hInv, hb.invocations]
    · rw [hM, hregs, hb.multicastDelegates]
      simp
    · intro T n c h
      exact hOld T n c (hD1 T n c h)
    · rw [hregs]
      exact List.Forall₂.cons ⟨rfl, hOld _ _ _ hD2⟩ hNew

theorem ProcessInvocationList_append :
    ∀ (A B : List FScriptDelegate) (w : World),
      ProcessInvocationList w (A ++ B) =
        match ProcessInvocationList w A with
        | none => none
        | some w1 => ProcessInvocationList w1 B := by
  intro A B
  induction A with
  | nil =>
    intro w
    rfl
  | cons d rest ih =>
    intro w
    simp only [List.cons_append, ProcessInvocationList]
    by_cases hv : (TWeakObjectPtr.Resolve w.GUObjectArray d.Object).isSome = true
    · rw [if_pos hv, if_pos hv]
      cases hP : ProcessDelegate w d with
      | none => rfl
      | some w2 => exact ih w2
    · rw [if_neg hv, if_neg hv]
      exact ih w

/-- A dispatch changes the invocation trace only. -/
theorem ProcessDelegate_frame {w w1 : World} {d : FScriptDelegate}
    (h : ProcessDelegate w d = some w1) :
    w1.Storage = w.Storage ∧ w1.Classes = w.Classes ∧ w1.UFunctions = w.UFunctions ∧
      w1.GUObjectArray = w.GUObjectArray := by
  unfold ProcessDelegate at h
  cases hR : TWeakObjectPtr.Resolve w.GUObjectArray d.Object with
  | none => simp [hR] at h
  | some Object =>
    simp only [hR] at h
    cases hF : FindFunctionByName w Object.Class d.FunctionName with
    | none => simp [hF] at h
    | some f =>
      simp only [hF] at h
      unfold ProcessEvent at h
      cases hU : w.UFunctions[f]? with
      | none => simp [hU] at h
      | some Data =>
        simp only [hU] at h
        cases hDf : Data.Func with
        | none =>
          simp only [hDf, Option.some.injEq] at h
          rw [← h]
          exact ⟨rfl, rfl, rfl, rfl⟩
        | some p =>
          cases p with
          | Other Id =>
            simp only [hDf, Option.some.injEq] at h
            rw [← h]
            exact ⟨rfl, rfl, rfl, rfl⟩
          | RouteToLambda =>
            simp only [hDf] at h
            unfold RouteToLambda at h
            simp only [hU] at h
            cases hS : TMap.Find w.Storage Object.Class with
            | none => simp [hS] at h
            | some m =>
              simp only [hS] at h
              cases hm : TMap.Find m Data.Name with
              | none => simp [hm] at h
              | some e =>
                simp only [hm, Option.some.injEq] at h
                rw [← h]
                exact ⟨rfl, rfl, rfl, rfl⟩

theorem ProcessInvocationList_frame :
    ∀ (A : List FScriptDelegate) (w w1 : World), ProcessInvocationList w A = some w1 →
      w1.Storage = w.Storage ∧ w1.Classes = w.Classes ∧ w1.UFunctions = w.UFunctions ∧
        w1.GUObjectArray = w.GUObjectArray := by
  intro A
  induction A with
  | nil =>
    intro w w1 h
    simp only [ProcessInvocationList, Option.some.injEq] at h
    rw [← h]
    exact ⟨rfl, rfl, rfl, rfl⟩
  | cons d rest ih =>
    intro w w1 h
    simp only [ProcessInvocationList] at h
    by_cases hv : (TWeakObjectPtr.Resolve w.GUObjectArray d.Object).isSome = true
    · rw [if_pos hv] at h
      cases hP : ProcessDelegate w d with
      | none => simp [hP] at h
      | some w2 =>
        simp only [hP] at h
        obtain ⟨a1, a2, a3, a4⟩ := ih w2 w1 h
        obtain ⟨b1, b2, b3, b4⟩ := ProcessDelegate_frame hP
        exact ⟨a1.trans b1, a2.trans b2, a3.trans b3, a4.trans b4⟩
    · rw [if_neg hv] at h
      exact ih w w1 h

theorem Dispatches_of_frame {w w1 : World} (hS : w1.Storage = w.Storage)
    (hC : w1.Classes = w.Classes) (hU : w1.UFunctions = w.UFunctions) {T : UObject}
    {n : FName} {c : TFunction} (h : Dispatches w T n c) : Dispatches w1 T n c := by
  unfold Dispatches World.Entry at *
  rw [hS, hC, hU]
  exact h

/-- Registrations that lead to closures, for live targets: the broadcast loop runs exactly
these closures, each once, in list order. -/
theorem ProcessInvocationList_dispatches :
    ∀ (Calls : List FBindCall) (regs : List FScriptDelegate) (w : World),
      List.Forall₂ (fun (Call : FBindCall) (r : FScriptDelegate) =>
        r.Object = some Call.Object.Serial ∧
          Dispatches w Call.Object r.FunctionName Call.Callable) Calls regs →
      (∀ Call ∈ Calls, TWeakObjectPtr.Resolve w.GUObjectArray (some Call.Object.Serial) =
        some Call.Object) →
      ProcessInvocationList w regs =
        some { w with Invocations := w.Invocations ++ Calls.map (fun Call => Call.Callable) } := by
  intro Calls
  induction Calls with
  | nil =>
    intro regs w h _
    cases h
    simp [ProcessInvocationList]
  | cons Call rest ih =>
    intro regs w h hlive
    cases h with
    | cons hhead htail =>
      rename_i r regs'
      obtain ⟨hro, f, d, e, hf, hd, hdn, hdf, he, hc⟩ := hhead
      have hR := hlive Call (List.mem_cons_self _ _)
      have hEntry := he
      unfold World.Entry at hEntry
      cases hS : TMap.Find w.Storage Call.Object.Class with
      | none => simp [hS] at hEntry
      | some m =>
        simp only [hS] at hEntry
        have hP : ProcessDelegate w r =
            some { w with Invocations := w.Invocations ++ [Call.Callable] } := by
          unfold ProcessDelegate
          rw [hro, hR]
          simp only [FindFunctionByName, hf, ProcessEvent, hd, hdf, RouteToLambda, hS, hdn,
            hEntry, hc]
        simp only [ProcessInvocationList, hro, hR, Option.isSome_some, if_true]
        rw [hP]
        simp only
        rw [ih regs' { w with Invocations := w.Invocations ++ [Call.Callable] } htail
          (fun Call' hCall' => hlive Call' (List.mem_cons_of_mem _ hCall'))]
        simp [List.append_assoc]

/-- C12: in every reachable state, a bind to the multicast delegate at `Delegate` returns and
appends the registration `(target, generated name)` to the delegate's invocation list,
leaving the list's registrations and every other delegate as they were, while a bind to the
single delegate at `Delegate` sets its one registration to `(target, generated name)`; and
after consecutive binds of closures for live targets to the multicast delegate (the name
counter not overflowing), the invocation list is the old list followed by the new
registrations in call order, no closure has run, and one broadcast, once the old
registrations have been processed, appends to the invocation trace exactly the closures of
the calls, each once. -/
theorem multicast_bind_adds_registration (w : World) (h : Reachable w) (Delegate : Nat) :
    (∀ Object Callable File Line, ∃ w',
        BindWeakLambdaToDynamicDelegate w Object Delegate true Callable File Line = some w' ∧
        w'.MulticastDelegates Delegate = w.MulticastDelegates Delegate ++
          [{ Object := some Object.Serial, FunctionName := NextLambdaName w File Line }] ∧
        (∀ p, p ≠ Delegate → w'.MulticastDelegates p = w.MulticastDelegates p) ∧
        w'.ScriptDelegates = w.ScriptDelegates) ∧
      (∀ Object Callable File Line, ∃ w',
        BindWeakLambdaToDynamicDelegate w Object Delegate false Callable File Line = some w' ∧
        w'.ScriptDelegates Delegate =
          { Object := some Object.Serial, FunctionName := NextLambdaName w File Line } ∧
        (∀ p, p ≠ Delegate → w'.ScriptDelegates p = w.ScriptDelegates p) ∧
        w'.MulticastDelegates = w.MulticastDelegates) ∧
      (∀ Calls : List FBindCall, w.ID + (Calls.length : Int) < 2147483648 →
        (∀ Call ∈ Calls, TWeakObjectPtr.Resolve w.GUObjectArray (some Call.Object.Serial) =
          some Call.Object) →
        ∃ w', BindAll w Delegate Calls = some w' ∧
          w'.MulticastDelegates Delegate =
            w.MulticastDelegates Delegate ++ Registrations w.ID Calls ∧
          w'.Invocations = w.Invocations ∧
          (∀ w1, ProcessInvocationList w' (w.MulticastDelegates Delegate) = some w1 →
            Broadcast w' Delegate = some { w1 with
              Invocations := w1.Invocations ++ Calls.map (fun Call => Call.Callable) }) ∧
          (w.MulticastDelegates Delegate = [] →
            Broadcast w' Delegate = some { w' with
              Invocations := w.Invocations ++ Calls.map (fun Call => Call.Callable) })) := by
  have hI := Reachable_invariant h
  refine ⟨?_, ?_, ?_⟩
  · intro Object Callable File Line
    obtain ⟨f, w', hB, hb⟩ := Bind_spec w hI.poolAllocated Object Delegate true Callable File Line
    refine ⟨w', hB, ?_, ?_, ?_⟩
    · rw [hb.multicastDelegates]
      simp
    · intro p hp
      rw [hb.multicastDelegates]
      simp [hp]
    · rw [hb.scriptDelegates]
      funext p
      simp
  · intro Object Callable File Line
    obtain ⟨f, w', hB, hb⟩ :=
      Bind_spec w hI.poolAllocated Object Delegate false Callable File Line
    refine ⟨w', hB, ?_, ?_, ?_⟩
    · rw [hb.scriptDelegates]
      simp
    · intro p hp
      rw [hb.scriptDelegates]
      simp [hp]
    · rw [hb.multicastDelegates]
      funext p
      simp
  · intro Calls hID hlive
    obtain ⟨w', hA, _, hO, hInv, hM, _, hNew⟩ := BindAll_spec Delegate Calls w hI hID
    have hrun : ∀ w1, ProcessInvocationList w' (w.MulticastDelegates Delegate) = some w1 →
        Broadcast w' Delegate = some { w1 with
          Invocations := w1.Invocations ++ Calls.map (fun Call => Call.Callable) } := by
      intro w1 h1
      obtain ⟨a1, a2, a3, a4⟩ := ProcessInvocationList_frame _ _ _ h1
      unfold Broadcast
      rw [hM, ProcessInvocationList_append, h1]
      simp only
      apply ProcessInvocationList_dispatches Calls
      · exact hNew.imp (fun _ _ hp => ⟨hp.1, Dispatches_of_frame a1 a2 a3 hp.2⟩)
      · intro Call hCall
        rw [a4, hO]
        exact hlive Call hCall
    refine ⟨w', hA, hM, hInv, hrun, ?_⟩
    intro hnil
    have := hrun w' (by rw [hnil]; rfl)
    rw [this, hInv]

/-- C12, on the example: two binds of closures `7` and `8` to the multicast delegate at
address `156` on the initial manager; the invocation list holds the two registrations and
a broadcast runs closure `7` and closure `8`, each once. -/
theorem multicast_bind_adds_registration_witness :
    Reachable ExampleInitial ∧
      ExampleInitial.ID + (ExampleCalls.length : Int) < 2147483648 ∧
      (∀ Call ∈ ExampleCalls,
        TWeakObjectPtr.Resolve ExampleInitial.GUObjectArray (some Call.Object.Serial) =
          some Call.Object) ∧
      ∃ w', BindAll ExampleInitial 156 ExampleCalls = some w' ∧
        w'.MulticastDelegates 156 =
          [{ Object := some 1, FunctionName := "lambda_1_f.cpp:10" },
            { Object := some 1, FunctionName := "lambda_2_f.cpp:11" }] ∧
        w'.Invocations = [] ∧
        Broadcast w' 156 = some { w' with Invocations := [7, 8] } := by
  have hR : Reachable ExampleInitial := Reachable.initial InitialManager_ExampleInitial
  have hID : ExampleInitial.ID + (ExampleCalls.length : Int) < 2147483648 := by decide
  have hlive : ∀ Call ∈ ExampleCalls,
      TWeakObjectPtr.Resolve ExampleInitial.GUObjectArray (some Call.Object.Serial) =
        some Call.Object := by decide
  obtain ⟨w', hA, hM, hInv, _, hB⟩ :=
    (multicast_bind_adds_registration ExampleInitial hR 156).2.2 ExampleCalls hID hlive
  exact ⟨hR, hID, hlive, w', hA, hM, hInv, hB rfl⟩

/-! ## One entry per bind -/

/-- In a reachable state whose name counter does not overflow, the name the next bind
generates is not a key of the registry. -/
theorem NextLambdaName_not_key {w : World} (hI : Invariant w) (hID : w.ID + 1 < 2147483648)
    (Class : UClass) (File : String) (Line : Int) :
    w.Entry Class (NextLambdaName w File Line) = none := by
  cases hE : w.Entry Class (NextLambdaName w File Line) with
  | none => rfl
  | some e =>
    obtain ⟨⟨Item, hItem, hN⟩, _⟩ := (HasRouter_iff _ _ _).1 (hI.hasRouter hE)
    exact absurd hN
      (NextLambdaName_fresh w hI.counter hID File Line (hI.tableNames Class Item hItem))

/-- C6: in every reachable state, as long as the `int32` name counter does not overflow, a
bind returns and adds exactly one entry to the registry: the generated name is not yet a key
of the registry; under the class of the target and the generated name there is afterwards an
entry with the target as lambda owner, an explicitly null delegate owner, the delegate's
address and multicast tag, and the supplied closure; the entry of every other key is as
before, so every entry that existed is unchanged; and the registry has exactly one entry
more. -/
theorem Bind_adds_exactly_one_entry (w : World) (h : Reachable w)
    (hID : w.ID + 1 < 2147483648) (Object : UObject)
    (Delegate : Nat) (IsMulticast : Bool) (Callable : TFunction) (File : String) (Line : Int) :
    ∃ w', BindWeakLambdaToDynamicDelegate w Object Delegate IsMulticast Callable File Line =
        some w' ∧
      w.Entry Object.Class (NextLambdaName w File Line) = none ∧
      w'.Entry Object.Class (NextLambdaName w File Line) = some
        { DelegateData := { Pointer := Delegate, IsMulticast := IsMulticast }
          DelegateOwner := none
          LambdaOwner := some Object.Serial
          Lambda := Callable } ∧
      (∀ Class LambdaName, (Class, LambdaName) ≠ (Object.Class, NextLambdaName w File Line) →
        w'.Entry Class LambdaName = w.Entry Class LambdaName) ∧
      (∀ Class LambdaName e, w.Entry Class LambdaName = some e →
        w'.Entry Class LambdaName = some e) ∧
      EntryCount w' = EntryCount w + 1 := by
  have hI := Reachable_invariant h
  obtain ⟨f, w', hB, hb⟩ :=
    Bind_spec w hI.poolAllocated Object Delegate IsMulticast Callable File Line
  have hEntry := Bound_entry hb
  have hfresh := NextLambdaName_not_key hI hID Object.Class File Line
  refine ⟨w', hB, hfresh, ?_, ?_, ?_, ?_⟩
  · rw [hEntry]
    simp [NewEntry]
  · intro Class LambdaName hne
    rw [hEntry, if_neg hne]
  · intro Class LambdaName e hE
    rw [hEntry]
    have : ¬ (Class, LambdaName) = (Object.Class, NextLambdaName w File Line) := by
      intro heq
      obtain ⟨h1, h2⟩ := Prod.mk.inj heq
      rw [h1, h2, hfresh] at hE
      cases hE
    rw [if_neg this, hE]
  · unfold EntryCount
    rw [hb.storage]
    apply EntryCount_store
    intro m hm
    unfold World.Entry at hfresh
    rw [hm] at hfresh
    exact hfresh

/-- C6, on the example: in the world after two binds and a collection, whose registry holds
the entry of `lambda_2_f.cpp:11`, a bind of closure `9` to the delegate at `140` stores its
entry under `lambda_3_f.cpp:12`, leaves the entry of `lambda_2_f.cpp:11` as it is, and the
registry has two entries. -/
theorem Bind_adds_exactly_one_entry_witness :
    Reachable ExampleCollected ∧ ExampleCollected.ID + 1 < 2147483648 ∧
      ExampleCollected.Entry 2 "lambda_2_f.cpp:11" = some
        { DelegateData := { Pointer := 240, IsMulticast := false }, DelegateOwner := some 3,
          LambdaOwner := some 1, Lambda := 8 } ∧
      ∃ w', BindWeakLambdaToDynamicDelegate ExampleCollected ExampleTarget 140 false 9
          "f.cpp" 12 = some w' ∧
        w'.Entry 2 "lambda_3_f.cpp:12" = some
          { DelegateData := { Pointer := 140, IsMulticast := false }, DelegateOwner := none,
            LambdaOwner := some 1, Lambda := 9 } ∧
        w'.Entry 2 "lambda_2_f.cpp:11" = some
          { DelegateData := { Pointer := 240, IsMulticast := false }, DelegateOwner := some 3,
            LambdaOwner := some 1, Lambda := 8 } ∧
        EntryCount w' = 2 := by
  have hID : ExampleCollected.ID + 1 < 2147483648 := by decide
  have hOld : ExampleCollected.Entry 2 "lambda_2_f.cpp:11" = some
      { DelegateData := { Pointer := 240, IsMulticast := false }, DelegateOwner := some 3,
        LambdaOwner := some 1, Lambda := 8 } := by decide
  have hName : NextLambdaName ExampleCollected "f.cpp" 12 = "lambda_3_f.cpp:12" := by decide
  have hCount : EntryCount ExampleCollected = 1 := by decide
  obtain ⟨w', hB, _, hNew, _, hKeep, hC⟩ :=
    Bind_adds_exactly_one_entry ExampleCollected Reachable_ExampleCollected hID ExampleTarget
      140 false 9 "f.cpp" 12
  rw [hName] at hNew
  rw [hCount] at hC
  exact ⟨Reachable_ExampleCollected, hID, hOld, w', hB, hNew, hKeep _ _ _ hOld, hC⟩

end DynamicLambda
